import Mathlib

/-!
A shallow embedding of the `ArrayWithHash` container (ArrayWithHash.h) and a
verification of the frozen claims about it.

Modelling conventions:
* The container is instantiated at its default traits for a 32-bit key and a
  32-bit integer value (`DefaultKeyTraits<int32_t>` / `DefaultValueTraits<uint32_t>`):
  keys and values are natural numbers below `2^32`; `EMPTY_KEY = 2^32 - 1`,
  `REMOVED_KEY = 2^32 - 2`, and the empty value is `2^32 - 1`.  All key
  comparisons in the source go through the unsigned view `Size(key)`, which is
  the number we store.
* `Size` arithmetic (sizes, counts, fill) is modelled on `Nat`.  Spec section 7
  declares word overflow in the sizing arithmetic out of scope and asks an
  implementation to "pick a width" that does not overflow, so the model widens
  the size type to unbounded naturals.  Subtractions that cannot underflow on
  the in-scope domain are reassociated so that truncated `Nat` subtraction
  computes the same value as the C++ unsigned subtraction.
* Buffers are lists.  A cell of `hashValues` whose key is a sentinel is dead in
  C++ (raw memory); the model keeps a junk number there, which is never read.
* The probe loops `FindCellEmpty` / `FindCellKeyOrEmpty` are unbounded in the
  source and cycle with period `hashSize`; they are modelled with fuel
  `hashSize`, so a `none` result corresponds exactly to a non-terminating C++
  loop.  Operations return `Option` results, `none` marking divergence.
* `HashSet` / `HashSetIfNew` retry the public operation after `AdaptSizes`.
  The model inlines one level of retry; a second growth on the retry path is
  modelled as divergence (`none`).  Theorem `adaptSizes_retry_not_full` shows
  that from an invariant-satisfying state the retry never takes the growth
  branch, so the cut-off is unreachable.
-/

namespace AWH

/-- Sentinel key marking an empty hash cell (`DefaultKeyTraits::EMPTY_KEY`,
the maximum representable key). -/
def EMPTY_KEY : Nat := 2 ^ 32 - 1

/-- Sentinel key marking a removed hash cell (`DefaultKeyTraits::REMOVED_KEY`). -/
def REMOVED_KEY : Nat := 2 ^ 32 - 2

/-- The empty value of the default value traits for a 32-bit integer value
(the maximum representable value). -/
def EMPTY_VALUE : Nat := 2 ^ 32 - 1

/-- Minimal size of a non-empty array part (`ARRAY_MIN_SIZE`). -/
def ARRAY_MIN_SIZE : Nat := 8

/-- Minimal size of a non-empty hash part (`HASH_MIN_SIZE`). -/
def HASH_MIN_SIZE : Nat := 8

/-- Knuth multiplicative hash for 32-bit keys (`DefaultHashFunction`),
computed in `uint32_t`. -/
def HashFunction (key : Nat) : Nat := 2654435761 * key % 2 ^ 32

/-- Fast check for reaching the `HASH_MAX_FILL` ratio (`IsHashFull`):
`cfill >= ((sz >> 2) * 3)`. -/
def IsHashFull (cfill sz : Nat) : Bool := decide ((sz >>> 2) * 3 ≤ cfill)

/-- Loop of the default (portable) `log2size`: increment `res` while
`res < 8*sizeof(Size)` and `2^res <= sz`, for the 32-bit `Size`.  The loop
runs at most 32 times; the explicit fuel (32 at the entry point) makes the
recursion structural so that proofs can evaluate it. -/
def log2sizeGo (sz : Nat) : Nat → Nat → Nat
  | 0, res => res
  | fuel + 1, res => if res < 32 ∧ 2 ^ res ≤ sz then log2sizeGo sz fuel (res + 1) else res

/-- `log2size sz` = number of bits needed to store `sz` (capped at 32),
i.e. the smallest `res ≤ 32` with `sz < 2^res` when one exists. -/
def log2size (sz : Nat) : Nat := log2sizeGo sz 32 0

/-- `log2up sz = sz == 0 ? 0 : log2size (sz - 1)`: the exponent of the
smallest power of two that is `≥ sz` (capped at 32). -/
def log2up (sz : Nat) : Nat := if sz = 0 then 0 else log2size (sz - 1)

/-- One generic linear-probe loop: starting from `cell`, advance with
`cell = (cell + 1) & mask` until `stop` accepts the key stored at the cell.
Fuel bounds the number of inspected cells; since the C++ loop is cyclic with
period `hashSize`, running out of fuel `hashSize` means the C++ loop never
terminates. -/
def probe (stop : Nat → Bool) (keys : List Nat) (mask : Nat) : Nat → Nat → Option Nat
  | _, 0 => none
  | cell, fuel + 1 =>
    if stop (keys.getD cell 0) then some cell
    else probe stop keys mask ((cell + 1) &&& mask) fuel

/-- `FindCellEmpty`: first cell holding `EMPTY_KEY`, probing linearly from the
key's hash bucket. -/
def findCellEmpty (keys : List Nat) (m key : Nat) : Option Nat :=
  probe (fun x => x == EMPTY_KEY) keys (m - 1) (HashFunction key &&& (m - 1)) m

/-- `FindCellKeyOrEmpty`: first cell holding `EMPTY_KEY` or the given key,
probing linearly from the key's hash bucket. -/
def findCellKeyOrEmpty (keys : List Nat) (m key : Nat) : Option Nat :=
  probe (fun x => x == EMPTY_KEY || x == key) keys (m - 1) (HashFunction key &&& (m - 1)) m

end AWH

/-- The `ArrayWithHash` container state: the five scalar fields and the three
buffers (`arrayValues`; the hash part's parallel `hashValues` / `hashKeys`). -/
structure ArrayWithHash where
  arraySize : Nat
  arrayCount : Nat
  hashSize : Nat
  hashCount : Nat
  hashFill : Nat
  arrayValues : List Nat
  hashValues : List Nat
  hashKeys : List Nat
deriving DecidableEq, Repr

namespace ArrayWithHash

open AWH

/-- A key that the user may pass: any 32-bit key other than the two sentinels. -/
def IsUserKey (k : Nat) : Prop := k < 2 ^ 32 ∧ k ≠ EMPTY_KEY ∧ k ≠ REMOVED_KEY

instance (k : Nat) : Decidable (IsUserKey k) := by unfold IsUserKey; infer_instance

/-- A key stored in a hash cell is live when it is not one of the sentinels. -/
def IsLiveKey (k : Nat) : Bool := k != EMPTY_KEY && k != REMOVED_KEY

/-- `InArray(key)`: the unsigned view of the key indexes the array part. -/
def InArray (s : ArrayWithHash) (key : Nat) : Prop := key < s.arraySize

instance (s : ArrayWithHash) (key : Nat) : Decidable (InArray s key) := by
  unfold InArray; infer_instance

/-- A pointer returned by the container: either an array slot (index) or a
hash cell (index).  The C++ decides the tier of a raw pointer by address
range; the model keeps the tier explicitly. -/
abbrev Loc : Type := Nat ⊕ Nat

/-- The value a returned pointer points at. -/
def locValue (s : ArrayWithHash) : Loc → Nat
  | Sum.inl i => s.arrayValues.getD i 0
  | Sum.inr c => s.hashValues.getD c 0

/-- The default-constructed container (`Flush`): all sizes and counts zero,
null buffers. -/
def empty : ArrayWithHash := ⟨0, 0, 0, 0, 0, [], [], []⟩

/-! ### Read-only operations -/

/-- `HashGet` (hash-part lookup of `Get`). -/
def HashGet (s : ArrayWithHash) (key : Nat) : Option Nat :=
  if s.hashSize = 0 then some EMPTY_VALUE
  else
    (findCellKeyOrEmpty s.hashKeys s.hashSize key).map fun cell =>
      if s.hashKeys.getD cell 0 = EMPTY_KEY then EMPTY_VALUE else s.hashValues.getD cell 0

/-- `Get`: the value stored for a key, the empty value when absent.
`none` models a diverging probe.  As in the source, `Get` takes the container
by const reference — the state is not part of the result. -/
def Get (s : ArrayWithHash) (key : Nat) : Option Nat :=
  if InArray s key then some (s.arrayValues.getD key 0) else HashGet s key

/-- `HashGetPtr` (hash-part lookup of `GetPtr`). -/
def HashGetPtr (s : ArrayWithHash) (key : Nat) : Option (Option Loc) :=
  if s.hashSize = 0 then some none
  else
    (findCellKeyOrEmpty s.hashKeys s.hashSize key).map fun cell =>
      if s.hashKeys.getD cell 0 = EMPTY_KEY then none else some (Sum.inr cell)

/-- `GetPtr`: pointer to the live slot for a key, null when absent. -/
def GetPtr (s : ArrayWithHash) (key : Nat) : Option (Option Loc) :=
  if InArray s key then
    some (if s.arrayValues.getD key 0 = EMPTY_VALUE then none else some (Sum.inl key))
  else HashGetPtr s key

/-- `GetSize`: number of elements currently inside. -/
def GetSize (s : ArrayWithHash) : Nat := s.arrayCount + s.hashCount

/-! ### Growth policy: `AdaptSizes` -/

/-- The log-histogram built by `AdaptSizes`: `logHisto[b]` counts the array
elements (all lumped at bucket `log2up arraySize`), the to-be-inserted key,
and the live hash keys, by bit width. -/
def logHisto (s : ArrayWithHash) (newKey : Nat) (b : Nat) : Nat :=
  (if b = log2up s.arraySize then s.arrayCount else 0)
    + (if b = log2size newKey then 1 else 0)
    + s.hashKeys.countP fun k => IsLiveKey k && log2size k == b

/-- The array-size selection loop of `AdaptSizes`: walk bit widths `i` from
`log2up arraySize` to 31, keeping the largest viable size.  `required` is
`Size(ARRAY_MIN_FILL * aSize)`; on this domain the double product `0.45 * 2^i`
is never within rounding error of an integer, so its truncation equals
`9 * aSize / 20` exactly.  `cap` is `arrayCount + hashCount + 1`.  The loop index `i` only increments and
the loop exits at `i = 32`, so fuel 32 at the entry point makes the structural
recursion exact. -/
def chooseArrayLoop (histo : Nat → Nat) (lowerBound cap : Nat) :
    Nat → Nat → Nat → Nat → Nat → Nat × Nat
  | 0, _, _, bestSize, bestCount => (bestSize, bestCount)
  | fuel + 1, i, prefSum, bestSize, bestCount =>
    if i < 32 then
      let prefSum2 := prefSum + histo i
      let aSize := 2 ^ i
      let required := 9 * aSize / 20
      if aSize ≤ lowerBound ∨ required ≤ prefSum2 then
        chooseArrayLoop histo lowerBound cap fuel (i + 1) prefSum2 aSize prefSum2
      else if cap < required then (bestSize, bestCount)
      else chooseArrayLoop histo lowerBound cap fuel (i + 1) prefSum2 bestSize bestCount
    else (bestSize, bestCount)

/-- The hash-size selection loop of `AdaptSizes`: double `s` while
`newHashCount >= HASH_MIN_FILL * s * 2`, i.e. while `c ≥ 0.6 * s`; on this
domain the exact-rational comparison `5*c ≥ 3*s` agrees with the double
comparison.  The `0 < s` guard only serves termination: the caller always
starts from `s ≥ 8`, and at `s = 0` the C++ loop would not terminate (that
case returns `s` here and is unreachable). -/
def growHashSizeGo (c : Nat) : Nat → Nat → Nat
  | 0, s => s
  | fuel + 1, s => if 0 < s ∧ 3 * s ≤ 5 * c then growHashSizeGo c fuel (2 * s) else s

/-- Entry point of the hash-size loop.  Each pass triples-or-more the gap
closed towards `5*c`, so `5*c + 1` units of fuel always outlast the loop;
the fuel only makes the recursion structural. -/
def growHashSize (c s : Nat) : Nat := growHashSizeGo c (5 * c + 1) s

/-- The pair (new array size, new array count) chosen by `AdaptSizes`. -/
def adaptArrayChoice (s : ArrayWithHash) (newKey : Nat) : Nat × Nat :=
  let raw := chooseArrayLoop (logHisto s newKey) (max s.arraySize ARRAY_MIN_SIZE)
      (s.arrayCount + s.hashCount + 1) 32 (log2up s.arraySize) 0 0 0
  if s.arraySize = 0 ∧ raw.2 = 0 then (0, raw.2) else raw

/-- Both new sizes chosen by `AdaptSizes` before it calls `Reallocate`.
`newHashCount = arrayCount + hashCount - newArrayCount + 1` is computed as
`arrayCount + hashCount + 1 - newArrayCount`: the same value as the C++
unsigned expression whenever `newArrayCount ≤ arrayCount + hashCount + 1`,
which holds because the prefix sum counts a subset of those keys. -/
def adaptChoice (s : ArrayWithHash) (newKey : Nat) : Nat × Nat :=
  let a := adaptArrayChoice s newKey
  let newHashCount := s.arrayCount + s.hashCount + 1 - a.2
  let h0 := growHashSize newHashCount (max s.hashSize HASH_MIN_SIZE)
  (a.1, if s.hashSize = 0 ∧ newHashCount = 0 then 0 else h0)

/-! ### Relocation -/

/-- `RelocateArrayPart`: keep the old contents and construct the grown suffix
with the empty value (`realloc` keeps the prefix bytes). -/
def relocateArrayPart (s : ArrayWithHash) (newArraySize : Nat) : ArrayWithHash :=
  { s with
    arrayValues := s.arrayValues ++ List.replicate (newArraySize - s.arraySize) EMPTY_VALUE
    arraySize := newArraySize }

/-- One iteration of the `RelocateHashInPlace` cyclic pass over cell `pos`:
mark the key empty; a valid element is migrated into the array part when
`RELOC_ARRAY` and the key now fits, and otherwise reinserted at its
`FindCellEmpty` cell.  (When that cell is `pos` itself the C++ skips the value
relocation; writing the same value back is the identity, so the model writes
unconditionally.) -/
def inPlaceStep (relocArray : Bool) (s : ArrayWithHash) (pos : Nat) : Option ArrayWithHash :=
  let key := s.hashKeys.getD pos 0
  let s1 := { s with hashKeys := s.hashKeys.set pos EMPTY_KEY }
  if IsLiveKey key then
    let value := s1.hashValues.getD pos 0
    if relocArray ∧ key < s1.arraySize then
      some { s1 with
        arrayValues := s1.arrayValues.set key value
        arrayCount := s1.arrayCount + 1 }
    else
      (findCellEmpty s1.hashKeys s1.hashSize key).map fun cell =>
        { s1 with
          hashKeys := s1.hashKeys.set cell key
          hashValues := s1.hashValues.set cell value }
  else some s1

/-- Process a list of cell positions in order, propagating divergence. -/
def processAll (f : ArrayWithHash → Nat → Option ArrayWithHash) :
    List Nat → ArrayWithHash → Option ArrayWithHash
  | [], st => some st
  | p :: ps, st => (f st p).bind (processAll f ps)

/-- The cyclic visit order of `RelocateHashInPlace`: one full round starting
at the first empty cell. -/
def cyclicRound (firstEmpty m : Nat) : List Nat :=
  (List.range m).map fun i => (firstEmpty + i) &&& (m - 1)

/-- `RelocateHashInPlace<RELOC_ARRAY>`: grow the array part if requested, then
a single cyclic pass over the hash table starting at the first empty cell,
migrating newly in-array keys and reinserting the rest; finally recompute
`hashCount` (when the array grew) and set `hashFill = hashCount`.  The C++
scan for the first empty cell runs past the buffer when no empty cell exists;
that is modelled as divergence. -/
def relocateHashInPlace (relocArray : Bool) (newArraySize : Nat)
    (s0 : ArrayWithHash) : Option ArrayWithHash :=
  let s := if relocArray then relocateArrayPart s0 newArraySize else s0
  if s.hashSize = 0 then some s
  else
    let firstEmpty := s.hashKeys.findIdx (· == EMPTY_KEY)
    if firstEmpty < s.hashSize then
      let totalCount := s.arrayCount + s.hashCount
      (processAll (inPlaceStep relocArray) (cyclicRound firstEmpty s.hashSize) s).map
        fun s2 =>
          let newHC := if relocArray then totalCount - s2.arrayCount else s2.hashCount
          { s2 with hashCount := newHC, hashFill := newHC }
    else none

/-- One iteration of the `RelocateHashToNew` pass over old cell `i`: a valid
element is migrated into the array part when `RELOC_ARRAY` and its key now
fits, and otherwise inserted into the new table at its `FindCellEmpty` cell. -/
def toNewStep (relocArray : Bool) (oldKeys oldVals : List Nat)
    (s : ArrayWithHash) (i : Nat) : Option ArrayWithHash :=
  let key := oldKeys.getD i 0
  if IsLiveKey key then
    let value := oldVals.getD i 0
    if relocArray ∧ key < s.arraySize then
      some { s with
        arrayValues := s.arrayValues.set key value
        arrayCount := s.arrayCount + 1 }
    else
      (findCellEmpty s.hashKeys s.hashSize key).map fun cell =>
        { s with
          hashKeys := s.hashKeys.set cell key
          hashValues := s.hashValues.set cell value }
  else some s

/-- `RelocateHashToNew<RELOC_ARRAY>`: grow the array part if requested, swap in
fresh hash buffers (keys all `EMPTY_KEY`, values raw — junk zeros in the
model), reinsert every valid element from the old buffers, then recompute
`hashCount` (when the array grew) and set `hashFill = hashCount`. -/
def relocateHashToNew (relocArray : Bool) (newHashSize newArraySize : Nat)
    (s0 : ArrayWithHash) : Option ArrayWithHash :=
  let s := if relocArray then relocateArrayPart s0 newArraySize else s0
  let oldKeys := s.hashKeys
  let oldVals := s.hashValues
  let oldSize := s.hashSize
  let s2 := { s with
    hashKeys := List.replicate newHashSize EMPTY_KEY
    hashValues := List.replicate newHashSize 0
    hashSize := newHashSize }
  let totalCount := s2.arrayCount + s2.hashCount
  (processAll (toNewStep relocArray oldKeys oldVals) (List.range oldSize) s2).map
    fun s3 =>
      let newHC := if relocArray then totalCount - s3.arrayCount else s3.hashCount
      { s3 with hashCount := newHC, hashFill := newHC }

/-- `Reallocate`: dispatch on which of the two sizes changed. -/
def Reallocate (newArraySize newHashSize : Nat) (s : ArrayWithHash) : Option ArrayWithHash :=
  if newHashSize = s.hashSize then
    if newArraySize = s.arraySize then relocateHashInPlace false newArraySize s
    else relocateHashInPlace true newArraySize s
  else
    if newArraySize = s.arraySize then relocateHashToNew false newHashSize newArraySize s
    else relocateHashToNew true newHashSize newArraySize s

/-- `AdaptSizes`: choose the new sizes jointly and relocate. -/
def AdaptSizes (s : ArrayWithHash) (newKey : Nat) : Option ArrayWithHash :=
  let c := adaptChoice s newKey
  Reallocate c.1 c.2 s

/-! ### Mutating operations -/

/-- The array-part path of `Set`. -/
def arraySet (s : ArrayWithHash) (key value : Nat) : Loc × ArrayWithHash :=
  (Sum.inl key,
   { s with
     arrayCount := s.arrayCount + (if s.arrayValues.getD key 0 = EMPTY_VALUE then 1 else 0)
     arrayValues := s.arrayValues.set key value })

/-- The probe-and-write body of `HashSet` (after the fullness check). -/
def hashSetBody (s : ArrayWithHash) (key value : Nat) : Option (Loc × ArrayWithHash) :=
  (findCellKeyOrEmpty s.hashKeys s.hashSize key).map fun cell =>
    let newElement := s.hashKeys.getD cell 0 == EMPTY_KEY
    (Sum.inr cell,
     { s with
       hashFill := s.hashFill + (if newElement then 1 else 0)
       hashCount := s.hashCount + (if newElement then 1 else 0)
       hashKeys := s.hashKeys.set cell key
       hashValues := s.hashValues.set cell value })

/-- The retried `Set` after `AdaptSizes`; a second growth on this path is
modelled as divergence (see the module comment). -/
def SetRetry (s : ArrayWithHash) (key value : Nat) : Option (Loc × ArrayWithHash) :=
  if InArray s key then some (arraySet s key value)
  else if IsHashFull s.hashFill s.hashSize then none
  else hashSetBody s key value

/-- `HashSet`: grow and retry when the fill cap is reached, else probe and
insert or overwrite. -/
def HashSet (s : ArrayWithHash) (key value : Nat) : Option (Loc × ArrayWithHash) :=
  if IsHashFull s.hashFill s.hashSize then
    (AdaptSizes s key).bind fun s' => SetRetry s' key value
  else hashSetBody s key value

/-- `Set`: write the value for the key, inserting it if absent; returns a
pointer to the stored value. -/
def Set (s : ArrayWithHash) (key value : Nat) : Option (Loc × ArrayWithHash) :=
  if InArray s key then some (arraySet s key value) else HashSet s key value

/-- The array-part path of `SetIfNew`. -/
def arraySetIfNew (s : ArrayWithHash) (key value : Nat) : Option Loc × ArrayWithHash :=
  if s.arrayValues.getD key 0 = EMPTY_VALUE then
    (none,
     { s with
       arrayValues := s.arrayValues.set key value
       arrayCount := s.arrayCount + 1 })
  else (some (Sum.inl key), s)

/-- The probe-and-write body of `HashSetIfNew` (after the fullness check). -/
def hashSetIfNewBody (s : ArrayWithHash) (key value : Nat) :
    Option (Option Loc × ArrayWithHash) :=
  (findCellKeyOrEmpty s.hashKeys s.hashSize key).map fun cell =>
    if s.hashKeys.getD cell 0 != EMPTY_KEY then (some (Sum.inr cell), s)
    else
      (none,
       { s with
         hashFill := s.hashFill + 1
         hashCount := s.hashCount + 1
         hashKeys := s.hashKeys.set cell key
         hashValues := s.hashValues.set cell value })

/-- The retried `SetIfNew` after `AdaptSizes`; a second growth on this path is
modelled as divergence (see the module comment). -/
def SetIfNewRetry (s : ArrayWithHash) (key value : Nat) :
    Option (Option Loc × ArrayWithHash) :=
  if InArray s key then some (arraySetIfNew s key value)
  else if IsHashFull s.hashFill s.hashSize then none
  else hashSetIfNewBody s key value

/-- `HashSetIfNew`: grow and retry when the fill cap is reached, else probe
and insert only when the key is new. -/
def HashSetIfNew (s : ArrayWithHash) (key value : Nat) :
    Option (Option Loc × ArrayWithHash) :=
  if IsHashFull s.hashFill s.hashSize then
    (AdaptSizes s key).bind fun s' => SetIfNewRetry s' key value
  else hashSetIfNewBody s key value

/-- `SetIfNew`: when the key is present return a pointer to the stored value,
else insert and return null. -/
def SetIfNew (s : ArrayWithHash) (key value : Nat) :
    Option (Option Loc × ArrayWithHash) :=
  if InArray s key then some (arraySetIfNew s key value) else HashSetIfNew s key value

/-- `HashRemove`: find the key; when present mark its cell `REMOVED_KEY` and
decrement `hashCount` (not `hashFill`). -/
def HashRemove (s : ArrayWithHash) (key : Nat) : Option ArrayWithHash :=
  if s.hashSize = 0 then some s
  else
    (findCellKeyOrEmpty s.hashKeys s.hashSize key).map fun cell =>
      if s.hashKeys.getD cell 0 = EMPTY_KEY then s
      else { s with
        hashKeys := s.hashKeys.set cell REMOVED_KEY
        hashCount := s.hashCount - 1 }

/-- `Remove`: in the array part reset the slot to the empty value (branchless
count update); in the hash part tombstone the cell. -/
def Remove (s : ArrayWithHash) (key : Nat) : Option ArrayWithHash :=
  if InArray s key then
    some { s with
      arrayCount := s.arrayCount - (if s.arrayValues.getD key 0 = EMPTY_VALUE then 0 else 1)
      arrayValues := s.arrayValues.set key EMPTY_VALUE }
  else HashRemove s key

/-- `RemovePtr`: remove the element a live pointer designates. -/
def RemovePtr (s : ArrayWithHash) : Loc → ArrayWithHash
  | Sum.inl i =>
    { s with arrayCount := s.arrayCount - 1, arrayValues := s.arrayValues.set i EMPTY_VALUE }
  | Sum.inr c =>
    { s with hashCount := s.hashCount - 1, hashKeys := s.hashKeys.set c REMOVED_KEY }

/-- `KeyOf`: the key a live pointer designates. -/
def KeyOf (s : ArrayWithHash) : Loc → Nat
  | Sum.inl i => i
  | Sum.inr c => s.hashKeys.getD c 0

/-- `Clear`: reset every array slot to the empty value and every hash key to
`EMPTY_KEY` (each guarded by the counters, as in the source), zero the three
counters, keep both sizes and buffers. -/
def Clear (s : ArrayWithHash) : ArrayWithHash :=
  { s with
    arrayValues :=
      if s.arraySize ≠ 0 ∧ s.arrayCount ≠ 0 then List.replicate s.arraySize EMPTY_VALUE
      else s.arrayValues
    hashKeys :=
      if s.hashSize ≠ 0 ∧ s.hashFill ≠ 0 then List.replicate s.hashSize EMPTY_KEY
      else s.hashKeys
    arrayCount := 0
    hashCount := 0
    hashFill := 0 }

/-- `Reserve`: round the requested lower bounds up to powers of two clamped by
the current sizes and the minimum sizes, and reallocate when a size changes or
a clean is forced. -/
def Reserve (s : ArrayWithHash) (arraySizeLB hashSizeLB : Nat)
    (alwaysCleanHash : Bool) : Option ArrayWithHash :=
  let aLB := if arraySizeLB ≠ 0 ∨ s.arraySize ≠ 0 then
      max (2 ^ log2up arraySizeLB) (max s.arraySize ARRAY_MIN_SIZE) else arraySizeLB
  let hLB := if hashSizeLB ≠ 0 ∨ s.hashSize ≠ 0 then
      max (2 ^ log2up hashSizeLB) (max s.hashSize HASH_MIN_SIZE) else hashSizeLB
  if aLB = s.arraySize ∧ hLB = s.hashSize ∧ alwaysCleanHash = false then some s
  else Reallocate aLB hLB s

/-- `Swap`: memberwise exchange of the eight fields. -/
def Swap (a b : ArrayWithHash) : ArrayWithHash × ArrayWithHash := (b, a)

end ArrayWithHash

/-! ## Derived definitions used by the invariant and the proofs -/

namespace AWH

/-- Powers of two: the shape of every non-zero buffer size. -/
def Pow2 (m : Nat) : Prop := ∃ t, m = 2 ^ t

instance (m : Nat) : Decidable (Pow2 m) :=
  decidable_of_iff (¬ ∀ t, t < m + 1 → m ≠ 2 ^ t) (by
    constructor
    · intro h
      push_neg at h
      obtain ⟨t, _, ht⟩ := h
      exact ⟨t, ht⟩
    · rintro ⟨t, rfl⟩ hall
      exact hall t (by have := Nat.lt_two_pow t; omega) rfl)

/-- The hash bucket a key's probe starts from. -/
def hashBase (m key : Nat) : Nat := HashFunction key % m

end AWH

namespace ArrayWithHash

open AWH

/-- The invariant of the container, matching `AssertCorrectness` plus the
structural facts the C++ type system provides (buffer lengths, 32-bit keys).
`arrayCap` records that the array part never exceeds `2^31` cells, which holds
because `AdaptSizes` only picks array sizes `2^i` with `i ≤ 31` and in-scope
`Reserve` requests are below the overflow domain (spec section 7). -/
structure Inv (s : ArrayWithHash) : Prop where
  arrayLen : s.arrayValues.length = s.arraySize
  keysLen : s.hashKeys.length = s.hashSize
  valsLen : s.hashValues.length = s.hashSize
  arrayPow2 : s.arraySize = 0 ∨ (Pow2 s.arraySize ∧ ARRAY_MIN_SIZE ≤ s.arraySize)
  hashPow2 : s.hashSize = 0 ∨ (Pow2 s.hashSize ∧ HASH_MIN_SIZE ≤ s.hashSize)
  arrayCap : s.arraySize ≤ 2 ^ 31
  arrayCountEq : s.arrayCount = s.arrayValues.countP (fun v => v != EMPTY_VALUE)
  hashCountEq : s.hashCount = s.hashKeys.countP IsLiveKey
  hashFillEq : s.hashFill = s.hashKeys.countP (fun k => k != EMPTY_KEY)
  fillCap : 4 * s.hashFill ≤ 3 * s.hashSize
  keysLt : ∀ c, c < s.hashSize → s.hashKeys.getD c 0 < 2 ^ 32
  liveGe : ∀ c, c < s.hashSize → IsLiveKey (s.hashKeys.getD c 0) = true →
    s.arraySize ≤ s.hashKeys.getD c 0
  valsLive : ∀ c, c < s.hashSize → IsLiveKey (s.hashKeys.getD c 0) = true →
    s.hashValues.getD c 0 ≠ EMPTY_VALUE
  distinct : ∀ c1, c1 < s.hashSize → ∀ c2, c2 < s.hashSize →
    IsLiveKey (s.hashKeys.getD c1 0) = true →
    s.hashKeys.getD c1 0 = s.hashKeys.getD c2 0 → c1 = c2
  reach : ∀ c, c < s.hashSize → IsLiveKey (s.hashKeys.getD c 0) = true →
    findCellKeyOrEmpty s.hashKeys s.hashSize (s.hashKeys.getD c 0) = some c

/-- The hash cell currently holding a key, if any. -/
def hashCellOf (s : ArrayWithHash) (k : Nat) : Option Nat :=
  (List.range s.hashSize).find? fun c => s.hashKeys.getD c 0 == k

/-- The abstract partial map denoted by a state: array slots below
`arraySize`, hash cells above. -/
def model (s : ArrayWithHash) (k : Nat) : Option Nat :=
  if k < s.arraySize then
    (if s.arrayValues.getD k 0 = EMPTY_VALUE then none else some (s.arrayValues.getD k 0))
  else (hashCellOf s k).map fun c => s.hashValues.getD c 0

/-- A concrete state with one array-tier entry (key 5, value 99); the result
of `Set empty 5 99`.  Used to instantiate theorems with hypotheses. -/
def wArr : ArrayWithHash :=
  ⟨8, 1, 0, 0, 0, (List.replicate 8 EMPTY_VALUE).set 5 99, [], []⟩

/-- A concrete state with one hash-tier entry (key 1000, value 7, in its home
bucket 0); the result of `Set empty 1000 7`. -/
def wHash : ArrayWithHash :=
  ⟨0, 0, 8, 1, 1, [], (List.replicate 8 0).set 0 7,
    (List.replicate 8 EMPTY_KEY).set 0 1000⟩

/-- Loop invariant of the `RelocateHashToNew` reinsertion pass, after the
first `n` old cells have been processed.  `sg` is the state right after the
array part grew and the fresh hash buffers were computed (but before the
swap), `oldKeys`/`oldVals` the old hash buffers, `newH` the new table size. -/
structure ToNewInv (relocArray : Bool) (sg : ArrayWithHash) (oldKeys oldVals : List Nat)
    (newH n : Nat) (st : ArrayWithHash) : Prop where
  szA : st.arraySize = sg.arraySize
  szH : st.hashSize = newH
  cntH : st.hashCount = sg.hashCount
  fill : st.hashFill = sg.hashFill
  lenA : st.arrayValues.length = sg.arraySize
  lenK : st.hashKeys.length = newH
  lenV : st.hashValues.length = newH
  cntA : st.arrayCount = st.arrayValues.countP (fun v => v != EMPTY_VALUE)
  arrGe : sg.arrayCount ≤ st.arrayCount
  noRem : ∀ c, c < newH → st.hashKeys.getD c 0 = EMPTY_KEY ∨
      IsLiveKey (st.hashKeys.getD c 0) = true
  keysLt : ∀ c, c < newH → st.hashKeys.getD c 0 < 2 ^ 32
  liveGe : ∀ c, c < newH → IsLiveKey (st.hashKeys.getD c 0) = true →
      sg.arraySize ≤ st.hashKeys.getD c 0
  valsLive : ∀ c, c < newH → IsLiveKey (st.hashKeys.getD c 0) = true →
      st.hashValues.getD c 0 ≠ EMPTY_VALUE
  distinct : ∀ c1, c1 < newH → ∀ c2, c2 < newH →
      IsLiveKey (st.hashKeys.getD c1 0) = true →
      st.hashKeys.getD c1 0 = st.hashKeys.getD c2 0 → c1 = c2
  reach : ∀ c, c < newH → IsLiveKey (st.hashKeys.getD c 0) = true →
      AWH.findCellKeyOrEmpty st.hashKeys newH (st.hashKeys.getD c 0) = some c
  liveCnt : st.hashKeys.countP IsLiveKey + st.arrayCount
      = (oldKeys.take n).countP IsLiveKey + sg.arrayCount
  migr : st.arrayCount = sg.arrayCount
      + (oldKeys.take n).countP (fun k => IsLiveKey k && decide (k < sg.arraySize))
  fwd : ∀ c, c < n → IsLiveKey (oldKeys.getD c 0) = true →
      (oldKeys.getD c 0 < sg.arraySize →
          st.arrayValues.getD (oldKeys.getD c 0) 0 = oldVals.getD c 0) ∧
      (sg.arraySize ≤ oldKeys.getD c 0 →
          ∃ c', c' < newH ∧ st.hashKeys.getD c' 0 = oldKeys.getD c 0 ∧
            st.hashValues.getD c' 0 = oldVals.getD c 0)
  bwd : ∀ c', c' < newH → IsLiveKey (st.hashKeys.getD c' 0) = true →
      ∃ c, c < n ∧ oldKeys.getD c 0 = st.hashKeys.getD c' 0 ∧
        oldVals.getD c 0 = st.hashValues.getD c' 0
  arrFrame : ∀ idx, idx < sg.arraySize →
      (∀ c, c < n → IsLiveKey (oldKeys.getD c 0) = true → oldKeys.getD c 0 ≠ idx) →
      st.arrayValues.getD idx 0 = sg.arrayValues.getD idx 0

end ArrayWithHash

namespace ArrayWithHash

open AWH

/-- The offset of cell `c` in the cyclic visit order of `RelocateHashInPlace`,
which starts at the first empty cell `fe`. -/
def offOf (fe m c : Nat) : Nat := (c + m - fe) % m

/-- The positions visited by the first `i` steps of the in-place pass. -/
def visList (fe m i : Nat) : List Nat :=
  (List.range i).map fun t => (fe + t) % m

/-- A probe path for key `k` ending at cell `c` whose interior cells all lie
in the processed region (`offOf fe m _ < i`) and are neither empty nor hold
`k`.  Such a path pins down `findCellKeyOrEmpty keys m k = some c`. -/
def PathTo (keys : List Nat) (m fe i k c : Nat) : Prop :=
  ∃ j, j < m ∧ c = (AWH.hashBase m k + j) % m ∧
    ∀ t, t < j → offOf fe m ((AWH.hashBase m k + t) % m) < i ∧
      keys.getD ((AWH.hashBase m k + t) % m) 0 ≠ EMPTY_KEY ∧
      keys.getD ((AWH.hashBase m k + t) % m) 0 ≠ k

/-- The migration predicate of the in-place pass, as a function of the visited
position: the original key there is valid and now belongs to the array part. -/
def migAt (relocArray : Bool) (sg : ArrayWithHash) (p : Nat) : Bool :=
  relocArray && IsLiveKey (sg.hashKeys.getD p 0)
    && decide (sg.hashKeys.getD p 0 < sg.arraySize)

/-- Loop invariant of the single cyclic pass of `RelocateHashInPlace` after
`i` steps, starting from the post-growth state `sg` whose cell `fe` is empty:
cells not yet visited hold their original contents, visited cells are empty or
hold reinserted elements reachable through paths inside the visited region,
and every original element visited so far has moved to its final place. -/
structure InPlaceInv (relocArray : Bool) (sg : ArrayWithHash) (fe m i : Nat)
    (st : ArrayWithHash) : Prop where
  szA : st.arraySize = sg.arraySize
  szH : st.hashSize = m
  cntH : st.hashCount = sg.hashCount
  fill : st.hashFill = sg.hashFill
  lenA : st.arrayValues.length = sg.arraySize
  lenK : st.hashKeys.length = m
  lenV : st.hashValues.length = m
  cntA : st.arrayCount = st.arrayValues.countP (fun v => v != EMPTY_VALUE)
  arrGe : sg.arrayCount ≤ st.arrayCount
  unproc : ∀ c, c < m → i ≤ offOf fe m c →
      st.hashKeys.getD c 0 = sg.hashKeys.getD c 0 ∧
      st.hashValues.getD c 0 = sg.hashValues.getD c 0
  procNoRem : ∀ c, c < m → offOf fe m c < i →
      st.hashKeys.getD c 0 = EMPTY_KEY ∨ IsLiveKey (st.hashKeys.getD c 0) = true
  keysLt : ∀ c, c < m → st.hashKeys.getD c 0 < 2 ^ 32
  liveGeP : ∀ c, c < m → offOf fe m c < i → IsLiveKey (st.hashKeys.getD c 0) = true →
      sg.arraySize ≤ st.hashKeys.getD c 0
  valsLiveP : ∀ c, c < m → offOf fe m c < i → IsLiveKey (st.hashKeys.getD c 0) = true →
      st.hashValues.getD c 0 ≠ EMPTY_VALUE
  distinct : ∀ c1, c1 < m → ∀ c2, c2 < m →
      IsLiveKey (st.hashKeys.getD c1 0) = true →
      st.hashKeys.getD c1 0 = st.hashKeys.getD c2 0 → c1 = c2
  pathOK : ∀ c, c < m → offOf fe m c < i → IsLiveKey (st.hashKeys.getD c 0) = true →
      PathTo st.hashKeys m fe i (st.hashKeys.getD c 0) c
  liveCnt : st.hashKeys.countP IsLiveKey + (visList fe m i).countP (migAt relocArray sg)
      = sg.hashKeys.countP IsLiveKey
  arrCnt : st.arrayCount = sg.arrayCount + (visList fe m i).countP (migAt relocArray sg)
  fwd : ∀ c, c < m → offOf fe m c < i → IsLiveKey (sg.hashKeys.getD c 0) = true →
      (relocArray = true ∧ sg.hashKeys.getD c 0 < sg.arraySize →
        st.arrayValues.getD (sg.hashKeys.getD c 0) 0 = sg.hashValues.getD c 0) ∧
      (¬(relocArray = true ∧ sg.hashKeys.getD c 0 < sg.arraySize) →
        ∃ c', c' < m ∧ offOf fe m c' < i ∧
          st.hashKeys.getD c' 0 = sg.hashKeys.getD c 0 ∧
          st.hashValues.getD c' 0 = sg.hashValues.getD c 0)
  bwd : ∀ c', c' < m → offOf fe m c' < i →
      IsLiveKey (st.hashKeys.getD c' 0) = true →
      ∃ c, c < m ∧ offOf fe m c < i ∧
        sg.hashKeys.getD c 0 = st.hashKeys.getD c' 0 ∧
        sg.hashValues.getD c 0 = st.hashValues.getD c' 0
  arrFrame : ∀ idx, idx < sg.arraySize →
      (∀ c, c < m → offOf fe m c < i → IsLiveKey (sg.hashKeys.getD c 0) = true →
        sg.hashKeys.getD c 0 ≠ idx) →
      st.arrayValues.getD idx 0 = sg.arrayValues.getD idx 0

/-- Membership as `Get` reports it: a user key whose lookup returns a value
other than the empty value. -/
def IsPresent (s : ArrayWithHash) (k : Nat) : Bool :=
  decide (IsUserKey k) &&
    (match Get s k with
     | some v => v != EMPTY_VALUE
     | none => false)

/-- The number of user keys the container currently maps to a value. -/
def presentCount (s : ArrayWithHash) : Nat :=
  (List.range (2 ^ 32)).countP (IsPresent s)

/-- The states constructible from the default-constructed container by the
public mutating operations, each called within its documented precondition. -/
inductive Reachable : ArrayWithHash → Prop where
  | init : Reachable empty
  | set (s : ArrayWithHash) (p : Loc × ArrayWithHash) (key value : Nat) :
      Reachable s → IsUserKey key → value ≠ EMPTY_VALUE →
      Set s key value = some p → Reachable p.2
  | setIfNew (s : ArrayWithHash) (p : Option Loc × ArrayWithHash) (key value : Nat) :
      Reachable s → IsUserKey key → value ≠ EMPTY_VALUE →
      SetIfNew s key value = some p → Reachable p.2
  | remove (s s' : ArrayWithHash) (key : Nat) :
      Reachable s → IsUserKey key → Remove s key = some s' → Reachable s'
  | clear (s : ArrayWithHash) : Reachable s → Reachable (Clear s)
  | reserve (s s' : ArrayWithHash) (aLB hLB : Nat) (clean : Bool) :
      Reachable s → aLB ≤ 2 ^ 31 → Reserve s aLB hLB clean = some s' → Reachable s'

end ArrayWithHash

/-! ## Arithmetic and probe infrastructure -/

namespace AWH

lemma Pow2.pos {m : Nat} (h : Pow2 m) : 0 < m := by
  obtain ⟨t, rfl⟩ := h; exact Nat.pos_pow_of_pos t (by norm_num)

/-- Masking with `m - 1` is reduction mod `m` for a power of two `m`. -/
lemma land_eq_mod {m : Nat} (h : Pow2 m) (x : Nat) : x &&& (m - 1) = x % m := by
  obtain ⟨t, rfl⟩ := h; exact Nat.and_pow_two_sub_one_eq_mod x t

lemma hashBase_lt {m : Nat} (hm : 0 < m) (key : Nat) : hashBase m key < m :=
  Nat.mod_lt _ hm

lemma shift_pos_mod (m start j : Nat) :
    ((start + 1) % m + j) % m = (start + (j + 1)) % m := by
  rw [Nat.mod_add_mod]; congr 1; omega

lemma probe_zero (stop : Nat → Bool) (keys : List Nat) (mask cell : Nat) :
    probe stop keys mask cell 0 = none := rfl

lemma probe_succ (stop : Nat → Bool) (keys : List Nat) (mask cell fuel : Nat) :
    probe stop keys mask cell (fuel + 1) =
      if stop (keys.getD cell 0) then some cell
      else probe stop keys mask ((cell + 1) &&& mask) fuel := rfl

/-- Characterization of the probe loop: it returns `some c` exactly when `c`
is the first cell in the probe order whose key satisfies `stop`, within the
fuel bound. -/
lemma probe_eq_some_iff {stop : Nat → Bool} {keys : List Nat} {m : Nat} (hm : Pow2 m) :
    ∀ (fuel start c : Nat), start < m →
      (probe stop keys (m - 1) start fuel = some c ↔
        ∃ j, j < fuel ∧ c = (start + j) % m ∧
          stop (keys.getD ((start + j) % m) 0) = true ∧
          ∀ i, i < j → stop (keys.getD ((start + i) % m) 0) = false) := by
  intro fuel
  induction fuel with
  | zero =>
    intro start c _
    rw [probe_zero]
    constructor
    · intro h; cases h
    · rintro ⟨j, hj, _⟩; omega
  | succ n ih =>
    intro start c hs
    rw [probe_succ]
    by_cases h : stop (keys.getD start 0) = true
    · rw [if_pos h]
      constructor
      · intro hc
        have hc' : start = c := by injection hc
        subst hc'
        exact ⟨0, by omega, by rw [Nat.add_zero, Nat.mod_eq_of_lt hs],
          by rw [Nat.add_zero, Nat.mod_eq_of_lt hs]; exact h,
          fun i hi => absurd hi (by omega)⟩
      · rintro ⟨j, _, hc, hstop, hmin⟩
        cases j with
        | zero => rw [hc, Nat.add_zero, Nat.mod_eq_of_lt hs]
        | succ j' =>
          have h0 := hmin 0 (Nat.succ_pos _)
          rw [Nat.add_zero, Nat.mod_eq_of_lt hs, h] at h0
          cases h0
    · rw [if_neg h]
      have h' : stop (keys.getD start 0) = false := eq_false_of_ne_true h
      have hstep : (start + 1) &&& (m - 1) = (start + 1) % m := land_eq_mod hm _
      rw [hstep, ih ((start + 1) % m) c (Nat.mod_lt _ hm.pos)]
      constructor
      · rintro ⟨j, hj, hc, hstop, hmin⟩
        refine ⟨j + 1, by omega, ?_, ?_, ?_⟩
        · rw [hc, shift_pos_mod]
        · rw [shift_pos_mod] at hstop; exact hstop
        · intro i hi
          cases i with
          | zero => rw [Nat.add_zero, Nat.mod_eq_of_lt hs]; exact h'
          | succ i' =>
            have hmi := hmin i' (by omega)
            rw [shift_pos_mod] at hmi; exact hmi
      · rintro ⟨j, hj, hc, hstop, hmin⟩
        cases j with
        | zero =>
          rw [Nat.add_zero, Nat.mod_eq_of_lt hs, h'] at hstop
          cases hstop
        | succ j' =>
          refine ⟨j', by omega, ?_, ?_, ?_⟩
          · rw [hc, shift_pos_mod]
          · rw [shift_pos_mod]; exact hstop
          · intro i hi
            rw [shift_pos_mod]
            exact hmin (i + 1) (by omega)

/-- The probe returns a cell within fuel `fuel` exactly when some position in
the first `fuel` probe steps satisfies `stop`. -/
lemma probe_isSome_iff {stop : Nat → Bool} {keys : List Nat} {m : Nat} (hm : Pow2 m) :
    ∀ (fuel start : Nat), start < m →
      ((probe stop keys (m - 1) start fuel).isSome = true ↔
        ∃ j, j < fuel ∧ stop (keys.getD ((start + j) % m) 0) = true) := by
  intro fuel
  induction fuel with
  | zero =>
    intro start _
    rw [probe_zero]
    simp only [Option.isSome_none, Bool.false_eq_true, false_iff, not_exists]
    intro j
    rintro ⟨hj, _⟩; omega
  | succ n ih =>
    intro start hs
    rw [probe_succ]
    by_cases h : stop (keys.getD start 0) = true
    · rw [if_pos h]
      simp only [Option.isSome_some, true_iff]
      exact ⟨0, by omega, by rw [Nat.add_zero, Nat.mod_eq_of_lt hs]; exact h⟩
    · rw [if_neg h]
      have h' : stop (keys.getD start 0) = false := eq_false_of_ne_true h
      have hstep : (start + 1) &&& (m - 1) = (start + 1) % m := land_eq_mod hm _
      rw [hstep, ih ((start + 1) % m) (Nat.mod_lt _ hm.pos)]
      constructor
      · rintro ⟨j, hj, hstop⟩
        rw [shift_pos_mod] at hstop
        exact ⟨j + 1, by omega, hstop⟩
      · rintro ⟨j, hj, hstop⟩
        cases j with
        | zero =>
          rw [Nat.add_zero, Nat.mod_eq_of_lt hs, h'] at hstop
          cases hstop
        | succ j' =>
          refine ⟨j', by omega, ?_⟩
          rw [shift_pos_mod]; exact hstop

/-- With full fuel `m`, the probe succeeds as soon as any cell at all
satisfies `stop` (the `m` probe steps cover every cell). -/
lemma probe_isSome_of_stop {stop : Nat → Bool} {keys : List Nat} {m : Nat} (hm : Pow2 m)
    {start : Nat} (hs : start < m) {c : Nat} (hc : c < m)
    (hstop : stop (keys.getD c 0) = true) :
    (probe stop keys (m - 1) start m).isSome = true := by
  rw [probe_isSome_iff hm m start hs]
  refine ⟨(c + m - start) % m, Nat.mod_lt _ hm.pos, ?_⟩
  have harith : (start + (c + m - start) % m) % m = c := by
    rw [Nat.add_mod_mod]
    have h1 : start + (c + m - start) = c + m := by omega
    rw [h1, Nat.add_mod_right, Nat.mod_eq_of_lt hc]
  rw [harith]; exact hstop

end AWH

/-! ## Specialized probe lemmas and `log2size` facts -/

namespace AWH

lemma stopE_true {x : Nat} : ((x == EMPTY_KEY) = true) ↔ x = EMPTY_KEY := beq_iff_eq

lemma stopE_false {x : Nat} : ((x == EMPTY_KEY) = false) ↔ x ≠ EMPTY_KEY :=
  beq_eq_false_iff_ne

lemma stopKE_true {x k : Nat} :
    ((x == EMPTY_KEY || x == k) = true) ↔ (x = EMPTY_KEY ∨ x = k) := by
  rw [Bool.or_eq_true, beq_iff_eq, beq_iff_eq]

lemma stopKE_false {x k : Nat} :
    ((x == EMPTY_KEY || x == k) = false) ↔ (x ≠ EMPTY_KEY ∧ x ≠ k) := by
  rw [Bool.or_eq_false_iff, beq_eq_false_iff_ne, beq_eq_false_iff_ne]

/-- `findCellEmpty` characterized: the first `EMPTY_KEY` cell in probe order. -/
lemma findCellEmpty_eq_some_iff {keys : List Nat} {m key c : Nat} (hm : Pow2 m) :
    findCellEmpty keys m key = some c ↔
      ∃ j, j < m ∧ c = (hashBase m key + j) % m ∧
        keys.getD ((hashBase m key + j) % m) 0 = EMPTY_KEY ∧
        ∀ i, i < j → keys.getD ((hashBase m key + i) % m) 0 ≠ EMPTY_KEY := by
  unfold findCellEmpty
  rw [land_eq_mod hm]
  rw [probe_eq_some_iff hm m (HashFunction key % m) c (Nat.mod_lt _ hm.pos)]
  unfold hashBase
  constructor
  · rintro ⟨j, hj, hc, hstop, hmin⟩
    rw [stopE_true] at hstop
    exact ⟨j, hj, hc, hstop, fun i hi => stopE_false.mp (hmin i hi)⟩
  · rintro ⟨j, hj, hc, hstop, hmin⟩
    exact ⟨j, hj, hc, stopE_true.mpr hstop, fun i hi => stopE_false.mpr (hmin i hi)⟩

/-- `findCellKeyOrEmpty` characterized: the first cell in probe order holding
`EMPTY_KEY` or the probed key. -/
lemma findCellKeyOrEmpty_eq_some_iff {keys : List Nat} {m key c : Nat} (hm : Pow2 m) :
    findCellKeyOrEmpty keys m key = some c ↔
      ∃ j, j < m ∧ c = (hashBase m key + j) % m ∧
        (keys.getD ((hashBase m key + j) % m) 0 = EMPTY_KEY ∨
          keys.getD ((hashBase m key + j) % m) 0 = key) ∧
        ∀ i, i < j → keys.getD ((hashBase m key + i) % m) 0 ≠ EMPTY_KEY ∧
          keys.getD ((hashBase m key + i) % m) 0 ≠ key := by
  unfold findCellKeyOrEmpty
  rw [land_eq_mod hm]
  rw [probe_eq_some_iff hm m (HashFunction key % m) c (Nat.mod_lt _ hm.pos)]
  unfold hashBase
  constructor
  · rintro ⟨j, hj, hc, hstop, hmin⟩
    rw [stopKE_true] at hstop
    exact ⟨j, hj, hc, hstop, fun i hi => stopKE_false.mp (hmin i hi)⟩
  · rintro ⟨j, hj, hc, hstop, hmin⟩
    exact ⟨j, hj, hc, stopKE_true.mpr hstop, fun i hi => stopKE_false.mpr (hmin i hi)⟩

/-- Whatever cell `findCellEmpty` returns is in range and holds `EMPTY_KEY`. -/
lemma findCellEmpty_spec {keys : List Nat} {m key c : Nat} (hm : Pow2 m)
    (h : findCellEmpty keys m key = some c) :
    c < m ∧ keys.getD c 0 = EMPTY_KEY := by
  rw [findCellEmpty_eq_some_iff hm] at h
  obtain ⟨j, _, hc, hstop, _⟩ := h
  subst hc
  exact ⟨Nat.mod_lt _ hm.pos, hstop⟩

/-- Whatever cell `findCellKeyOrEmpty` returns is in range and holds
`EMPTY_KEY` or the probed key. -/
lemma findCellKeyOrEmpty_spec {keys : List Nat} {m key c : Nat} (hm : Pow2 m)
    (h : findCellKeyOrEmpty keys m key = some c) :
    c < m ∧ (keys.getD c 0 = EMPTY_KEY ∨ keys.getD c 0 = key) := by
  rw [findCellKeyOrEmpty_eq_some_iff hm] at h
  obtain ⟨j, _, hc, hstop, _⟩ := h
  subst hc
  exact ⟨Nat.mod_lt _ hm.pos, hstop⟩

/-- `findCellEmpty` terminates whenever some cell holds `EMPTY_KEY`. -/
lemma findCellEmpty_isSome {keys : List Nat} {m key : Nat} (hm : Pow2 m)
    (h : ∃ c, c < m ∧ keys.getD c 0 = EMPTY_KEY) :
    (findCellEmpty keys m key).isSome = true := by
  obtain ⟨c, hc, he⟩ := h
  unfold findCellEmpty
  rw [land_eq_mod hm]
  exact probe_isSome_of_stop hm (Nat.mod_lt _ hm.pos) hc (stopE_true.mpr he)

/-- `findCellKeyOrEmpty` terminates whenever some cell holds `EMPTY_KEY`. -/
lemma findCellKeyOrEmpty_isSome {keys : List Nat} {m key : Nat} (hm : Pow2 m)
    (h : ∃ c, c < m ∧ keys.getD c 0 = EMPTY_KEY) :
    (findCellKeyOrEmpty keys m key).isSome = true := by
  obtain ⟨c, hc, he⟩ := h
  unfold findCellKeyOrEmpty
  rw [land_eq_mod hm]
  exact probe_isSome_of_stop hm (Nat.mod_lt _ hm.pos) hc (stopKE_true.mpr (Or.inl he))

/-! `log2size` is the 32-capped bit length. -/

lemma log2sizeGo_eq (sz : Nat) :
    ∀ fuel r, 32 - r ≤ fuel → r ≤ 32 → (∀ i, i < r → 2 ^ i ≤ sz) →
      log2sizeGo sz fuel r = min 32 sz.size := by
  intro fuel
  induction fuel with
  | zero =>
    intro r hd hr hlow
    have hr32 : r = 32 := by omega
    subst hr32
    show (32 : Nat) = min 32 sz.size
    have h31 : 31 < sz.size := Nat.lt_size.mpr (hlow 31 (by omega))
    rw [Nat.min_eq_left (by omega)]
  | succ d ih =>
    intro r hd hr hlow
    show (if r < 32 ∧ 2 ^ r ≤ sz then log2sizeGo sz d (r + 1) else r) = min 32 sz.size
    by_cases hrlt : r < 32
    · by_cases hc : 2 ^ r ≤ sz
      · rw [if_pos ⟨hrlt, hc⟩]
        refine ih (r + 1) (by omega) (by omega) ?_
        intro i hi
        rcases Nat.lt_succ_iff_lt_or_eq.mp hi with h | h
        · exact hlow i h
        · subst h; exact hc
      · rw [if_neg (by tauto)]
        have hszlt : sz < 2 ^ r := by omega
        have hle : sz.size ≤ r := Nat.size_le.mpr hszlt
        have hge : r ≤ sz.size := by
          cases r with
          | zero => omega
          | succ rr =>
            have := Nat.lt_size.mpr (hlow rr (by omega))
            omega
        have heq : sz.size = r := le_antisymm hle hge
        rw [heq, Nat.min_eq_right (by omega)]
    · rw [if_neg (by tauto)]
      have hr32 : r = 32 := by omega
      subst hr32
      have h31 : 31 < sz.size := Nat.lt_size.mpr (hlow 31 (by omega))
      rw [Nat.min_eq_left (by omega)]

lemma log2size_eq (sz : Nat) : log2size sz = min 32 sz.size :=
  log2sizeGo_eq sz 32 0 (by omega) (by omega) (fun i hi => absurd hi (by omega))

lemma log2size_le_iff {sz i : Nat} (hi : i ≤ 32) (hsz : sz < 2 ^ 32) :
    log2size sz ≤ i ↔ sz < 2 ^ i := by
  rw [log2size_eq]
  have hsize : sz.size ≤ 32 := Nat.size_le.mpr hsz
  rw [Nat.min_eq_right hsize]
  exact Nat.size_le

lemma log2size_le_32 (sz : Nat) : log2size sz ≤ 32 := by
  rw [log2size_eq]; omega

lemma log2up_pow2 {t : Nat} (ht : t ≤ 32) : log2up (2 ^ t) = t := by
  unfold log2up
  rw [if_neg (by positivity)]
  rw [log2size_eq]
  cases t with
  | zero => simp
  | succ tt =>
    have h1 : (2 ^ (tt + 1) - 1).size ≤ tt + 1 := by
      refine Nat.size_le.mpr ?_
      have h0 : 0 < (2:Nat) ^ (tt + 1) := Nat.pos_pow_of_pos (tt + 1) (by norm_num)
      omega
    have h2 : tt < (2 ^ (tt + 1) - 1).size := by
      refine Nat.lt_size.mpr ?_
      have h3 : (2:Nat) ^ (tt + 1) = 2 * 2 ^ tt := by rw [← pow_succ']
      have h4 : 0 < (2:Nat) ^ tt := Nat.pos_pow_of_pos tt (by norm_num)
      omega
    omega

lemma log2up_zero : log2up 0 = 0 := rfl

end AWH

/-! ## List helpers -/

namespace ArrayWithHash

open AWH

lemma getD_set_self {l : List Nat} {i : Nat} (h : i < l.length) (a : Nat) :
    (l.set i a).getD i 0 = a := by
  simp [List.getD, List.getElem?_set_self, h]

lemma getD_set_ne {l : List Nat} {i j : Nat} (h : i ≠ j) (a : Nat) :
    (l.set i a).getD j 0 = l.getD j 0 := by
  simp [List.getD, List.getElem?_set_ne h]

lemma getD_mem {l : List Nat} {i : Nat} (h : i < l.length) : l.getD i 0 ∈ l := by
  rw [List.getD_eq_getElem l 0 h]; exact List.getElem_mem h

lemma exists_getD_of_mem {l : List Nat} {a : Nat} (h : a ∈ l) :
    ∃ i, i < l.length ∧ l.getD i 0 = a := by
  obtain ⟨i, hi, he⟩ := List.mem_iff_getElem.mp h
  exact ⟨i, hi, by rw [List.getD_eq_getElem l 0 hi, he]⟩

/-- How `countP` changes under a point update. -/
lemma countP_set (p : Nat → Bool) :
    ∀ (l : List Nat) (i : Nat), i < l.length → ∀ a,
      (l.set i a).countP p + (if p (l.getD i 0) then 1 else 0)
        = l.countP p + (if p a then 1 else 0) := by
  intro l
  induction l with
  | nil => intro i hi; simp at hi
  | cons x t ih =>
    intro i hi a
    cases i with
    | zero =>
      simp only [List.set_cons_zero, List.getD_cons_zero, List.countP_cons]
      by_cases h1 : p x <;> by_cases h2 : p a <;> simp [h1, h2]
    | succ i' =>
      simp only [List.set_cons_succ, List.getD_cons_succ, List.countP_cons]
      have h := ih i' (by simpa using hi) a
      omega

/-- `countP` as a count of positions (used to turn buffer counts into key-set
cardinalities). -/
lemma countP_eq_countP_range (p : Nat → Bool) :
    ∀ (l : List Nat),
      l.countP p = (List.range l.length).countP (fun i => p (l.getD i 0)) := by
  intro l
  induction l with
  | nil => simp
  | cons x t ih =>
    rw [List.countP_cons, List.length_cons, List.range_succ_eq_map, List.countP_cons,
      List.countP_map]
    have hcomp : (List.range t.length).countP ((fun i => p ((x :: t).getD i 0)) ∘ Nat.succ)
        = (List.range t.length).countP (fun i => p (t.getD i 0)) := by
      refine List.countP_congr ?_
      intro i _
      simp only [Function.comp_apply, List.getD_cons_succ]
    rw [hcomp, ← ih, List.getD_cons_zero]

end ArrayWithHash

/-! ## The container invariant -/

namespace ArrayWithHash

open AWH

lemma IsLiveKey_iff {k : Nat} :
    IsLiveKey k = true ↔ (k ≠ EMPTY_KEY ∧ k ≠ REMOVED_KEY) := by
  simp [IsLiveKey]

lemma IsLiveKey_empty : IsLiveKey EMPTY_KEY = false := by simp [IsLiveKey]

lemma IsLiveKey_removed : IsLiveKey REMOVED_KEY = false := by simp [IsLiveKey]

lemma IsUserKey.live {k : Nat} (h : IsUserKey k) : IsLiveKey k = true :=
  IsLiveKey_iff.mpr ⟨h.2.1, h.2.2⟩

lemma inv_empty : Inv empty := by
  refine ⟨rfl, rfl, rfl, Or.inl rfl, Or.inl rfl, by simp [empty], rfl, rfl, rfl,
    by simp [empty], ?_, ?_, ?_, ?_, ?_⟩ <;> intro c hc <;> simp [empty] at hc

lemma Inv.hashPow2Pos {s : ArrayWithHash} (h : Inv s) (hpos : 0 < s.hashSize) :
    Pow2 s.hashSize := by
  rcases h.hashPow2 with h0 | ⟨hp, _⟩
  · omega
  · exact hp

lemma Inv.hashCount_le_fill {s : ArrayWithHash} (h : Inv s) : s.hashCount ≤ s.hashFill := by
  rw [h.hashCountEq, h.hashFillEq]
  refine List.countP_mono_left ?_
  intro k _ hk
  rw [IsLiveKey_iff] at hk
  simp [hk.1]

/-- The fill cap leaves at least one empty cell in a non-empty hash part. -/
lemma Inv.existsEmpty {s : ArrayWithHash} (h : Inv s) (hpos : 0 < s.hashSize) :
    ∃ c, c < s.hashSize ∧ s.hashKeys.getD c 0 = EMPTY_KEY := by
  by_contra hno
  push_neg at hno
  have hall : ∀ a ∈ s.hashKeys, (a != EMPTY_KEY) = true := by
    intro a ha
    obtain ⟨i, hi, he⟩ := exists_getD_of_mem ha
    have := hno i (by rw [← h.keysLen]; exact hi)
    rw [he] at this
    simpa using this
  have hfull : s.hashKeys.countP (fun k => k != EMPTY_KEY) = s.hashKeys.length :=
    List.countP_eq_length.mpr hall
  have := h.fillCap
  rw [h.hashFillEq, hfull, h.keysLen] at this
  omega

/-- Under the invariant, the user-facing probe always terminates. -/
lemma Inv.fckeIsSome {s : ArrayWithHash} (h : Inv s) (hpos : 0 < s.hashSize) (key : Nat) :
    ∃ c, findCellKeyOrEmpty s.hashKeys s.hashSize key = some c :=
  Option.isSome_iff_exists.mp
    (findCellKeyOrEmpty_isSome (h.hashPow2Pos hpos) (h.existsEmpty hpos))

/-- Under the invariant, the relocation probe always terminates. -/
lemma Inv.fceIsSome {s : ArrayWithHash} (h : Inv s) (hpos : 0 < s.hashSize) (key : Nat) :
    ∃ c, findCellEmpty s.hashKeys s.hashSize key = some c :=
  Option.isSome_iff_exists.mp
    (findCellEmpty_isSome (h.hashPow2Pos hpos) (h.existsEmpty hpos))

/-- If the user-facing probe for a user key stops at an empty cell, the key is
nowhere in the table. -/
lemma Inv.absent_of_stop_empty {s : ArrayWithHash} (h : Inv s) {k c : Nat}
    (hk : IsUserKey k) (hc : findCellKeyOrEmpty s.hashKeys s.hashSize k = some c)
    (he : s.hashKeys.getD c 0 = EMPTY_KEY) :
    ∀ c', c' < s.hashSize → s.hashKeys.getD c' 0 ≠ k := by
  intro c' hc' hkey
  have hlive : IsLiveKey (s.hashKeys.getD c' 0) = true := by rw [hkey]; exact hk.live
  have := h.reach c' hc' hlive
  rw [hkey] at this
  rw [this] at hc
  have : c' = c := by injection hc
  subst this
  rw [hkey] at he
  exact hk.2.1 he

end ArrayWithHash

/-! ## The abstract map a state denotes -/

namespace ArrayWithHash

open AWH

lemma hashCellOf_eq_some_of_live {s : ArrayWithHash} (h : Inv s) {c : Nat}
    (hc : c < s.hashSize) (hl : IsLiveKey (s.hashKeys.getD c 0) = true) :
    hashCellOf s (s.hashKeys.getD c 0) = some c := by
  have hsome : ((List.range s.hashSize).find? fun c' =>
      s.hashKeys.getD c' 0 == s.hashKeys.getD c 0).isSome := by
    refine List.find?_isSome.mpr ⟨c, List.mem_range.mpr hc, by simp⟩
  obtain ⟨c', hc'⟩ := Option.isSome_iff_exists.mp hsome
  have hmem : c' < s.hashSize := List.mem_range.mp (List.mem_of_find?_eq_some hc')
  have heq : s.hashKeys.getD c' 0 = s.hashKeys.getD c 0 := by
    have := List.find?_some hc'
    exact beq_iff_eq.mp this
  have hlive' : IsLiveKey (s.hashKeys.getD c' 0) = true := by rw [heq]; exact hl
  have : c' = c := h.distinct c' hmem c hc hlive' heq
  subst this
  exact hc'

lemma hashCellOf_eq_none {s : ArrayWithHash} {k : Nat}
    (habsent : ∀ c, c < s.hashSize → s.hashKeys.getD c 0 ≠ k) :
    hashCellOf s k = none := by
  refine List.find?_eq_none.mpr ?_
  intro c hcmem
  have := habsent c (List.mem_range.mp hcmem)
  simpa using this

lemma hashCellOf_spec {s : ArrayWithHash} {k c : Nat} (h : hashCellOf s k = some c) :
    c < s.hashSize ∧ s.hashKeys.getD c 0 = k := by
  unfold hashCellOf at h
  refine ⟨List.mem_range.mp (List.mem_of_find?_eq_some h), ?_⟩
  have hp := List.find?_some h
  exact beq_iff_eq.mp hp

/-- The master lemma connecting `Get` to the abstract map: under the
invariant, `Get` terminates and returns the mapped value, the empty value
when the key is absent. -/
lemma get_eq_model {s : ArrayWithHash} (h : Inv s) {k : Nat} (hk : IsUserKey k) :
    Get s k = some ((model s k).getD EMPTY_VALUE) := by
  unfold Get model InArray
  by_cases ha : k < s.arraySize
  · rw [if_pos ha, if_pos ha]
    by_cases he : s.arrayValues.getD k 0 = EMPTY_VALUE
    · rw [if_pos he, he]; rfl
    · rw [if_neg he]; rfl
  · rw [if_neg ha, if_neg ha]
    unfold HashGet
    by_cases h0 : s.hashSize = 0
    · rw [if_pos h0]
      have : hashCellOf s k = none := by
        refine hashCellOf_eq_none ?_
        intro c hc; omega
      rw [this]; rfl
    · rw [if_neg h0]
      obtain ⟨c, hc⟩ := h.fckeIsSome (by omega) k
      rw [hc, Option.map_some']
      obtain ⟨hclt, hstop⟩ := findCellKeyOrEmpty_spec (h.hashPow2Pos (by omega)) hc
      rcases hstop with he | hkey
      · have habs : ∀ c', c' < s.hashSize → s.hashKeys.getD c' 0 ≠ k :=
          h.absent_of_stop_empty hk hc he
        rw [hashCellOf_eq_none habs, if_pos he]
        rfl
      · have hlive : IsLiveKey (s.hashKeys.getD c 0) = true := by rw [hkey]; exact hk.live
        have hcell : hashCellOf s k = some c := by
          have := hashCellOf_eq_some_of_live h hclt hlive
          rwa [hkey] at this
        rw [hcell, if_neg (by rw [hkey]; exact hk.2.1)]
        rfl

/-- A user key can be live in at most one tier; in the hash tier its value is
non-empty, so `model` distinguishes present from absent. -/
lemma model_isSome_iff_get {s : ArrayWithHash} (h : Inv s) {k : Nat} (hk : IsUserKey k) :
    ((model s k).isSome ↔ Get s k ≠ some EMPTY_VALUE) := by
  rw [get_eq_model h hk]
  cases hm : model s k with
  | none => simp
  | some v =>
    have hv : v ≠ EMPTY_VALUE := by
      unfold model at hm
      by_cases ha : k < s.arraySize
      · rw [if_pos ha] at hm
        by_cases he : s.arrayValues.getD k 0 = EMPTY_VALUE
        · rw [if_pos he] at hm; cases hm
        · rw [if_neg he] at hm
          injection hm with h'
          rw [← h']; exact he
      · rw [if_neg ha] at hm
        cases hcell : hashCellOf s k with
        | none => rw [hcell] at hm; cases hm
        | some c =>
          rw [hcell] at hm
          obtain ⟨hclt, hkey⟩ := hashCellOf_spec hcell
          have hlive : IsLiveKey (s.hashKeys.getD c 0) = true := by
            rw [hkey]; exact hk.live
          have hvl := h.valsLive c hclt hlive
          injection hm with h'
          rw [← h']; exact hvl
    simp [hv]

end ArrayWithHash

/-! ## Claims C1 and C9 -/

namespace ArrayWithHash

open AWH

lemma inv_wArr : Inv wArr := by constructor <;> decide

lemma inv_wHash : Inv wHash := by constructor <;> decide

lemma wArr_def : Set empty 5 99 = some (Sum.inl 5, wArr) := by decide

lemma wHash_def : Set empty 1000 7 = some (Sum.inr 0, wHash) := by decide

/-- Claim C1: for every user key `k` (distinct from the two sentinels),
`Get(k)` returns the array slot `array[k]` when `unsigned(k) < array_size`;
the empty value when the key is outside the array part and `hash_size = 0`;
and otherwise the result of the `find_empty_or_key` probe — the empty value
when the probe stops at an `EMPTY_KEY` cell, else the found cell's value.
`Get` never mutates the container: its embedding
`ArrayWithHash → Nat → Option Nat` consumes the state read-only and returns
no successor state. -/
theorem get_spec (s : ArrayWithHash) (k : Nat) (hInv : Inv s) (hk : IsUserKey k) :
    (k < s.arraySize → Get s k = some (s.arrayValues.getD k 0)) ∧
    (s.arraySize ≤ k → s.hashSize = 0 → Get s k = some EMPTY_VALUE) ∧
    (s.arraySize ≤ k → 0 < s.hashSize →
      ∃ c, findCellKeyOrEmpty s.hashKeys s.hashSize k = some c ∧
        (s.hashKeys.getD c 0 = EMPTY_KEY ∨ s.hashKeys.getD c 0 = k) ∧
        Get s k = some (if s.hashKeys.getD c 0 = EMPTY_KEY then EMPTY_VALUE
          else s.hashValues.getD c 0)) := by
  refine ⟨?_, ?_, ?_⟩
  · intro ha
    unfold Get InArray
    rw [if_pos ha]
  · intro ha h0
    unfold Get InArray HashGet
    rw [if_neg (by omega), if_pos h0]
  · intro ha hpos
    obtain ⟨c, hc⟩ := hInv.fckeIsSome hpos k
    obtain ⟨hclt, hstop⟩ := findCellKeyOrEmpty_spec (hInv.hashPow2Pos hpos) hc
    refine ⟨c, hc, hstop, ?_⟩
    unfold Get InArray HashGet
    rw [if_neg (by omega), if_neg (by omega), hc, Option.map_some']

/-- Witness for `get_spec` at the concrete state `wHash` and key 1000. -/
theorem get_spec_witness :
    Inv wHash ∧ IsUserKey 1000 ∧
      ((1000 < wHash.arraySize → Get wHash 1000 = some (wHash.arrayValues.getD 1000 0)) ∧
       (wHash.arraySize ≤ 1000 → wHash.hashSize = 0 → Get wHash 1000 = some EMPTY_VALUE) ∧
       (wHash.arraySize ≤ 1000 → 0 < wHash.hashSize →
         ∃ c, findCellKeyOrEmpty wHash.hashKeys wHash.hashSize 1000 = some c ∧
           (wHash.hashKeys.getD c 0 = EMPTY_KEY ∨ wHash.hashKeys.getD c 0 = 1000) ∧
           Get wHash 1000 = some (if wHash.hashKeys.getD c 0 = EMPTY_KEY then EMPTY_VALUE
             else wHash.hashValues.getD c 0))) :=
  ⟨inv_wHash, by decide, get_spec wHash 1000 inv_wHash (by decide)⟩

/-- Claim C9: under the invariant (`hash_fill ≤ 0.75·hash_size` with counts
matching the buffers) and `hash_size > 0`, at least one hash cell holds
`EMPTY_KEY`; consequently the two linear-probe loops terminate for every key
(fuel `hash_size` suffices), and the initial scan for the first empty cell in
`rehash_in_place` stops within the buffer. -/
theorem probe_loops_terminate (s : ArrayWithHash) (hInv : Inv s) (hpos : 0 < s.hashSize) :
    (∃ c, c < s.hashSize ∧ s.hashKeys.getD c 0 = EMPTY_KEY) ∧
    (∀ key, (findCellEmpty s.hashKeys s.hashSize key).isSome = true) ∧
    (∀ key, (findCellKeyOrEmpty s.hashKeys s.hashSize key).isSome = true) ∧
    s.hashKeys.findIdx (· == EMPTY_KEY) < s.hashSize := by
  have hemp := hInv.existsEmpty hpos
  refine ⟨hemp, ?_, ?_, ?_⟩
  · intro key; exact findCellEmpty_isSome (hInv.hashPow2Pos hpos) hemp
  · intro key; exact findCellKeyOrEmpty_isSome (hInv.hashPow2Pos hpos) hemp
  · obtain ⟨c, hc, he⟩ := hemp
    have hlen : c < s.hashKeys.length := by rw [hInv.keysLen]; exact hc
    have hmem : EMPTY_KEY ∈ s.hashKeys := by rw [← he]; exact getD_mem hlen
    have hidx : s.hashKeys.findIdx (· == EMPTY_KEY) < s.hashKeys.length :=
      List.findIdx_lt_length_of_exists ⟨EMPTY_KEY, hmem, by simp⟩
    rw [hInv.keysLen] at hidx; exact hidx

/-- Witness for `probe_loops_terminate` at the concrete state `wHash`. -/
theorem probe_loops_terminate_witness :
    Inv wHash ∧ 0 < wHash.hashSize ∧
      ((∃ c, c < wHash.hashSize ∧ wHash.hashKeys.getD c 0 = EMPTY_KEY) ∧
       (∀ key, (findCellEmpty wHash.hashKeys wHash.hashSize key).isSome = true) ∧
       (∀ key, (findCellKeyOrEmpty wHash.hashKeys wHash.hashSize key).isSome = true) ∧
       wHash.hashKeys.findIdx (· == EMPTY_KEY) < wHash.hashSize) :=
  ⟨inv_wHash, by decide, probe_loops_terminate wHash inv_wHash (by decide)⟩

end ArrayWithHash

/-! ## Probe stability under point updates -/

namespace AWH

lemma fcke_pos {keys : List Nat} {m key c : Nat}
    (h : findCellKeyOrEmpty keys m key = some c) : 0 < m := by
  rcases Nat.eq_zero_or_pos m with h0 | h0
  · subst h0
    rw [findCellKeyOrEmpty, probe_zero] at h
    cases h
  · exact h0

lemma fce_pos {keys : List Nat} {m key c : Nat}
    (h : findCellEmpty keys m key = some c) : 0 < m := by
  rcases Nat.eq_zero_or_pos m with h0 | h0
  · subst h0
    rw [findCellEmpty, probe_zero] at h
    cases h
  · exact h0

/-- Updating a cell that is not the stop cell, either an empty cell or with a
key that the probe skips, leaves `findCellKeyOrEmpty`'s successful stop at a
key cell unchanged. -/
lemma fcke_set_preserved {keys : List Nat} {m e c k : Nat} (knew : Nat) (hm : Pow2 m)
    (hold : findCellKeyOrEmpty keys m k = some c)
    (hstop : keys.getD c 0 = k)
    (hne : e ≠ c)
    (hcase : keys.getD e 0 = EMPTY_KEY ∨ (knew ≠ EMPTY_KEY ∧ knew ≠ k)) :
    findCellKeyOrEmpty (keys.set e knew) m k = some c := by
  rw [findCellKeyOrEmpty_eq_some_iff hm] at hold ⊢
  obtain ⟨j, hj, hc, _, hmin⟩ := hold
  subst hc
  refine ⟨j, hj, rfl, ?_, ?_⟩
  · right
    rw [ArrayWithHash.getD_set_ne hne knew]
    exact hstop
  · intro i hi
    by_cases hie : e = (hashBase m k + i) % m
    · rcases hcase with hE | ⟨h1, h2⟩
      · rw [hie] at hE
        exact absurd hE (hmin i hi).1
      · by_cases hlen : e < keys.length
        · rw [← hie, ArrayWithHash.getD_set_self hlen knew]
          exact ⟨h1, h2⟩
        · rw [List.set_eq_of_length_le (Nat.le_of_not_lt hlen)]
          exact hmin i hi
    · rw [ArrayWithHash.getD_set_ne hie knew]
      exact hmin i hi

/-- Writing a key into the empty cell where its own probe stopped makes the
probe stop there with the key found. -/
lemma fcke_set_self {keys : List Nat} {m cell k : Nat} (hm : Pow2 m)
    (hold : findCellKeyOrEmpty keys m k = some cell)
    (he : keys.getD cell 0 = EMPTY_KEY) :
    findCellKeyOrEmpty (keys.set cell k) m k = some cell := by
  rw [findCellKeyOrEmpty_eq_some_iff hm] at hold ⊢
  obtain ⟨j, hj, hc, _, hmin⟩ := hold
  subst hc
  refine ⟨j, hj, rfl, ?_, ?_⟩
  · by_cases hlen : (hashBase m k + j) % m < keys.length
    · right
      rw [ArrayWithHash.getD_set_self hlen k]
    · left
      rw [List.set_eq_of_length_le (Nat.le_of_not_lt hlen)]
      exact he
  · intro i hi
    have hne : (hashBase m k + i) % m ≠ (hashBase m k + j) % m := by
      intro hx
      have h1 := (hmin i hi).1
      rw [hx, he] at h1
      exact h1 rfl
    rw [ArrayWithHash.getD_set_ne (fun hx => hne hx.symm) k]
    exact hmin i hi

end AWH

/-! ## Invariant preservation: hash-tier point operations -/

namespace ArrayWithHash

open AWH

lemma pow2_ge8_dvd4 {m : Nat} (hm : Pow2 m) (h8 : 8 ≤ m) : 4 ∣ m := by
  obtain ⟨t, rfl⟩ := hm
  have ht : 3 ≤ t := by
    have h1 : (2:Nat) ^ 3 ≤ 2 ^ t := h8
    exact (Nat.pow_le_pow_iff_right (by norm_num)).mp h1
  have h4 : (4:Nat) = 2 ^ 2 := rfl
  rw [h4]
  exact pow_dvd_pow 2 (by omega)

/-- A not-full table can absorb one more non-empty cell and stay within the
0.75 cap. -/
lemma not_full_bound {fill m : Nat} (hm : Pow2 m) (h8 : 8 ≤ m)
    (h : IsHashFull fill m = false) : 4 * (fill + 1) ≤ 3 * m := by
  unfold IsHashFull at h
  rw [decide_eq_false_iff_not] at h
  push_neg at h
  rw [Nat.shiftRight_eq_div_pow] at h
  obtain ⟨q, hq⟩ := pow2_ge8_dvd4 hm h8
  have hq4 : m / 2 ^ 2 = q := by omega
  omega

lemma hashCellOf_absent_of_none {s : ArrayWithHash} {k : Nat}
    (h : hashCellOf s k = none) :
    ∀ c, c < s.hashSize → s.hashKeys.getD c 0 ≠ k := by
  unfold hashCellOf at h
  intro c hc
  have := List.find?_eq_none.mp h c (List.mem_range.mpr hc)
  simpa using this

/-- Inserting a user key at the empty cell where its probe stopped (the
insert path of `HashSet` / `HashSetIfNew`) preserves the invariant. -/
lemma hashInsert_inv {s s' : ArrayWithHash} {key value cell : Nat} (h : Inv s)
    (hk : IsUserKey key) (hge : s.arraySize ≤ key) (hv : value ≠ EMPTY_VALUE)
    (hfull : IsHashFull s.hashFill s.hashSize = false)
    (hc : findCellKeyOrEmpty s.hashKeys s.hashSize key = some cell)
    (he : s.hashKeys.getD cell 0 = EMPTY_KEY)
    (heq : s' = { s with
        hashFill := s.hashFill + 1
        hashCount := s.hashCount + 1
        hashKeys := s.hashKeys.set cell key
        hashValues := s.hashValues.set cell value }) :
    Inv s' := by
  subst heq
  have hpos : 0 < s.hashSize := fcke_pos hc
  have hm : Pow2 s.hashSize := h.hashPow2Pos hpos
  have h8 : 8 ≤ s.hashSize := by
    rcases h.hashPow2 with h0 | ⟨_, h8⟩
    · omega
    · exact h8
  have hcell : cell < s.hashSize := (findCellKeyOrEmpty_spec hm hc).1
  have hcellLen : cell < s.hashKeys.length := by rw [h.keysLen]; exact hcell
  have hcellLenV : cell < s.hashValues.length := by rw [h.valsLen]; exact hcell
  have habsent := h.absent_of_stop_empty hk hc he
  refine ⟨h.arrayLen, ?_, ?_, h.arrayPow2, h.hashPow2, h.arrayCap, h.arrayCountEq,
    ?_, ?_, ?_, ?_, ?_, ?_, ?_, ?_⟩
  · show (s.hashKeys.set cell key).length = s.hashSize
    rw [List.length_set]; exact h.keysLen
  · show (s.hashValues.set cell value).length = s.hashSize
    rw [List.length_set]; exact h.valsLen
  · show s.hashCount + 1 = (s.hashKeys.set cell key).countP IsLiveKey
    have hs := countP_set IsLiveKey s.hashKeys cell hcellLen key
    rw [he, IsLiveKey_empty, hk.live] at hs
    simp only [if_true, Bool.false_eq_true, if_false] at hs
    rw [h.hashCountEq]; omega
  · show s.hashFill + 1 = (s.hashKeys.set cell key).countP (fun k => k != EMPTY_KEY)
    have hs := countP_set (fun k => k != EMPTY_KEY) s.hashKeys cell hcellLen key
    rw [he] at hs
    have h1 : (EMPTY_KEY != EMPTY_KEY) = false := by simp
    have h2 : (key != EMPTY_KEY) = true := by simp [hk.2.1]
    rw [h1, h2] at hs
    simp only [if_true, Bool.false_eq_true, if_false] at hs
    rw [h.hashFillEq]; omega
  · show 4 * (s.hashFill + 1) ≤ 3 * s.hashSize
    exact not_full_bound hm h8 hfull
  · intro c hc'
    by_cases hce : c = cell
    · subst hce
      rw [getD_set_self hcellLen key]
      exact hk.1
    · rw [getD_set_ne (fun hx => hce hx.symm) key]
      exact h.keysLt c hc'
  · intro c hc' hlive
    by_cases hce : c = cell
    · subst hce
      rw [getD_set_self hcellLen key]
      exact hge
    · rw [getD_set_ne (fun hx => hce hx.symm) key] at hlive ⊢
      exact h.liveGe c hc' hlive
  · intro c hc' hlive
    by_cases hce : c = cell
    · subst hce
      rw [getD_set_self hcellLenV value]
      exact hv
    · rw [getD_set_ne (fun hx => hce hx.symm) key] at hlive
      rw [getD_set_ne (fun hx => hce hx.symm) value]
      exact h.valsLive c hc' hlive
  · intro c1 h1 c2 h2 hlive heqk
    by_cases hc1 : c1 = cell <;> by_cases hc2 : c2 = cell
    · rw [hc1, hc2]
    · subst hc1
      rw [getD_set_self hcellLen key] at heqk
      rw [getD_set_ne (fun hx => hc2 hx.symm) key] at heqk
      exact absurd heqk.symm (habsent c2 h2)
    · subst hc2
      rw [getD_set_self hcellLen key] at heqk
      rw [getD_set_ne (fun hx => hc1 hx.symm) key] at heqk
      exact absurd heqk (habsent c1 h1)
    · rw [getD_set_ne (fun hx => hc1 hx.symm) key] at hlive heqk
      rw [getD_set_ne (fun hx => hc2 hx.symm) key] at heqk
      exact h.distinct c1 h1 c2 h2 hlive heqk
  · intro c hc' hlive
    show findCellKeyOrEmpty (s.hashKeys.set cell key) s.hashSize
        ((s.hashKeys.set cell key).getD c 0) = some c
    by_cases hce : c = cell
    · rw [hce, getD_set_self hcellLen key]
      exact fcke_set_self hm hc he
    · rw [getD_set_ne (fun hx => hce hx.symm) key]
      have hlive' : IsLiveKey (s.hashKeys.getD c 0) = true := by
        have hl2 : IsLiveKey ((s.hashKeys.set cell key).getD c 0) = true := hlive
        rwa [getD_set_ne (fun hx => hce hx.symm) key] at hl2
      exact fcke_set_preserved key hm (h.reach c hc' hlive') rfl
        (fun hx => hce hx.symm) (Or.inl he)
end ArrayWithHash

namespace ArrayWithHash

open AWH

lemma set_getD_self {l : List Nat} {i : Nat} {a : Nat} (hi : i < l.length)
    (h : l.getD i 0 = a) : l.set i a = l := by
  apply List.ext_getElem?
  intro j
  by_cases hij : i = j
  · subst hij
    rw [List.getElem?_set_self (by omega), List.getElem?_eq_getElem hi]
    rw [List.getD_eq_getElem l 0 hi] at h
    rw [h]
  · rw [List.getElem?_set_ne hij]

/-! ### A small API for the abstract map -/

lemma model_eq_arr {t : ArrayWithHash} {k : Nat} (hlt : k < t.arraySize) :
    model t k = if t.arrayValues.getD k 0 = EMPTY_VALUE then none
      else some (t.arrayValues.getD k 0) := by
  unfold model
  rw [if_pos hlt]

lemma model_eq_some_of_cell {t : ArrayWithHash} (ht : Inv t) {k c : Nat} (hk : IsUserKey k)
    (hge : t.arraySize ≤ k) (hc : c < t.hashSize) (hkey : t.hashKeys.getD c 0 = k) :
    model t k = some (t.hashValues.getD c 0) := by
  unfold model
  rw [if_neg (by omega)]
  have hl : IsLiveKey (t.hashKeys.getD c 0) = true := by rw [hkey]; exact hk.live
  have hco := hashCellOf_eq_some_of_live ht hc hl
  rw [hkey] at hco
  rw [hco, Option.map_some']

lemma model_eq_none_of_absent {t : ArrayWithHash} {k : Nat} (hge : t.arraySize ≤ k)
    (habs : ∀ c, c < t.hashSize → t.hashKeys.getD c 0 ≠ k) : model t k = none := by
  unfold model
  rw [if_neg (by omega), hashCellOf_eq_none habs]
  rfl

/-- Two invariant states with the same array part and the same set of
(hash key, value) occurrences denote the same map at a hash-tier user key. -/
lemma model_congr_hash {s t : ArrayWithHash} (hs : Inv s) (ht : Inv t)
    (ha : t.arraySize = s.arraySize) (hav : t.arrayValues = s.arrayValues)
    {k : Nat} (hk : IsUserKey k)
    (hcells : ∀ v, (∃ c, c < s.hashSize ∧ s.hashKeys.getD c 0 = k ∧
        s.hashValues.getD c 0 = v) ↔
      (∃ c, c < t.hashSize ∧ t.hashKeys.getD c 0 = k ∧ t.hashValues.getD c 0 = v)) :
    model t k = model s k := by
  by_cases hlt : k < s.arraySize
  · unfold model
    rw [ha, hav, if_pos hlt, if_pos hlt]
  · cases hms : model s k with
    | some v =>
      have hvs : ∃ c, c < s.hashSize ∧ s.hashKeys.getD c 0 = k ∧
          s.hashValues.getD c 0 = v := by
        unfold model at hms
        rw [if_neg hlt] at hms
        cases hco : hashCellOf s k with
        | none => rw [hco] at hms; cases hms
        | some c =>
          rw [hco, Option.map_some'] at hms
          obtain ⟨hclt, hckey⟩ := hashCellOf_spec hco
          injection hms with hms'
          exact ⟨c, hclt, hckey, hms'⟩
      obtain ⟨c', hc', hck', hcv'⟩ := (hcells v).mp hvs
      rw [model_eq_some_of_cell ht hk (by omega) hc' hck', hcv']
    | none =>
      have habs : ∀ c, c < s.hashSize → s.hashKeys.getD c 0 ≠ k := by
        intro c hc hkey
        have hl : IsLiveKey (s.hashKeys.getD c 0) = true := by rw [hkey]; exact hk.live
        have := model_eq_some_of_cell hs hk (by omega) hc hkey
        rw [hms] at this
        cases this
      refine model_eq_none_of_absent (by omega) ?_
      intro c' hc' hkey'
      obtain ⟨c, hc, hck, _⟩ := (hcells (t.hashValues.getD c' 0)).mpr ⟨c', hc', hkey', rfl⟩
      exact habs c hc hck

end ArrayWithHash

namespace ArrayWithHash

open AWH

/-- The insert path of the hash tier updates the abstract map pointwise. -/
lemma hashInsert_model {s s' : ArrayWithHash} {key value cell : Nat} (h : Inv s)
    (hk : IsUserKey key) (hge : s.arraySize ≤ key) (hv : value ≠ EMPTY_VALUE)
    (hfull : IsHashFull s.hashFill s.hashSize = false)
    (hc : findCellKeyOrEmpty s.hashKeys s.hashSize key = some cell)
    (he : s.hashKeys.getD cell 0 = EMPTY_KEY)
    (heq : s' = { s with
        hashFill := s.hashFill + 1
        hashCount := s.hashCount + 1
        hashKeys := s.hashKeys.set cell key
        hashValues := s.hashValues.set cell value }) :
    ∀ k', IsUserKey k' → model s' k' = if k' = key then some value else model s k' := by
  have h' : Inv s' := hashInsert_inv h hk hge hv hfull hc he heq
  have hpos : 0 < s.hashSize := fcke_pos hc
  have hm : Pow2 s.hashSize := h.hashPow2Pos hpos
  have hcell : cell < s.hashSize := (findCellKeyOrEmpty_spec hm hc).1
  have hcellLen : cell < s.hashKeys.length := by rw [h.keysLen]; exact hcell
  have hcellLenV : cell < s.hashValues.length := by rw [h.valsLen]; exact hcell
  intro k' hk'
  by_cases hkk : k' = key
  · subst hkk
    rw [if_pos rfl]
    have hkey' : s'.hashKeys.getD cell 0 = k' := by
      rw [heq]
      show (s.hashKeys.set cell k').getD cell 0 = k'
      exact getD_set_self hcellLen k'
    have hM := model_eq_some_of_cell h' hk'
      (show s'.arraySize ≤ k' by rw [heq]; exact hge)
      (show cell < s'.hashSize by rw [heq]; exact hcell) hkey'
    rw [hM, heq]
    show some ((s.hashValues.set cell value).getD cell 0) = some value
    rw [getD_set_self hcellLenV value]
  · rw [if_neg hkk]
    refine model_congr_hash h h' (by rw [heq]) (by rw [heq]) hk' ?_
    intro v
    constructor
    · rintro ⟨c, hclt, hckey, hcval⟩
      have hcne : c ≠ cell := by
        intro hx
        rw [hx, he] at hckey
        exact hk'.2.1 hckey.symm
      refine ⟨c, by rw [heq]; exact hclt, ?_, ?_⟩
      · rw [heq]
        show (s.hashKeys.set cell key).getD c 0 = k'
        rw [getD_set_ne (fun hx => hcne hx.symm) key]
        exact hckey
      · rw [heq]
        show (s.hashValues.set cell value).getD c 0 = v
        rw [getD_set_ne (fun hx => hcne hx.symm) value]
        exact hcval
    · rintro ⟨c, hclt, hckey, hcval⟩
      rw [heq] at hclt
      have hclt' : c < s.hashSize := hclt
      have hcne : c ≠ cell := by
        intro hx
        rw [heq] at hckey
        subst hx
        have : (s.hashKeys.set c key).getD c 0 = key := getD_set_self hcellLen key
        rw [this] at hckey
        exact hkk hckey.symm
      refine ⟨c, hclt', ?_, ?_⟩
      · rw [heq] at hckey
        have h2 : (s.hashKeys.set cell key).getD c 0 = k' := hckey
        rwa [getD_set_ne (fun hx => hcne hx.symm) key] at h2
      · rw [heq] at hcval
        have h2 : (s.hashValues.set cell value).getD c 0 = v := hcval
        rwa [getD_set_ne (fun hx => hcne hx.symm) value] at h2

/-- The overwrite path of `HashSet` (probe stopped at the key) preserves the
invariant. -/
lemma hashOverwrite_inv {s s' : ArrayWithHash} {key value cell : Nat} (h : Inv s)
    (hk : IsUserKey key) (hv : value ≠ EMPTY_VALUE)
    (hc : findCellKeyOrEmpty s.hashKeys s.hashSize key = some cell)
    (hkey : s.hashKeys.getD cell 0 = key)
    (heq : s' = { s with
        hashKeys := s.hashKeys.set cell key
        hashValues := s.hashValues.set cell value }) :
    Inv s' := by
  have hpos : 0 < s.hashSize := fcke_pos hc
  have hm : Pow2 s.hashSize := h.hashPow2Pos hpos
  have hcell : cell < s.hashSize := (findCellKeyOrEmpty_spec hm hc).1
  have hcellLen : cell < s.hashKeys.length := by rw [h.keysLen]; exact hcell
  have hcellLenV : cell < s.hashValues.length := by rw [h.valsLen]; exact hcell
  have hkeys : s.hashKeys.set cell key = s.hashKeys := set_getD_self hcellLen hkey
  rw [hkeys] at heq
  subst heq
  refine ⟨h.arrayLen, h.keysLen, ?_, h.arrayPow2, h.hashPow2, h.arrayCap,
    h.arrayCountEq, h.hashCountEq, h.hashFillEq, h.fillCap, h.keysLt, h.liveGe,
    ?_, h.distinct, h.reach⟩
  · show (s.hashValues.set cell value).length = s.hashSize
    rw [List.length_set]; exact h.valsLen
  · intro c hc' hlive
    by_cases hce : c = cell
    · subst hce
      show (s.hashValues.set c value).getD c 0 ≠ EMPTY_VALUE
      rw [getD_set_self hcellLenV value]
      exact hv
    · show (s.hashValues.set cell value).getD c 0 ≠ EMPTY_VALUE
      rw [getD_set_ne (fun hx => hce hx.symm) value]
      exact h.valsLive c hc' hlive

/-- The overwrite path of `HashSet` updates the abstract map pointwise. -/
lemma hashOverwrite_model {s s' : ArrayWithHash} {key value cell : Nat} (h : Inv s)
    (hk : IsUserKey key) (hv : value ≠ EMPTY_VALUE)
    (hc : findCellKeyOrEmpty s.hashKeys s.hashSize key = some cell)
    (hkey : s.hashKeys.getD cell 0 = key)
    (heq : s' = { s with
        hashKeys := s.hashKeys.set cell key
        hashValues := s.hashValues.set cell value }) :
    ∀ k', IsUserKey k' → model s' k' = if k' = key then some value else model s k' := by
  have h' : Inv s' := hashOverwrite_inv h hk hv hc hkey heq
  have hpos : 0 < s.hashSize := fcke_pos hc
  have hm : Pow2 s.hashSize := h.hashPow2Pos hpos
  have hcell : cell < s.hashSize := (findCellKeyOrEmpty_spec hm hc).1
  have hcellLen : cell < s.hashKeys.length := by rw [h.keysLen]; exact hcell
  have hcellLenV : cell < s.hashValues.length := by rw [h.valsLen]; exact hcell
  have hkeys : s.hashKeys.set cell key = s.hashKeys := set_getD_self hcellLen hkey
  rw [hkeys] at heq
  have hge : s.arraySize ≤ key := by
    have := h.liveGe cell hcell (by rw [hkey]; exact hk.live)
    rwa [hkey] at this
  intro k' hk'
  by_cases hkk : k' = key
  · subst hkk
    rw [if_pos rfl]
    have hkey' : s'.hashKeys.getD cell 0 = k' := by rw [heq]; exact hkey
    have hM := model_eq_some_of_cell h' hk'
      (show s'.arraySize ≤ k' by rw [heq]; exact hge)
      (show cell < s'.hashSize by rw [heq]; exact hcell) hkey'
    rw [hM, heq]
    show some ((s.hashValues.set cell value).getD cell 0) = some value
    rw [getD_set_self hcellLenV value]
  · rw [if_neg hkk]
    refine model_congr_hash h h' (by rw [heq]) (by rw [heq]) hk' ?_
    intro v
    have hnecell : ∀ c, c < s.hashSize → s.hashKeys.getD c 0 = k' → c ≠ cell := by
      intro c _ hck hx
      rw [hx, hkey] at hck
      exact hkk hck.symm
    constructor
    · rintro ⟨c, hclt, hckey, hcval⟩
      have hcne := hnecell c hclt hckey
      refine ⟨c, by rw [heq]; exact hclt, by rw [heq]; exact hckey, ?_⟩
      rw [heq]
      show (s.hashValues.set cell value).getD c 0 = v
      rw [getD_set_ne (fun hx => hcne hx.symm) value]
      exact hcval
    · rintro ⟨c, hclt, hckey, hcval⟩
      rw [heq] at hclt hckey hcval
      have hcne := hnecell c hclt hckey
      refine ⟨c, hclt, hckey, ?_⟩
      have h2 : (s.hashValues.set cell value).getD c 0 = v := hcval
      rwa [getD_set_ne (fun hx => hcne hx.symm) value] at h2

end ArrayWithHash

namespace ArrayWithHash

open AWH

lemma REMOVED_ne_EMPTY : REMOVED_KEY ≠ EMPTY_KEY := by decide

/-- Tombstoning the cell where the probe found the key (the `HashRemove`
path) preserves the invariant. -/
lemma hashRemove_inv {s s' : ArrayWithHash} {key cell : Nat} (h : Inv s)
    (hk : IsUserKey key)
    (hc : findCellKeyOrEmpty s.hashKeys s.hashSize key = some cell)
    (hkey : s.hashKeys.getD cell 0 = key)
    (heq : s' = { s with
        hashKeys := s.hashKeys.set cell REMOVED_KEY
        hashCount := s.hashCount - 1 }) :
    Inv s' := by
  subst heq
  have hpos : 0 < s.hashSize := fcke_pos hc
  have hm : Pow2 s.hashSize := h.hashPow2Pos hpos
  have hcell : cell < s.hashSize := (findCellKeyOrEmpty_spec hm hc).1
  have hcellLen : cell < s.hashKeys.length := by rw [h.keysLen]; exact hcell
  have hlivec : IsLiveKey (s.hashKeys.getD cell 0) = true := by
    rw [hkey]; exact hk.live
  refine ⟨h.arrayLen, ?_, h.valsLen, h.arrayPow2, h.hashPow2, h.arrayCap,
    h.arrayCountEq, ?_, ?_, h.fillCap, ?_, ?_, ?_, ?_, ?_⟩
  · show (s.hashKeys.set cell REMOVED_KEY).length = s.hashSize
    rw [List.length_set]; exact h.keysLen
  · show s.hashCount - 1 = (s.hashKeys.set cell REMOVED_KEY).countP IsLiveKey
    have hs := countP_set IsLiveKey s.hashKeys cell hcellLen REMOVED_KEY
    rw [hlivec, IsLiveKey_removed] at hs
    simp only [if_true, Bool.false_eq_true, if_false] at hs
    rw [h.hashCountEq]; omega
  · show s.hashFill = (s.hashKeys.set cell REMOVED_KEY).countP (fun k => k != EMPTY_KEY)
    have hs := countP_set (fun k => k != EMPTY_KEY) s.hashKeys cell hcellLen REMOVED_KEY
    have h1 : (s.hashKeys.getD cell 0 != EMPTY_KEY) = true := by
      rw [hkey]; simp [hk.2.1]
    have h2 : (REMOVED_KEY != EMPTY_KEY) = true := by simp [REMOVED_ne_EMPTY]
    rw [h1, h2] at hs
    simp only [if_true] at hs
    rw [h.hashFillEq]; omega
  · intro c hc'
    by_cases hce : c = cell
    · subst hce
      rw [getD_set_self hcellLen REMOVED_KEY]
      decide
    · rw [getD_set_ne (fun hx => hce hx.symm) REMOVED_KEY]
      exact h.keysLt c hc'
  · intro c hc' hlive
    by_cases hce : c = cell
    · subst hce
      rw [getD_set_self hcellLen REMOVED_KEY] at hlive
      rw [IsLiveKey_removed] at hlive
      cases hlive
    · rw [getD_set_ne (fun hx => hce hx.symm) REMOVED_KEY] at hlive ⊢
      exact h.liveGe c hc' hlive
  · intro c hc' hlive
    by_cases hce : c = cell
    · subst hce
      rw [getD_set_self hcellLen REMOVED_KEY] at hlive
      rw [IsLiveKey_removed] at hlive
      cases hlive
    · rw [getD_set_ne (fun hx => hce hx.symm) REMOVED_KEY] at hlive
      exact h.valsLive c hc' hlive
  · intro c1 h1 c2 h2 hlive heqk
    by_cases hc1 : c1 = cell
    · subst hc1
      rw [getD_set_self hcellLen REMOVED_KEY] at hlive
      rw [IsLiveKey_removed] at hlive
      cases hlive
    · by_cases hc2 : c2 = cell
      · subst hc2
        rw [getD_set_ne (fun hx => hc1 hx.symm) REMOVED_KEY] at hlive heqk
        rw [getD_set_self hcellLen REMOVED_KEY] at heqk
        rw [IsLiveKey_iff] at hlive
        exact absurd heqk hlive.2
      · rw [getD_set_ne (fun hx => hc1 hx.symm) REMOVED_KEY] at hlive heqk
        rw [getD_set_ne (fun hx => hc2 hx.symm) REMOVED_KEY] at heqk
        exact h.distinct c1 h1 c2 h2 hlive heqk
  · intro c hc' hlive
    show findCellKeyOrEmpty (s.hashKeys.set cell REMOVED_KEY) s.hashSize
        ((s.hashKeys.set cell REMOVED_KEY).getD c 0) = some c
    by_cases hce : c = cell
    · subst hce
      rw [getD_set_self hcellLen REMOVED_KEY] at hlive
      rw [IsLiveKey_removed] at hlive
      cases hlive
    · rw [getD_set_ne (fun hx => hce hx.symm) REMOVED_KEY]
      have hlive' : IsLiveKey (s.hashKeys.getD c 0) = true := by
        have hl2 : IsLiveKey ((s.hashKeys.set cell REMOVED_KEY).getD c 0) = true := hlive
        rwa [getD_set_ne (fun hx => hce hx.symm) REMOVED_KEY] at hl2
      have hnek : REMOVED_KEY ≠ s.hashKeys.getD c 0 := by
        rw [IsLiveKey_iff] at hlive'
        exact fun hx => hlive'.2 hx.symm
      exact fcke_set_preserved REMOVED_KEY hm (h.reach c hc' hlive') rfl
        (fun hx => hce hx.symm) (Or.inr ⟨REMOVED_ne_EMPTY, hnek⟩)

/-- Tombstoning the found key removes exactly that key from the abstract
map. -/
lemma hashRemove_model {s s' : ArrayWithHash} {key cell : Nat} (h : Inv s)
    (hk : IsUserKey key)
    (hc : findCellKeyOrEmpty s.hashKeys s.hashSize key = some cell)
    (hkey : s.hashKeys.getD cell 0 = key)
    (heq : s' = { s with
        hashKeys := s.hashKeys.set cell REMOVED_KEY
        hashCount := s.hashCount - 1 }) :
    ∀ k', IsUserKey k' → model s' k' = if k' = key then none else model s k' := by
  have h' : Inv s' := hashRemove_inv h hk hc hkey heq
  have hpos : 0 < s.hashSize := fcke_pos hc
  have hm : Pow2 s.hashSize := h.hashPow2Pos hpos
  have hcell : cell < s.hashSize := (findCellKeyOrEmpty_spec hm hc).1
  have hcellLen : cell < s.hashKeys.length := by rw [h.keysLen]; exact hcell
  have hge : s.arraySize ≤ key := by
    have := h.liveGe cell hcell (by rw [hkey]; exact hk.live)
    rwa [hkey] at this
  intro k' hk'
  by_cases hkk : k' = key
  · subst hkk
    rw [if_pos rfl]
    refine model_eq_none_of_absent
      (show s'.arraySize ≤ k' by rw [heq]; exact hge) ?_
    intro c hc' hckey
    rw [heq] at hc' hckey
    have hc'' : c < s.hashSize := hc'
    by_cases hce : c = cell
    · subst hce
      have h2 : (s.hashKeys.set c REMOVED_KEY).getD c 0 = k' := hckey
      rw [getD_set_self hcellLen REMOVED_KEY] at h2
      exact hk'.2.2 h2.symm
    · have h2 : (s.hashKeys.set cell REMOVED_KEY).getD c 0 = k' := hckey
      rw [getD_set_ne (fun hx => hce hx.symm) REMOVED_KEY] at h2
      have : c = cell := h.distinct c hc'' cell hcell (by rw [h2]; exact hk'.live)
        (by rw [h2, hkey])
      exact hce this
  · rw [if_neg hkk]
    refine model_congr_hash h h' (by rw [heq]) (by rw [heq]) hk' ?_
    intro v
    have hnecell : ∀ c, c < s.hashSize → s.hashKeys.getD c 0 = k' → c ≠ cell := by
      intro c _ hck hx
      rw [hx, hkey] at hck
      exact hkk hck.symm
    constructor
    · rintro ⟨c, hclt, hckey, hcval⟩
      have hcne := hnecell c hclt hckey
      refine ⟨c, by rw [heq]; exact hclt, ?_, by rw [heq]; exact hcval⟩
      rw [heq]
      show (s.hashKeys.set cell REMOVED_KEY).getD c 0 = k'
      rw [getD_set_ne (fun hx => hcne hx.symm) REMOVED_KEY]
      exact hckey
    · rintro ⟨c, hclt, hckey, hcval⟩
      rw [heq] at hclt hckey hcval
      have hclt' : c < s.hashSize := hclt
      by_cases hce : c = cell
      · subst hce
        have h2 : (s.hashKeys.set c REMOVED_KEY).getD c 0 = k' := hckey
        rw [getD_set_self hcellLen REMOVED_KEY] at h2
        exact absurd h2.symm hk'.2.2
      · have h2 : (s.hashKeys.set cell REMOVED_KEY).getD c 0 = k' := hckey
        rw [getD_set_ne (fun hx => hce hx.symm) REMOVED_KEY] at h2
        exact ⟨c, hclt', h2, hcval⟩

end ArrayWithHash

namespace ArrayWithHash

open AWH

lemma getD_replicate {n x c : Nat} (h : c < n) : (List.replicate n x).getD c 0 = x := by
  rw [List.getD_eq_getElem _ 0 (by simpa using h), List.getElem_replicate]

/-- Hash-tier lookups ignore the array buffers. -/
lemma model_hash_branch {t s : ArrayWithHash} (hsz : t.arraySize = s.arraySize)
    (hhs : t.hashSize = s.hashSize) (hkeys : t.hashKeys = s.hashKeys)
    (hvals : t.hashValues = s.hashValues) {k : Nat} (hge : s.arraySize ≤ k) :
    model t k = model s k := by
  unfold model hashCellOf
  rw [hsz, hhs, hkeys, hvals, if_neg (by omega), if_neg (by omega)]

/-- Any point update of an array slot (the array paths of `Set`, `SetIfNew`,
`Remove`, `RemovePtr`) preserves the invariant, as long as the stored count
is adjusted by the emptiness change of the slot. -/
lemma arrayUpdate_inv {s s' : ArrayWithHash} {key a newCount : Nat} (h : Inv s)
    (hlt : key < s.arraySize)
    (hcount : newCount + (if s.arrayValues.getD key 0 != EMPTY_VALUE then 1 else 0)
        = s.arrayCount + (if a != EMPTY_VALUE then 1 else 0))
    (heq : s' = { s with arrayCount := newCount, arrayValues := s.arrayValues.set key a }) :
    Inv s' := by
  subst heq
  have hlen : key < s.arrayValues.length := by rw [h.arrayLen]; exact hlt
  refine ⟨?_, h.keysLen, h.valsLen, h.arrayPow2, h.hashPow2, h.arrayCap, ?_,
    h.hashCountEq, h.hashFillEq, h.fillCap, h.keysLt, h.liveGe, h.valsLive,
    h.distinct, h.reach⟩
  · show (s.arrayValues.set key a).length = s.arraySize
    rw [List.length_set]; exact h.arrayLen
  · show newCount = (s.arrayValues.set key a).countP (fun v => v != EMPTY_VALUE)
    have hs := countP_set (fun v => v != EMPTY_VALUE) s.arrayValues key hlen a
    rw [h.arrayCountEq] at hcount
    omega

/-- Any point update of an array slot updates the abstract map pointwise. -/
lemma arrayUpdate_model {s s' : ArrayWithHash} {key a newCount : Nat} (h : Inv s)
    (hlt : key < s.arraySize)
    (heq : s' = { s with arrayCount := newCount, arrayValues := s.arrayValues.set key a }) :
    ∀ k', IsUserKey k' →
      model s' k' = if k' = key then (if a = EMPTY_VALUE then none else some a)
        else model s k' := by
  have hlen : key < s.arrayValues.length := by rw [h.arrayLen]; exact hlt
  intro k' hk'
  by_cases hkk : k' = key
  · subst hkk
    rw [if_pos rfl, model_eq_arr (show k' < s'.arraySize by rw [heq]; exact hlt)]
    have hget : s'.arrayValues.getD k' 0 = a := by
      rw [heq]
      show (s.arrayValues.set k' a).getD k' 0 = a
      exact getD_set_self hlen a
    rw [hget]
  · rw [if_neg hkk]
    by_cases ha : k' < s.arraySize
    · rw [model_eq_arr (show k' < s'.arraySize by rw [heq]; exact ha), model_eq_arr ha]
      have hget : s'.arrayValues.getD k' 0 = s.arrayValues.getD k' 0 := by
        rw [heq]
        show (s.arrayValues.set key a).getD k' 0 = s.arrayValues.getD k' 0
        exact getD_set_ne (fun hx => hkk hx.symm) a
      rw [hget]
    · exact model_hash_branch (by rw [heq]) (by rw [heq]) (by rw [heq]) (by rw [heq])
        (by omega)

lemma clear_inv {s : ArrayWithHash} (h : Inv s) : Inv (Clear s) := by
  have hkeysE : ∀ c, c < (Clear s).hashSize → (Clear s).hashKeys.getD c 0 = EMPTY_KEY := by
    intro c hc
    show (if s.hashSize ≠ 0 ∧ s.hashFill ≠ 0 then List.replicate s.hashSize EMPTY_KEY
      else s.hashKeys).getD c 0 = EMPTY_KEY
    have hc' : c < s.hashSize := hc
    by_cases hg : s.hashSize ≠ 0 ∧ s.hashFill ≠ 0
    · rw [if_pos hg]
      exact getD_replicate hc'
    · rw [if_neg hg]
      push_neg at hg
      rcases Nat.eq_zero_or_pos s.hashSize with h0 | h0
      · omega
      · have hfill0 : s.hashFill = 0 := hg h0.ne'
        have hcount := h.hashFillEq
        rw [hfill0] at hcount
        have hall := List.countP_eq_zero.mp hcount.symm
        have hmem : s.hashKeys.getD c 0 ∈ s.hashKeys := by
          refine getD_mem ?_
          rw [h.keysLen]; exact hc'
        have := hall _ hmem
        simpa using this
  have harrE : ∀ i, i < (Clear s).arraySize →
      (Clear s).arrayValues.getD i 0 = EMPTY_VALUE := by
    intro i hi
    show (if s.arraySize ≠ 0 ∧ s.arrayCount ≠ 0 then List.replicate s.arraySize EMPTY_VALUE
      else s.arrayValues).getD i 0 = EMPTY_VALUE
    have hi' : i < s.arraySize := hi
    by_cases hg : s.arraySize ≠ 0 ∧ s.arrayCount ≠ 0
    · rw [if_pos hg]
      exact getD_replicate hi'
    · rw [if_neg hg]
      push_neg at hg
      rcases Nat.eq_zero_or_pos s.arraySize with h0 | h0
      · omega
      · have hcnt0 : s.arrayCount = 0 := hg h0.ne'
        have hcount := h.arrayCountEq
        rw [hcnt0] at hcount
        have hall := List.countP_eq_zero.mp hcount.symm
        have hmem : s.arrayValues.getD i 0 ∈ s.arrayValues := by
          refine getD_mem ?_
          rw [h.arrayLen]; exact hi'
        have := hall _ hmem
        simpa using this
  refine ⟨?_, ?_, h.valsLen, h.arrayPow2, h.hashPow2, h.arrayCap, ?_, ?_, ?_, ?_,
    ?_, ?_, ?_, ?_, ?_⟩
  · show (if s.arraySize ≠ 0 ∧ s.arrayCount ≠ 0 then List.replicate s.arraySize EMPTY_VALUE
      else s.arrayValues).length = s.arraySize
    by_cases hg : s.arraySize ≠ 0 ∧ s.arrayCount ≠ 0
    · rw [if_pos hg, List.length_replicate]
    · rw [if_neg hg]; exact h.arrayLen
  · show (if s.hashSize ≠ 0 ∧ s.hashFill ≠ 0 then List.replicate s.hashSize EMPTY_KEY
      else s.hashKeys).length = s.hashSize
    by_cases hg : s.hashSize ≠ 0 ∧ s.hashFill ≠ 0
    · rw [if_pos hg, List.length_replicate]
    · rw [if_neg hg]; exact h.keysLen
  · show (0:Nat) = (Clear s).arrayValues.countP (fun v => v != EMPTY_VALUE)
    refine (List.countP_eq_zero.mpr ?_).symm
    intro a hmem
    obtain ⟨i, hi, hget⟩ := exists_getD_of_mem hmem
    have hlen : (Clear s).arrayValues.length = s.arraySize := by
      show (if s.arraySize ≠ 0 ∧ s.arrayCount ≠ 0 then List.replicate s.arraySize EMPTY_VALUE
        else s.arrayValues).length = s.arraySize
      by_cases hg : s.arraySize ≠ 0 ∧ s.arrayCount ≠ 0
      · rw [if_pos hg, List.length_replicate]
      · rw [if_neg hg]; exact h.arrayLen
    have := harrE i (by show i < s.arraySize; omega)
    rw [hget] at this
    simp [this]
  · show (0:Nat) = (Clear s).hashKeys.countP IsLiveKey
    refine (List.countP_eq_zero.mpr ?_).symm
    intro a hmem
    obtain ⟨i, hi, hget⟩ := exists_getD_of_mem hmem
    have hlen : (Clear s).hashKeys.length = s.hashSize := by
      show (if s.hashSize ≠ 0 ∧ s.hashFill ≠ 0 then List.replicate s.hashSize EMPTY_KEY
        else s.hashKeys).length = s.hashSize
      by_cases hg : s.hashSize ≠ 0 ∧ s.hashFill ≠ 0
      · rw [if_pos hg, List.length_replicate]
      · rw [if_neg hg]; exact h.keysLen
    have := hkeysE i (by show i < s.hashSize; omega)
    rw [hget] at this
    rw [this, IsLiveKey_empty]
    exact Bool.false_ne_true
  · show (0:Nat) = (Clear s).hashKeys.countP (fun k => k != EMPTY_KEY)
    refine (List.countP_eq_zero.mpr ?_).symm
    intro a hmem
    obtain ⟨i, hi, hget⟩ := exists_getD_of_mem hmem
    have hlen : (Clear s).hashKeys.length = s.hashSize := by
      show (if s.hashSize ≠ 0 ∧ s.hashFill ≠ 0 then List.replicate s.hashSize EMPTY_KEY
        else s.hashKeys).length = s.hashSize
      by_cases hg : s.hashSize ≠ 0 ∧ s.hashFill ≠ 0
      · rw [if_pos hg, List.length_replicate]
      · rw [if_neg hg]; exact h.keysLen
    have := hkeysE i (by show i < s.hashSize; omega)
    rw [hget] at this
    simp [this]
  · show 4 * 0 ≤ 3 * s.hashSize
    omega
  · intro c hc
    rw [hkeysE c hc]
    decide
  · intro c hc hlive
    rw [hkeysE c hc, IsLiveKey_empty] at hlive
    cases hlive
  · intro c hc hlive
    rw [hkeysE c hc, IsLiveKey_empty] at hlive
    cases hlive
  · intro c1 h1 c2 h2 hlive _
    rw [hkeysE c1 h1, IsLiveKey_empty] at hlive
    cases hlive
  · intro c hc hlive
    rw [hkeysE c hc, IsLiveKey_empty] at hlive
    cases hlive

lemma clear_model {s : ArrayWithHash} (h : Inv s) :
    ∀ k, IsUserKey k → model (Clear s) k = none := by
  have h' := clear_inv h
  intro k hk
  by_cases hlt : k < (Clear s).arraySize
  · rw [model_eq_arr hlt]
    have harrE : (Clear s).arrayValues.getD k 0 = EMPTY_VALUE := by
      show (if s.arraySize ≠ 0 ∧ s.arrayCount ≠ 0 then List.replicate s.arraySize EMPTY_VALUE
        else s.arrayValues).getD k 0 = EMPTY_VALUE
      have hk' : k < s.arraySize := hlt
      by_cases hg : s.arraySize ≠ 0 ∧ s.arrayCount ≠ 0
      · rw [if_pos hg]
        exact getD_replicate hk'
      · rw [if_neg hg]
        push_neg at hg
        have hcnt0 : s.arrayCount = 0 := hg (by omega)
        have hcount := h.arrayCountEq
        rw [hcnt0] at hcount
        have hall := List.countP_eq_zero.mp hcount.symm
        have hmem : s.arrayValues.getD k 0 ∈ s.arrayValues := by
          refine getD_mem ?_
          rw [h.arrayLen]; exact hk'
        have := hall _ hmem
        simpa using this
    rw [harrE, if_pos rfl]
  · refine model_eq_none_of_absent (by omega) ?_
    intro c hc hkey
    have hE : (Clear s).hashKeys.getD c 0 = EMPTY_KEY := by
      show (if s.hashSize ≠ 0 ∧ s.hashFill ≠ 0 then List.replicate s.hashSize EMPTY_KEY
        else s.hashKeys).getD c 0 = EMPTY_KEY
      have hc' : c < s.hashSize := hc
      by_cases hg : s.hashSize ≠ 0 ∧ s.hashFill ≠ 0
      · rw [if_pos hg]
        exact getD_replicate hc'
      · rw [if_neg hg]
        push_neg at hg
        have hfill0 : s.hashFill = 0 := hg (by omega)
        have hcount := h.hashFillEq
        rw [hfill0] at hcount
        have hall := List.countP_eq_zero.mp hcount.symm
        have hmem : s.hashKeys.getD c 0 ∈ s.hashKeys := by
          refine getD_mem ?_
          rw [h.keysLen]; exact hc'
        have := hall _ hmem
        simpa using this
    rw [hkey] at hE
    exact hk.2.1 hE

end ArrayWithHash

/-! ## Relocation: shared helpers -/

namespace ArrayWithHash

open AWH

lemma processAll_append (f : ArrayWithHash → Nat → Option ArrayWithHash)
    (l1 l2 : List Nat) (st : ArrayWithHash) :
    processAll f (l1 ++ l2) st = (processAll f l1 st).bind (processAll f l2) := by
  induction l1 generalizing st with
  | nil => rfl
  | cons p ps ih =>
    show (f st p).bind (processAll f (ps ++ l2)) = ((f st p).bind (processAll f ps)).bind
      (processAll f l2)
    cases f st p with
    | none => rfl
    | some st' => exact ih st'

lemma rap_length {s : ArrayWithHash} {newA : Nat} (hlen : s.arrayValues.length = s.arraySize)
    (hge : s.arraySize ≤ newA) :
    (relocateArrayPart s newA).arrayValues.length = newA := by
  show (s.arrayValues ++ List.replicate (newA - s.arraySize) EMPTY_VALUE).length = newA
  rw [List.length_append, List.length_replicate, hlen]
  omega

lemma rap_getD_lt {s : ArrayWithHash} {newA i : Nat} (hlen : s.arrayValues.length = s.arraySize)
    (hi : i < s.arraySize) :
    (relocateArrayPart s newA).arrayValues.getD i 0 = s.arrayValues.getD i 0 := by
  show (s.arrayValues ++ List.replicate (newA - s.arraySize) EMPTY_VALUE).getD i 0
    = s.arrayValues.getD i 0
  rw [List.getD_append _ _ _ _ (by omega)]

lemma rap_getD_ge {s : ArrayWithHash} {newA i : Nat} (hlen : s.arrayValues.length = s.arraySize)
    (hi : s.arraySize ≤ i) (hi2 : i < newA) :
    (relocateArrayPart s newA).arrayValues.getD i 0 = EMPTY_VALUE := by
  show (s.arrayValues ++ List.replicate (newA - s.arraySize) EMPTY_VALUE).getD i 0
    = EMPTY_VALUE
  rw [List.getD_append_right _ _ _ _ (by omega)]
  rw [hlen]
  exact getD_replicate (by omega)

lemma rap_countP {s : ArrayWithHash} (newA : Nat) :
    (relocateArrayPart s newA).arrayValues.countP (fun v => v != EMPTY_VALUE)
      = s.arrayValues.countP (fun v => v != EMPTY_VALUE) := by
  show (s.arrayValues ++ List.replicate (newA - s.arraySize) EMPTY_VALUE).countP _
    = s.arrayValues.countP _
  rw [List.countP_append]
  have h0 : (List.replicate (newA - s.arraySize) EMPTY_VALUE).countP
      (fun v => v != EMPTY_VALUE) = 0 := by
    rw [List.countP_eq_zero]
    intro a ha
    rw [List.eq_of_mem_replicate ha]
    simp
  omega

/-- The number of live hash keys that fit below a bound (those migrated into
the array part by a growing relocation). -/
def migratedCount (s : ArrayWithHash) (bound : Nat) : Nat :=
  s.hashKeys.countP fun k => IsLiveKey k && decide (k < bound)

/-- The common postcondition of both relocation routines. -/
structure RelocOut (s0 s' : ArrayWithHash) (newA newH : Nat) : Prop where
  inv : Inv s'
  sizeA : s'.arraySize = newA
  sizeH : s'.hashSize = newH
  modelEq : ∀ k, IsUserKey k → model s' k = model s0 k
  countA : s'.arrayCount = s0.arrayCount + migratedCount s0 newA
  countH : s'.hashCount = s0.hashCount - migratedCount s0 newA
  fillEq : s'.hashFill = s'.hashCount

end ArrayWithHash

namespace ArrayWithHash

open AWH

lemma countP_take_succ {l : List Nat} {n : Nat} (p : Nat → Bool) (hn : n < l.length) :
    (l.take (n + 1)).countP p
      = (l.take n).countP p + (if p (l.getD n 0) then 1 else 0) := by
  rw [List.take_succ, List.countP_append]
  rw [List.getElem?_eq_getElem hn]
  rw [List.getD_eq_getElem l 0 hn]
  by_cases h : p l[n] <;> simp [h]

lemma countNE_eq_countLive {keys : List Nat} {m : Nat} (hlen : keys.length = m)
    (hnoRem : ∀ c, c < m → keys.getD c 0 = EMPTY_KEY ∨ IsLiveKey (keys.getD c 0) = true) :
    keys.countP (fun k => k != EMPTY_KEY) = keys.countP IsLiveKey := by
  refine List.countP_congr ?_
  intro a hmem
  obtain ⟨i, hi, hget⟩ := exists_getD_of_mem hmem
  rcases hnoRem i (by omega) with hE | hL
  · rw [hget] at hE
    subst hE
    rw [IsLiveKey_empty]
    simp
  · rw [hget] at hL
    rw [hL]
    rw [IsLiveKey_iff] at hL
    simp [hL.1]

lemma existsEmptyCell {keys : List Nat} {m : Nat} (hlen : keys.length = m)
    (hcnt : keys.countP (fun k => k != EMPTY_KEY) < m) :
    ∃ c, c < m ∧ keys.getD c 0 = EMPTY_KEY := by
  by_contra hno
  push_neg at hno
  have hall : ∀ a ∈ keys, (a != EMPTY_KEY) = true := by
    intro a ha
    obtain ⟨i, hi, he⟩ := exists_getD_of_mem ha
    have := hno i (by omega)
    rw [he] at this
    simpa using this
  have hfull : keys.countP (fun k => k != EMPTY_KEY) = keys.length :=
    List.countP_eq_length.mpr hall
  omega

/-- When the key is nowhere in the table, the relocation probe and the
user-facing probe stop at the same (empty) cell. -/
lemma fce_eq_fcke_of_absent {keys : List Nat} {m key c : Nat} (hm : Pow2 m)
    (habs : ∀ c', c' < m → keys.getD c' 0 ≠ key)
    (hc : findCellEmpty keys m key = some c) :
    findCellKeyOrEmpty keys m key = some c := by
  rw [findCellEmpty_eq_some_iff hm] at hc
  rw [findCellKeyOrEmpty_eq_some_iff hm]
  obtain ⟨j, hj, hcc, hstop, hmin⟩ := hc
  exact ⟨j, hj, hcc, Or.inl hstop,
    fun i hi => ⟨hmin i hi, habs _ (Nat.mod_lt _ hm.pos)⟩⟩

end ArrayWithHash

namespace ArrayWithHash

open AWH

lemma countP_take_le (l : List Nat) (p : Nat → Bool) (n : Nat) :
    (l.take n).countP p ≤ l.countP p := by
  conv_rhs => rw [← List.take_append_drop n l]
  rw [List.countP_append]
  omega

/-- Facts about the intermediate state after the optional array growth. -/
lemma sgFacts {s0 sg : ArrayWithHash} {relocArray : Bool} {newA : Nat} (h0 : Inv s0)
    (hsg : sg = if relocArray then relocateArrayPart s0 newA else s0)
    (hAtrue : relocArray = true → s0.arraySize ≤ newA) :
    s0.arraySize ≤ sg.arraySize ∧
    sg.hashKeys = s0.hashKeys ∧ sg.hashValues = s0.hashValues ∧
    sg.hashSize = s0.hashSize ∧ sg.hashCount = s0.hashCount ∧ sg.hashFill = s0.hashFill ∧
    sg.arrayCount = s0.arrayCount ∧
    sg.arrayValues.length = sg.arraySize ∧
    sg.arrayCount = sg.arrayValues.countP (fun v => v != EMPTY_VALUE) ∧
    (∀ i, i < s0.arraySize → sg.arrayValues.getD i 0 = s0.arrayValues.getD i 0) ∧
    (∀ i, s0.arraySize ≤ i → i < sg.arraySize → sg.arrayValues.getD i 0 = EMPTY_VALUE) := by
  cases relocArray with
  | false =>
    have hs : sg = s0 := by rw [hsg]; rfl
    subst hs
    refine ⟨le_refl _, rfl, rfl, rfl, rfl, rfl, rfl, h0.arrayLen, h0.arrayCountEq,
      fun i _ => rfl, fun i h1 h2 => absurd h2 (by omega)⟩
  | true =>
    have hge : s0.arraySize ≤ newA := hAtrue rfl
    have hs : sg = relocateArrayPart s0 newA := by rw [hsg]; rfl
    subst hs
    have hA : (relocateArrayPart s0 newA).arraySize = newA := rfl
    refine ⟨by rw [hA]; exact hge, rfl, rfl, rfl, rfl, rfl, rfl, ?_, ?_, ?_, ?_⟩
    · rw [hA]; exact rap_length h0.arrayLen hge
    · show s0.arrayCount = _
      rw [rap_countP]; exact h0.arrayCountEq
    · intro i hi; exact rap_getD_lt h0.arrayLen hi
    · intro i h1 h2
      rw [hA] at h2
      exact rap_getD_ge h0.arrayLen h1 h2

lemma toNewStep_ok {s0 sg st : ArrayWithHash} {relocArray : Bool} {newA newH n : Nat}
    (h0 : Inv s0)
    (hsg : sg = if relocArray then relocateArrayPart s0 newA else s0)
    (hAtrue : relocArray = true → s0.arraySize ≤ newA)
    (hH : Pow2 newH)
    (hCnt : s0.hashCount < newH)
    (hn : n < s0.hashSize)
    (hst : ToNewInv relocArray sg s0.hashKeys s0.hashValues newH n st) :
    ∃ st', toNewStep relocArray s0.hashKeys s0.hashValues st n = some st' ∧
      ToNewInv relocArray sg s0.hashKeys s0.hashValues newH (n + 1) st' := by
  obtain ⟨hsgge, hsgK, hsgV, hsgH, hsgC, hsgF, hsgAC, hsgLen, hsgCnt, hsgLt, hsgE⟩ :=
    sgFacts h0 hsg hAtrue
  have hnK : n < s0.hashKeys.length := by rw [h0.keysLen]; exact hn
  have hstep : toNewStep relocArray s0.hashKeys s0.hashValues st n =
      (if IsLiveKey (s0.hashKeys.getD n 0) then
        (if relocArray ∧ s0.hashKeys.getD n 0 < st.arraySize then
          some { st with
            arrayValues := st.arrayValues.set (s0.hashKeys.getD n 0) (s0.hashValues.getD n 0)
            arrayCount := st.arrayCount + 1 }
        else (findCellEmpty st.hashKeys st.hashSize (s0.hashKeys.getD n 0)).map fun cell =>
          { st with
            hashKeys := st.hashKeys.set cell (s0.hashKeys.getD n 0)
            hashValues := st.hashValues.set cell (s0.hashValues.getD n 0) })
      else some st) := rfl
  by_cases hlive : IsLiveKey (s0.hashKeys.getD n 0) = true
  · -- a valid element is relocated
    set k := s0.hashKeys.getD n 0 with hkdef
    set v := s0.hashValues.getD n 0 with hvdef
    have hkge0 : s0.arraySize ≤ k := h0.liveGe n hn hlive
    have hklt : k < 2 ^ 32 := h0.keysLt n hn
    have hvne : v ≠ EMPTY_VALUE := h0.valsLive n hn hlive
    have hnoprev : ∀ c, c < n → IsLiveKey (s0.hashKeys.getD c 0) = true →
        s0.hashKeys.getD c 0 ≠ k := by
      intro c hc hl heq
      have := h0.distinct c (by omega) n hn hl heq
      omega
    rw [hstep, if_pos hlive]
    by_cases hmig : relocArray ∧ k < st.arraySize
    · -- migrate into the array part
      rw [if_pos hmig]
      have hkA : k < sg.arraySize := by rw [← hst.szA]; exact hmig.2
      have hkLenA : k < st.arrayValues.length := by rw [hst.lenA]; exact hkA
      have hslotSg : sg.arrayValues.getD k 0 = EMPTY_VALUE := hsgE k hkge0 hkA
      have hslotE : st.arrayValues.getD k 0 = EMPTY_VALUE := by
        rw [hst.arrFrame k hkA hnoprev]; exact hslotSg
      refine ⟨_, rfl, ?_⟩
      refine ⟨hst.szA, hst.szH, hst.cntH, hst.fill, ?_, hst.lenK, hst.lenV, ?_, ?_,
        hst.noRem, hst.keysLt, hst.liveGe, hst.valsLive, hst.distinct, hst.reach,
        ?_, ?_, ?_, ?_, ?_⟩
      · show (st.arrayValues.set k v).length = sg.arraySize
        rw [List.length_set]; exact hst.lenA
      · show st.arrayCount + 1 = (st.arrayValues.set k v).countP _
        have hs := countP_set (fun x => x != EMPTY_VALUE) st.arrayValues k hkLenA v
        rw [hslotE] at hs
        have h1 : (EMPTY_VALUE != EMPTY_VALUE) = false := by simp
        have h2 : (v != EMPTY_VALUE) = true := by simp [hvne]
        rw [h1, h2] at hs
        simp only [if_true, Bool.false_eq_true, if_false] at hs
        rw [hst.cntA]; omega
      · show sg.arrayCount ≤ st.arrayCount + 1
        have := hst.arrGe; omega
      · show st.hashKeys.countP IsLiveKey + (st.arrayCount + 1)
          = (s0.hashKeys.take (n + 1)).countP IsLiveKey + sg.arrayCount
        rw [countP_take_succ IsLiveKey hnK, hlive]
        have := hst.liveCnt
        simp only [if_true]
        omega
      · show st.arrayCount + 1 = sg.arrayCount
          + (s0.hashKeys.take (n + 1)).countP (fun x => IsLiveKey x && decide (x < sg.arraySize))
        rw [countP_take_succ _ hnK]
        have hp : (IsLiveKey (s0.hashKeys.getD n 0)
            && decide (s0.hashKeys.getD n 0 < sg.arraySize)) = true := by
          rw [← hkdef, hlive]
          simp [hkA]
        rw [hp]
        have := hst.migr
        simp only [if_true]
        omega
      · intro c hc hl
        by_cases hcn : c = n
        · subst hcn
          constructor
          · intro _
            show (st.arrayValues.set k v).getD k 0 = v
            exact getD_set_self hkLenA v
          · intro hge
            exact absurd hge (by omega)
        · have hc' : c < n := by omega
          obtain ⟨hfa, hfh⟩ := hst.fwd c hc' hl
          constructor
          · intro hlt
            show (st.arrayValues.set k v).getD (s0.hashKeys.getD c 0) 0
              = s0.hashValues.getD c 0
            rw [getD_set_ne (Ne.symm (hnoprev c hc' hl)) v]
            exact hfa hlt
          · exact hfh
      · intro c' hc' hl
        obtain ⟨c, hc, hck, hcv⟩ := hst.bwd c' hc' hl
        exact ⟨c, by omega, hck, hcv⟩
      · intro idx hidx hnone
        show (st.arrayValues.set k v).getD idx 0 = sg.arrayValues.getD idx 0
        have hkidx : k ≠ idx := hnone n (by omega) hlive
        rw [getD_set_ne hkidx v]
        exact hst.arrFrame idx hidx (fun c hc hl => hnone c (by omega) hl)
    · -- reinsert into the new hash table
      rw [if_neg hmig]
      have hkge : sg.arraySize ≤ k := by
        cases relocArray with
        | false =>
          have hseq : sg = s0 := by rw [hsg]; rfl
          rw [hseq]
          exact hkge0
        | true =>
          have hnlt : ¬ (k < st.arraySize) := fun hlt => hmig ⟨rfl, hlt⟩
          rw [hst.szA] at hnlt
          omega
      -- the new table still has an empty cell
      have hcntNE : st.hashKeys.countP (fun x => x != EMPTY_KEY) < newH := by
        rw [countNE_eq_countLive hst.lenK hst.noRem]
        have h1 := hst.liveCnt
        have h2 := hst.arrGe
        have h3 : (s0.hashKeys.take n).countP IsLiveKey
            ≤ s0.hashKeys.countP IsLiveKey := countP_take_le _ _ _
        have h4 : s0.hashKeys.countP IsLiveKey = s0.hashCount := h0.hashCountEq.symm
        omega
      have hemp := existsEmptyCell hst.lenK hcntNE
      have hsome : (findCellEmpty st.hashKeys newH k).isSome = true :=
        findCellEmpty_isSome hH hemp
      obtain ⟨cell, hcell⟩ := Option.isSome_iff_exists.mp hsome
      obtain ⟨hcellLt, hcellE⟩ := findCellEmpty_spec hH hcell
      have hcellLenK : cell < st.hashKeys.length := by rw [hst.lenK]; exact hcellLt
      have hcellLenV : cell < st.hashValues.length := by rw [hst.lenV]; exact hcellLt
      have habsK : ∀ c', c' < newH → st.hashKeys.getD c' 0 ≠ k := by
        intro c' hc' heq
        have hl' : IsLiveKey (st.hashKeys.getD c' 0) = true := by rw [heq]; exact hlive
        obtain ⟨c, hc, hck, _⟩ := hst.bwd c' hc' hl'
        rw [heq] at hck
        exact hnoprev c hc (by rw [hck]; exact hlive) hck
      have hstep2 : findCellEmpty st.hashKeys st.hashSize k = some cell := by
        rw [hst.szH]; exact hcell
      rw [hstep2, Option.map_some']
      refine ⟨_, rfl, ?_⟩
      have hfckeOld : findCellKeyOrEmpty st.hashKeys newH k = some cell :=
        fce_eq_fcke_of_absent hH habsK hcell
      refine ⟨hst.szA, hst.szH, hst.cntH, hst.fill, hst.lenA, ?_, ?_, hst.cntA,
        hst.arrGe, ?_, ?_, ?_, ?_, ?_, ?_, ?_, ?_, ?_, ?_, ?_⟩
      · show (st.hashKeys.set cell k).length = newH
        rw [List.length_set]; exact hst.lenK
      · show (st.hashValues.set cell v).length = newH
        rw [List.length_set]; exact hst.lenV
      · intro c hc
        by_cases hce : c = cell
        · subst hce
          rw [getD_set_self hcellLenK k]
          right; exact hlive
        · rw [getD_set_ne (fun hx => hce hx.symm) k]
          exact hst.noRem c hc
      · intro c hc
        by_cases hce : c = cell
        · subst hce
          rw [getD_set_self hcellLenK k]
          exact hklt
        · rw [getD_set_ne (fun hx => hce hx.symm) k]
          exact hst.keysLt c hc
      · intro c hc hl
        by_cases hce : c = cell
        · subst hce
          rw [getD_set_self hcellLenK k]
          exact hkge
        · rw [getD_set_ne (fun hx => hce hx.symm) k] at hl ⊢
          exact hst.liveGe c hc hl
      · intro c hc hl
        by_cases hce : c = cell
        · subst hce
          rw [getD_set_self hcellLenV v]
          exact hvne
        · rw [getD_set_ne (fun hx => hce hx.symm) k] at hl
          rw [getD_set_ne (fun hx => hce hx.symm) v]
          exact hst.valsLive c hc hl
      · intro c1 h1 c2 h2 hl heqk
        by_cases hc1 : c1 = cell <;> by_cases hc2 : c2 = cell
        · rw [hc1, hc2]
        · subst hc1
          rw [getD_set_self hcellLenK k] at heqk
          rw [getD_set_ne (fun hx => hc2 hx.symm) k] at heqk
          exact absurd heqk.symm (habsK c2 h2)
        · subst hc2
          rw [getD_set_self hcellLenK k] at heqk
          rw [getD_set_ne (fun hx => hc1 hx.symm) k] at heqk
          exact absurd heqk (habsK c1 h1)
        · rw [getD_set_ne (fun hx => hc1 hx.symm) k] at hl heqk
          rw [getD_set_ne (fun hx => hc2 hx.symm) k] at heqk
          exact hst.distinct c1 h1 c2 h2 hl heqk
      · intro c hc hl
        show findCellKeyOrEmpty (st.hashKeys.set cell k) newH
          ((st.hashKeys.set cell k).getD c 0) = some c
        by_cases hce : c = cell
        · rw [hce, getD_set_self hcellLenK k]
          exact fcke_set_self hH hfckeOld hcellE
        · rw [getD_set_ne (fun hx => hce hx.symm) k]
          have hl' : IsLiveKey (st.hashKeys.getD c 0) = true := by
            have hl2 : IsLiveKey ((st.hashKeys.set cell k).getD c 0) = true := hl
            rwa [getD_set_ne (fun hx => hce hx.symm) k] at hl2
          exact fcke_set_preserved k hH (hst.reach c hc hl') rfl
            (fun hx => hce hx.symm) (Or.inl hcellE)
      · show (st.hashKeys.set cell k).countP IsLiveKey + st.arrayCount
          = (s0.hashKeys.take (n + 1)).countP IsLiveKey + sg.arrayCount
        have hs := countP_set IsLiveKey st.hashKeys cell hcellLenK k
        rw [hcellE, IsLiveKey_empty, hlive] at hs
        simp only [if_true, Bool.false_eq_true, if_false] at hs
        rw [countP_take_succ IsLiveKey hnK, hlive]
        have := hst.liveCnt
        simp only [if_true]
        omega
      · show st.arrayCount = sg.arrayCount
          + (s0.hashKeys.take (n + 1)).countP (fun x => IsLiveKey x && decide (x < sg.arraySize))
        rw [countP_take_succ _ hnK]
        have hp : (IsLiveKey (s0.hashKeys.getD n 0)
            && decide (s0.hashKeys.getD n 0 < sg.arraySize)) = false := by
          rw [← hkdef]
          have : ¬ (k < sg.arraySize) := by omega
          simp [this]
        rw [hp]
        have := hst.migr
        simp only [Bool.false_eq_true, if_false]
        omega
      · intro c hc hl
        by_cases hcn : c = n
        · subst hcn
          constructor
          · intro hlt
            exact absurd hlt (by omega)
          · intro _
            refine ⟨cell, hcellLt, ?_, ?_⟩
            · show (st.hashKeys.set cell k).getD cell 0 = _
              rw [getD_set_self hcellLenK k]
            · show (st.hashValues.set cell v).getD cell 0 = _
              rw [getD_set_self hcellLenV v]
        · have hc' : c < n := by omega
          obtain ⟨hfa, hfh⟩ := hst.fwd c hc' hl
          refine ⟨hfa, ?_⟩
          intro hge
          obtain ⟨c', hc'lt, hck', hcv'⟩ := hfh hge
          have hc'ne : c' ≠ cell := by
            intro hx
            rw [hx, hcellE] at hck'
            have := hst.noRem cell hcellLt
            rw [IsLiveKey_iff] at hl
            exact hl.1 hck'.symm
          refine ⟨c', hc'lt, ?_, ?_⟩
          · rw [getD_set_ne (fun hx => hc'ne hx.symm) k]
            exact hck'
          · rw [getD_set_ne (fun hx => hc'ne hx.symm) v]
            exact hcv'
      · intro c' hc' hl
        by_cases hce : c' = cell
        · subst hce
          refine ⟨n, by omega, ?_, ?_⟩
          · rw [getD_set_self hcellLenK k]
          · rw [getD_set_self hcellLenV v]
        · rw [getD_set_ne (fun hx => hce hx.symm) k] at hl
          obtain ⟨c, hc, hck, hcv⟩ := hst.bwd c' hc' hl
          refine ⟨c, by omega, ?_, ?_⟩
          · rw [getD_set_ne (fun hx => hce hx.symm) k]
            exact hck
          · rw [getD_set_ne (fun hx => hce hx.symm) v]
            exact hcv
      · intro idx hidx hnone
        exact hst.arrFrame idx hidx (fun c hc hl => hnone c (by omega) hl)
  · -- a sentinel cell: nothing to do
    rw [hstep, if_neg hlive]
    refine ⟨st, rfl, ?_⟩
    have hlive' : IsLiveKey (s0.hashKeys.getD n 0) = false := eq_false_of_ne_true hlive
    refine ⟨hst.szA, hst.szH, hst.cntH, hst.fill, hst.lenA, hst.lenK, hst.lenV,
      hst.cntA, hst.arrGe, hst.noRem, hst.keysLt, hst.liveGe, hst.valsLive,
      hst.distinct, hst.reach, ?_, ?_, ?_, ?_,
      fun idx hidx hnone => hst.arrFrame idx hidx (fun c hc hl => hnone c (by omega) hl)⟩
    · rw [countP_take_succ IsLiveKey hnK, hlive']
      have := hst.liveCnt
      simp only [Bool.false_eq_true, if_false]
      omega
    · rw [countP_take_succ _ hnK]
      have hp : (IsLiveKey (s0.hashKeys.getD n 0)
          && decide (s0.hashKeys.getD n 0 < sg.arraySize)) = false := by
        rw [hlive']; rfl
      rw [hp]
      have := hst.migr
      simp only [Bool.false_eq_true, if_false]
      omega
    · intro c hc hl
      by_cases hcn : c = n
      · subst hcn
        rw [hl] at hlive'
        cases hlive'
      · exact hst.fwd c (by omega) hl
    · intro c' hc' hl
      obtain ⟨c, hc, hck, hcv⟩ := hst.bwd c' hc' hl
      exact ⟨c, by omega, hck, hcv⟩

end ArrayWithHash

namespace ArrayWithHash

open AWH

lemma countP_replicate_false {p : Nat → Bool} {a : Nat} (h : p a = false) (n : Nat) :
    (List.replicate n a).countP p = 0 := by
  induction n with
  | zero => rfl
  | succ m ih =>
    rw [List.replicate_succ, List.countP_cons, h]
    simpa using ih

lemma countP_and_le (p q : Nat → Bool) :
    ∀ l : List Nat, l.countP (fun x => p x && q x) ≤ l.countP p := by
  intro l
  induction l with
  | nil => simp
  | cons x t ih =>
    rw [List.countP_cons, List.countP_cons]
    have : (if (p x && q x) = true then 1 else 0) ≤ (if p x = true then 1 else 0) := by
      cases hp : p x <;> cases hq : q x <;> simp
    omega

/-- The relocation loop invariant holds before the first step. -/
lemma toNewInv_init {s0 sg : ArrayWithHash} {relocArray : Bool} {newA newH : Nat}
    (h0 : Inv s0)
    (hsg : sg = if relocArray then relocateArrayPart s0 newA else s0)
    (hAtrue : relocArray = true → s0.arraySize ≤ newA) :
    ToNewInv relocArray sg s0.hashKeys s0.hashValues newH 0
      { sg with
        hashKeys := List.replicate newH EMPTY_KEY
        hashValues := List.replicate newH 0
        hashSize := newH } := by
  obtain ⟨hsgge, hsgK, hsgV, hsgH, hsgC, hsgF, hsgAC, hsgLen, hsgCnt, hsgLt, hsgE⟩ :=
    sgFacts h0 hsg hAtrue
  refine ⟨rfl, rfl, rfl, rfl, hsgLen, List.length_replicate _ _, List.length_replicate _ _,
    hsgCnt, le_refl _, ?_, ?_, ?_, ?_, ?_, ?_, ?_, ?_, ?_, ?_, ?_⟩
  · intro c hc
    rw [getD_replicate hc]
    exact Or.inl rfl
  · intro c hc
    rw [getD_replicate hc]
    unfold EMPTY_KEY
    omega
  · intro c hc hl
    rw [getD_replicate hc, IsLiveKey_empty] at hl
    cases hl
  · intro c hc hl
    rw [getD_replicate hc, IsLiveKey_empty] at hl
    cases hl
  · intro c1 h1 c2 h2 hl
    rw [getD_replicate h1, IsLiveKey_empty] at hl
    cases hl
  · intro c hc hl
    rw [getD_replicate hc, IsLiveKey_empty] at hl
    cases hl
  · show (List.replicate newH EMPTY_KEY).countP IsLiveKey + sg.arrayCount
      = (s0.hashKeys.take 0).countP IsLiveKey + sg.arrayCount
    rw [countP_replicate_false IsLiveKey_empty, List.take_zero]
    rfl
  · show sg.arrayCount = sg.arrayCount + (s0.hashKeys.take 0).countP _
    rw [List.take_zero]
    rfl
  · intro c hc
    exact absurd hc (Nat.not_lt_zero c)
  · intro c' hc' hl
    rw [getD_replicate hc', IsLiveKey_empty] at hl
    cases hl
  · intro idx _ _
    rfl

/-- Running the relocation loop up to index `n` succeeds and maintains the
invariant. -/
lemma toNewLoop {s0 sg : ArrayWithHash} {relocArray : Bool} {newA newH : Nat}
    (h0 : Inv s0)
    (hsg : sg = if relocArray then relocateArrayPart s0 newA else s0)
    (hAtrue : relocArray = true → s0.arraySize ≤ newA)
    (hH : Pow2 newH)
    (hCnt : s0.hashCount < newH) :
    ∀ n, n ≤ s0.hashSize →
      ∃ st, processAll (toNewStep relocArray s0.hashKeys s0.hashValues) (List.range n)
          { sg with
            hashKeys := List.replicate newH EMPTY_KEY
            hashValues := List.replicate newH 0
            hashSize := newH } = some st ∧
        ToNewInv relocArray sg s0.hashKeys s0.hashValues newH n st := by
  intro n
  induction n with
  | zero =>
    intro _
    exact ⟨_, rfl, toNewInv_init h0 hsg hAtrue⟩
  | succ m ih =>
    intro hm
    obtain ⟨st, hproc, hinv⟩ := ih (by omega)
    obtain ⟨st', hstep, hinv'⟩ := toNewStep_ok h0 hsg hAtrue hH hCnt (by omega) hinv
    refine ⟨st', ?_, hinv'⟩
    rw [List.range_succ, processAll_append, hproc, Option.some_bind]
    show (toNewStep relocArray s0.hashKeys s0.hashValues st m).bind
      (processAll (toNewStep relocArray s0.hashKeys s0.hashValues) []) = some st'
    rw [hstep]
    rfl

/-- The abstract map ignores the `hashCount`/`hashFill` bookkeeping fields. -/
lemma model_update_counts (t : ArrayWithHash) (a b k : Nat) :
    model { t with hashCount := a, hashFill := b } k = model t k := rfl

/-- `RelocateHashToNew` succeeds and satisfies the relocation postcondition. -/
lemma toNew_ok {s0 : ArrayWithHash} {relocArray : Bool} {newA newH : Nat}
    (h0 : Inv s0)
    (hAtrue : relocArray = true → s0.arraySize ≤ newA)
    (hAfalse : relocArray = false → newA = s0.arraySize)
    (hApow : newA = 0 ∨ (Pow2 newA ∧ ARRAY_MIN_SIZE ≤ newA))
    (hAcap : newA ≤ 2 ^ 31)
    (hH : Pow2 newH) (hHmin : HASH_MIN_SIZE ≤ newH)
    (hCnt : s0.hashCount < newH)
    (hCap : 4 * (s0.hashCount - migratedCount s0 newA) ≤ 3 * newH) :
    ∃ s', relocateHashToNew relocArray newH newA s0 = some s' ∧
      RelocOut s0 s' newA newH := by
  obtain ⟨sg, hsg⟩ : ∃ sg, sg = if relocArray then relocateArrayPart s0 newA else s0 :=
    ⟨_, rfl⟩
  obtain ⟨hsgge, hsgK, hsgV, hsgH, hsgC, hsgF, hsgAC, hsgLen, hsgCnt, hsgLt, hsgE⟩ :=
    sgFacts h0 hsg hAtrue
  have hsgAeq : sg.arraySize = newA := by
    cases relocArray with
    | false =>
      have hseq : sg = s0 := by rw [hsg]; rfl
      rw [hseq]
      exact (hAfalse rfl).symm
    | true =>
      rw [hsg]
      rfl
  obtain ⟨stF, hproc, hinv⟩ :=
    toNewLoop h0 hsg hAtrue hH hCnt s0.hashSize (le_refl _)
  have hrun : relocateHashToNew relocArray newH newA s0 =
      (processAll (toNewStep relocArray sg.hashKeys sg.hashValues) (List.range sg.hashSize)
        { sg with
          hashKeys := List.replicate newH EMPTY_KEY
          hashValues := List.replicate newH 0
          hashSize := newH }).map
      (fun s3 =>
        { s3 with
          hashCount := if relocArray then sg.arrayCount + sg.hashCount - s3.arrayCount
            else s3.hashCount
          hashFill := if relocArray then sg.arrayCount + sg.hashCount - s3.arrayCount
            else s3.hashCount }) := by
    rw [hsg]
    rfl
  rw [hsgK, hsgV, hsgH, hproc, Option.map_some'] at hrun
  have hrun2 : relocateHashToNew relocArray newH newA s0 = some { stF with
      hashCount := if relocArray then sg.arrayCount + sg.hashCount - stF.arrayCount
        else stF.hashCount
      hashFill := if relocArray then sg.arrayCount + sg.hashCount - stF.arrayCount
        else stF.hashCount } := hrun
  obtain ⟨sFin, hsFin⟩ : ∃ x, x = { stF with
      hashCount := if relocArray then sg.arrayCount + sg.hashCount - stF.arrayCount
        else stF.hashCount
      hashFill := if relocArray then sg.arrayCount + sg.hashCount - stF.arrayCount
        else stF.hashCount } := ⟨_, rfl⟩
  rw [← hsFin] at hrun2
  have hFa : sFin.arraySize = stF.arraySize := by rw [hsFin]
  have hFac : sFin.arrayCount = stF.arrayCount := by rw [hsFin]
  have hFh : sFin.hashSize = stF.hashSize := by rw [hsFin]
  have hFav : sFin.arrayValues = stF.arrayValues := by rw [hsFin]
  have hFk : sFin.hashKeys = stF.hashKeys := by rw [hsFin]
  have hFv : sFin.hashValues = stF.hashValues := by rw [hsFin]
  have hFillC : sFin.hashFill = sFin.hashCount := by rw [hsFin]
  have htake : s0.hashKeys.take s0.hashSize = s0.hashKeys := by
    rw [← h0.keysLen]
    exact List.take_length s0.hashKeys
  have hmigr : stF.arrayCount = s0.arrayCount + migratedCount s0 newA := by
    have h1 := hinv.migr
    rw [htake] at h1
    unfold migratedCount
    rw [h1, hsgAC, hsgAeq]
  have hliveT : stF.hashKeys.countP IsLiveKey + stF.arrayCount
      = s0.hashCount + s0.arrayCount := by
    have h1 := hinv.liveCnt
    rw [htake, hsgAC, ← h0.hashCountEq] at h1
    omega
  have hmle : migratedCount s0 newA ≤ s0.hashCount := by
    unfold migratedCount
    rw [h0.hashCountEq]
    exact countP_and_le _ _ _
  have hcntLive : stF.hashKeys.countP IsLiveKey = s0.hashCount - migratedCount s0 newA := by
    omega
  have hnhcEq : sFin.hashCount = s0.hashCount - migratedCount s0 newA := by
    have hc0 : sFin.hashCount = (if relocArray then sg.arrayCount + sg.hashCount - stF.arrayCount
        else stF.hashCount) := by rw [hsFin]
    cases relocArray with
    | true =>
      rw [hc0, if_pos rfl, hsgAC, hsgC]
      omega
    | false =>
      have hmigr0 : migratedCount s0 newA = 0 := by
        unfold migratedCount
        rw [List.countP_eq_zero]
        intro a ha hq
        obtain ⟨i, hi, hgetD⟩ := exists_getD_of_mem ha
        rw [h0.keysLen] at hi
        rw [Bool.and_eq_true] at hq
        have hge := h0.liveGe i hi (by rw [hgetD]; exact hq.1)
        rw [hgetD] at hge
        have hlt := of_decide_eq_true hq.2
        rw [hAfalse rfl] at hlt
        omega
      rw [hc0, if_neg (by simp), hinv.cntH, hsgC, hmigr0]
      omega
  have hInvS : Inv sFin := by
    refine ⟨?_, ?_, ?_, ?_, ?_, ?_, ?_, ?_, ?_, ?_, ?_, ?_, ?_, ?_, ?_⟩
    · rw [hFav, hFa, hinv.szA]
      exact hinv.lenA
    · rw [hFk, hFh, hinv.szH]
      exact hinv.lenK
    · rw [hFv, hFh, hinv.szH]
      exact hinv.lenV
    · rw [hFa, hinv.szA, hsgAeq]
      exact hApow
    · rw [hFh, hinv.szH]
      exact Or.inr ⟨hH, hHmin⟩
    · rw [hFa, hinv.szA, hsgAeq]
      exact hAcap
    · rw [hFac, hFav]
      exact hinv.cntA
    · rw [hnhcEq, hFk, hcntLive]
    · rw [hFillC, hnhcEq, hFk, countNE_eq_countLive hinv.lenK hinv.noRem, hcntLive]
    · rw [hFillC, hnhcEq, hFh, hinv.szH]
      exact hCap
    · intro c hc
      rw [hFh, hinv.szH] at hc
      rw [hFk]
      exact hinv.keysLt c hc
    · intro c hc hl
      rw [hFh, hinv.szH] at hc
      rw [hFk] at hl ⊢
      rw [hFa, hinv.szA]
      exact hinv.liveGe c hc hl
    · intro c hc hl
      rw [hFh, hinv.szH] at hc
      rw [hFk] at hl
      rw [hFv]
      exact hinv.valsLive c hc hl
    · intro c1 h1 c2 h2 hl he
      rw [hFh, hinv.szH] at h1 h2
      rw [hFk] at hl he
      exact hinv.distinct c1 h1 c2 h2 hl he
    · intro c hc hl
      rw [hFh, hinv.szH] at hc
      rw [hFk] at hl
      rw [hFk, hFh, hinv.szH]
      exact hinv.reach c hc hl
  refine ⟨sFin, hrun2, hInvS, ?_, ?_, ?_, ?_, ?_, ?_⟩
  · rw [hFa, hinv.szA, hsgAeq]
  · rw [hFh, hinv.szH]
  · -- the denoted map is unchanged
    intro k hk
    rcases Nat.lt_or_ge k s0.arraySize with hlt | hge
    · -- array-tier key of the original state
      have hksg : k < sg.arraySize := by omega
      have hnokey : ∀ c, c < s0.hashSize → IsLiveKey (s0.hashKeys.getD c 0) = true →
          s0.hashKeys.getD c 0 ≠ k := by
        intro c hc hl heq
        have := h0.liveGe c hc hl
        omega
      have hltS : k < sFin.arraySize := by rw [hFa, hinv.szA]; exact hksg
      rw [model_eq_arr hltS, model_eq_arr hlt]
      have hvv : sFin.arrayValues.getD k 0 = s0.arrayValues.getD k 0 := by
        rw [hFav, hinv.arrFrame k hksg hnokey]
        exact hsgLt k hlt
      rw [hvv]
    · by_cases hpres : ∃ c, c < s0.hashSize ∧ s0.hashKeys.getD c 0 = k
      · obtain ⟨c, hc, hck⟩ := hpres
        have hlivek : IsLiveKey (s0.hashKeys.getD c 0) = true := by
          rw [hck]; exact hk.live
        have hms0 : model s0 k = some (s0.hashValues.getD c 0) :=
          model_eq_some_of_cell h0 hk hge hc hck
        have hfwd := hinv.fwd c hc hlivek
        rw [hck] at hfwd
        by_cases hmig2 : k < sg.arraySize
        · -- the element migrated into the array part
          have hva := hfwd.1 hmig2
          have hltS : k < sFin.arraySize := by rw [hFa, hinv.szA]; exact hmig2
          rw [model_eq_arr hltS, hms0, hFav, hva]
          rw [if_neg (h0.valsLive c hc hlivek)]
        · -- the element was reinserted into the new hash part
          have hgeS : sg.arraySize ≤ k := by omega
          obtain ⟨c', hc', hkc', hvc'⟩ := hfwd.2 hgeS
          have h1 : sFin.arraySize ≤ k := by rw [hFa, hinv.szA]; exact hgeS
          have h2 : c' < sFin.hashSize := by rw [hFh, hinv.szH]; exact hc'
          have h3 : sFin.hashKeys.getD c' 0 = k := by rw [hFk]; exact hkc'
          rw [model_eq_some_of_cell hInvS hk h1 h2 h3, hms0, hFv, hvc']
      · -- the key is absent on both sides
        have hms0 : model s0 k = none :=
          model_eq_none_of_absent hge (fun c hc heq => hpres ⟨c, hc, heq⟩)
        have habsF : ∀ c', c' < newH → stF.hashKeys.getD c' 0 ≠ k := by
          intro c' hc' heq
          have hl : IsLiveKey (stF.hashKeys.getD c' 0) = true := by
            rw [heq]; exact hk.live
          obtain ⟨c, hc, hck, _⟩ := hinv.bwd c' hc' hl
          exact hpres ⟨c, hc, by rw [hck, heq]⟩
        by_cases hmig2 : k < sg.arraySize
        · have hltS : k < sFin.arraySize := by rw [hFa, hinv.szA]; exact hmig2
          have hnokey2 : ∀ c, c < s0.hashSize → IsLiveKey (s0.hashKeys.getD c 0) = true →
              s0.hashKeys.getD c 0 ≠ k := fun c hc _ heq => hpres ⟨c, hc, heq⟩
          rw [model_eq_arr hltS, hms0]
          have hvv : sFin.arrayValues.getD k 0 = EMPTY_VALUE := by
            rw [hFav, hinv.arrFrame k hmig2 hnokey2]
            exact hsgE k hge hmig2
          rw [hvv, if_pos rfl]
        · have h1 : sFin.arraySize ≤ k := by rw [hFa, hinv.szA]; omega
          have habsS : ∀ c, c < sFin.hashSize → sFin.hashKeys.getD c 0 ≠ k := by
            intro c hc
            rw [hFh, hinv.szH] at hc
            rw [hFk]
            exact habsF c hc
          rw [model_eq_none_of_absent h1 habsS, hms0]
  · rw [hFac]
    exact hmigr
  · exact hnhcEq
  · exact hFillC

end ArrayWithHash

namespace ArrayWithHash

open AWH

lemma offOf_lt {fe m : Nat} (hm : 0 < m) (c : Nat) : offOf fe m c < m :=
  Nat.mod_lt _ hm

lemma offOf_posAt {fe m i : Nat} (hfe : fe < m) (hi : i < m) :
    offOf fe m ((fe + i) % m) = i := by
  unfold offOf
  have h1 : (fe + i) % m + m - fe = (fe + i) % m + (m - fe) := by omega
  rw [h1, Nat.mod_add_mod]
  have h2 : fe + i + (m - fe) = i + m := by omega
  rw [h2, Nat.add_mod_right, Nat.mod_eq_of_lt hi]

lemma posAt_offOf {fe m c : Nat} (hfe : fe < m) (hc : c < m) :
    (fe + offOf fe m c) % m = c := by
  unfold offOf
  have h1 : c + m - fe = c + (m - fe) := by omega
  rw [h1, Nat.add_mod_mod]
  have h2 : fe + (c + (m - fe)) = c + m := by omega
  rw [h2, Nat.add_mod_right, Nat.mod_eq_of_lt hc]

lemma offOf_inj {fe m c1 c2 : Nat} (hfe : fe < m) (hc1 : c1 < m) (hc2 : c2 < m)
    (h : offOf fe m c1 = offOf fe m c2) : c1 = c2 := by
  have h1 := posAt_offOf hfe hc1
  have h2 := posAt_offOf hfe hc2
  rw [h] at h1
  rw [← h1]
  exact h2

lemma offOf_shift {fe m : Nat} (b t : Nat) (hfe : fe < m) :
    offOf fe m ((b + t) % m) = (offOf fe m b + t) % m := by
  unfold offOf
  have h1 : (b + t) % m + m - fe = (b + t) % m + (m - fe) := by omega
  have h2 : b + m - fe = b + (m - fe) := by omega
  rw [h1, h2, Nat.mod_add_mod, Nat.mod_add_mod]
  congr 1
  omega

lemma visList_succ (fe m i : Nat) :
    visList fe m (i + 1) = visList fe m i ++ [(fe + i) % m] := by
  unfold visList
  rw [List.range_succ, List.map_append]
  rfl

lemma visList_zero (fe m : Nat) : visList fe m 0 = [] := rfl

lemma visList_perm_range {fe m : Nat} (hfe : fe < m) :
    (visList fe m m).Perm (List.range m) := by
  have hn1 : (visList fe m m).Nodup := by
    unfold visList
    refine (List.nodup_range m).map_on ?_
    intro x hx y hy hxy
    rw [List.mem_range] at hx hy
    have h1 := offOf_posAt hfe hx
    have h2 := offOf_posAt hfe hy
    rw [hxy] at h1
    rw [← h1]
    exact h2
  refine List.perm_of_nodup_nodup_toFinset_eq hn1 (List.nodup_range m) ?_
  ext c
  simp only [List.mem_toFinset, List.mem_range]
  constructor
  · intro hmem
    unfold visList at hmem
    rw [List.mem_map] at hmem
    obtain ⟨t, _, hteq⟩ := hmem
    rw [← hteq]
    exact Nat.mod_lt _ (by omega)
  · intro hc
    unfold visList
    rw [List.mem_map]
    exact ⟨offOf fe m c, List.mem_range.mpr (offOf_lt (by omega) c),
      posAt_offOf hfe hc⟩

lemma cyclicRound_eq_visList {fe m : Nat} (hm : Pow2 m) :
    cyclicRound fe m = visList fe m m := by
  unfold cyclicRound visList
  exact List.map_congr_left fun x _ => land_eq_mod hm (fe + x)

/-- A `PathTo` witness pins down `findCellKeyOrEmpty`. -/
lemma fcke_of_pathTo {keys : List Nat} {m fe i k c : Nat} (hm : Pow2 m)
    (hkey : keys.getD c 0 = k) (hp : PathTo keys m fe i k c) :
    findCellKeyOrEmpty keys m k = some c := by
  obtain ⟨j, hj, hc, hint⟩ := hp
  rw [findCellKeyOrEmpty_eq_some_iff hm]
  refine ⟨j, hj, hc, Or.inr (by rw [← hc]; exact hkey), ?_⟩
  intro t ht
  exact ⟨(hint t ht).2.1, (hint t ht).2.2⟩

end ArrayWithHash

namespace ArrayWithHash

open AWH

/-- In-place pass, step at a cell holding a sentinel: clearing it preserves
the loop invariant. -/
lemma inPlaceDead_ok {s0 sg st : ArrayWithHash} {relocArray : Bool} {newA m fe i : Nat}
    (h0 : Inv s0)
    (hsg : sg = if relocArray then relocateArrayPart s0 newA else s0)
    (hAtrue : relocArray = true → s0.arraySize ≤ newA)
    (hm : Pow2 m)
    (hfe : fe < m)
    (hi : i < m)
    (hst : InPlaceInv relocArray sg fe m i st)
    (hlive : IsLiveKey (sg.hashKeys.getD ((fe + i) % m) 0) = false) :
    InPlaceInv relocArray sg fe m (i + 1)
      { st with hashKeys := st.hashKeys.set ((fe + i) % m) EMPTY_KEY } := by
  have hmpos : 0 < m := hm.pos
  set pos := (fe + i) % m with hposDef
  have hposLt : pos < m := Nat.mod_lt _ hmpos
  have hoffpos : offOf fe m pos = i := offOf_posAt hfe hi
  have hposK : pos < st.hashKeys.length := by rw [hst.lenK]; exact hposLt
  have hoffne : ∀ c, c < m → c ≠ pos → offOf fe m c ≠ i := by
    intro c hc hne he
    exact hne (by rw [← posAt_offOf hfe hc, he, hposDef])
  have hstKpos : st.hashKeys.getD pos 0 = sg.hashKeys.getD pos 0 :=
    (hst.unproc pos hposLt (le_of_eq hoffpos.symm)).1
  have hmigPos : migAt relocArray sg pos = false := by
    unfold migAt
    rw [hlive]
    simp
  refine ⟨hst.szA, hst.szH, hst.cntH, hst.fill, hst.lenA, ?_, hst.lenV, hst.cntA,
    hst.arrGe, ?_, ?_, ?_, ?_, ?_, ?_, ?_, ?_, ?_, ?_, ?_, ?_⟩
  · show (st.hashKeys.set pos EMPTY_KEY).length = m
    rw [List.length_set]
    exact hst.lenK
  · -- unproc
    intro c hc hge
    have hcne : c ≠ pos := by
      intro he
      rw [he, hoffpos] at hge
      omega
    show (st.hashKeys.set pos EMPTY_KEY).getD c 0 = _ ∧ _
    rw [getD_set_ne (fun hx => hcne hx.symm) EMPTY_KEY]
    exact hst.unproc c hc (by omega)
  · -- procNoRem
    intro c hc hlt
    by_cases hce : c = pos
    · subst hce
      show (st.hashKeys.set pos EMPTY_KEY).getD pos 0 = EMPTY_KEY ∨ _
      rw [getD_set_self hposK EMPTY_KEY]
      exact Or.inl rfl
    · show (st.hashKeys.set pos EMPTY_KEY).getD c 0 = EMPTY_KEY ∨ _
      rw [getD_set_ne (fun hx => hce hx.symm) EMPTY_KEY]
      have : offOf fe m c ≠ i := hoffne c hc hce
      exact hst.procNoRem c hc (by omega)
  · -- keysLt
    intro c hc
    by_cases hce : c = pos
    · subst hce
      show (st.hashKeys.set pos EMPTY_KEY).getD pos 0 < 2 ^ 32
      rw [getD_set_self hposK EMPTY_KEY]
      unfold EMPTY_KEY
      omega
    · show (st.hashKeys.set pos EMPTY_KEY).getD c 0 < 2 ^ 32
      rw [getD_set_ne (fun hx => hce hx.symm) EMPTY_KEY]
      exact hst.keysLt c hc
  · -- liveGeP
    intro c hc hlt hl
    by_cases hce : c = pos
    · subst hce
      rw [getD_set_self hposK EMPTY_KEY, IsLiveKey_empty] at hl
      cases hl
    · rw [getD_set_ne (fun hx => hce hx.symm) EMPTY_KEY] at hl ⊢
      have : offOf fe m c ≠ i := hoffne c hc hce
      exact hst.liveGeP c hc (by omega) hl
  · -- valsLiveP
    intro c hc hlt hl
    by_cases hce : c = pos
    · subst hce
      rw [getD_set_self hposK EMPTY_KEY, IsLiveKey_empty] at hl
      cases hl
    · rw [getD_set_ne (fun hx => hce hx.symm) EMPTY_KEY] at hl
      have : offOf fe m c ≠ i := hoffne c hc hce
      exact hst.valsLiveP c hc (by omega) hl
  · -- distinct
    intro c1 h1 c2 h2 hl he
    by_cases hc1 : c1 = pos
    · subst hc1
      rw [getD_set_self hposK EMPTY_KEY, IsLiveKey_empty] at hl
      cases hl
    · rw [getD_set_ne (fun hx => hc1 hx.symm) EMPTY_KEY] at hl he
      by_cases hc2 : c2 = pos
      · subst hc2
        rw [getD_set_self hposK EMPTY_KEY] at he
        rw [he, IsLiveKey_empty] at hl
        cases hl
      · rw [getD_set_ne (fun hx => hc2 hx.symm) EMPTY_KEY] at he
        exact hst.distinct c1 h1 c2 h2 hl he
  · -- pathOK
    intro c hc hlt hl
    by_cases hce : c = pos
    · subst hce
      rw [getD_set_self hposK EMPTY_KEY, IsLiveKey_empty] at hl
      cases hl
    · rw [getD_set_ne (fun hx => hce hx.symm) EMPTY_KEY] at hl ⊢
      have hcoff : offOf fe m c ≠ i := hoffne c hc hce
      obtain ⟨j, hj, hceq, hint⟩ := hst.pathOK c hc (by omega) hl
      refine ⟨j, hj, hceq, ?_⟩
      intro t ht
      obtain ⟨hdo, hdE, hdk⟩ := hint t ht
      have hdne : (hashBase m (st.hashKeys.getD c 0) + t) % m ≠ pos := by
        intro hx
        rw [hx, hoffpos] at hdo
        omega
      rw [getD_set_ne (fun hx => hdne hx.symm) EMPTY_KEY]
      exact ⟨by omega, hdE, hdk⟩
  · -- liveCnt
    show (st.hashKeys.set pos EMPTY_KEY).countP IsLiveKey
        + (visList fe m (i + 1)).countP (migAt relocArray sg)
      = sg.hashKeys.countP IsLiveKey
    have hs := countP_set IsLiveKey st.hashKeys pos hposK EMPTY_KEY
    rw [hstKpos, hlive, IsLiveKey_empty] at hs
    simp only [Bool.false_eq_true, if_false] at hs
    rw [visList_succ, List.countP_append]
    have hone : List.countP (migAt relocArray sg) [pos] = 0 := by
      rw [List.countP_cons, hmigPos]
      rfl
    rw [hone]
    have := hst.liveCnt
    omega
  · -- arrCnt
    show st.arrayCount = sg.arrayCount + (visList fe m (i + 1)).countP (migAt relocArray sg)
    rw [visList_succ, List.countP_append]
    have hone : List.countP (migAt relocArray sg) [pos] = 0 := by
      rw [List.countP_cons, hmigPos]
      rfl
    rw [hone]
    have := hst.arrCnt
    omega
  · -- fwd
    intro c hc hlt hl
    by_cases hce : c = pos
    · subst hce
      rw [hlive] at hl
      cases hl
    · have hcoff : offOf fe m c ≠ i := hoffne c hc hce
      obtain ⟨hfa, hfh⟩ := hst.fwd c hc (by omega) hl
      refine ⟨hfa, ?_⟩
      intro hn
      obtain ⟨c', hc', ho', hk', hv'⟩ := hfh hn
      have hc'ne : c' ≠ pos := by
        intro hx
        rw [hx, hoffpos] at ho'
        omega
      refine ⟨c', hc', by omega, ?_, hv'⟩
      rw [getD_set_ne (fun hx => hc'ne hx.symm) EMPTY_KEY]
      exact hk'
  · -- bwd
    intro c' hc' hlt hl
    by_cases hce : c' = pos
    · subst hce
      rw [getD_set_self hposK EMPTY_KEY, IsLiveKey_empty] at hl
      cases hl
    · rw [getD_set_ne (fun hx => hce hx.symm) EMPTY_KEY] at hl ⊢
      have : offOf fe m c' ≠ i := hoffne c' hc' hce
      obtain ⟨c, hc, ho, hk, hv⟩ := hst.bwd c' hc' (by omega) hl
      exact ⟨c, hc, by omega, hk, hv⟩
  · -- arrFrame
    intro idx hidx hnone
    refine hst.arrFrame idx hidx ?_
    intro c hc ho hl
    exact hnone c hc (by omega) hl

end ArrayWithHash

namespace ArrayWithHash

open AWH

/-- In-place pass, step at a cell whose valid key now belongs to the array
part: clearing the cell and migrating the pair preserves the invariant. -/
lemma inPlaceMig_ok {s0 sg st : ArrayWithHash} {relocArray : Bool} {newA m fe i : Nat}
    (h0 : Inv s0)
    (hsg : sg = if relocArray then relocateArrayPart s0 newA else s0)
    (hAtrue : relocArray = true → s0.arraySize ≤ newA)
    (hmeq : m = s0.hashSize)
    (hm : Pow2 m)
    (hfe : fe < m)
    (hi : i < m)
    (hst : InPlaceInv relocArray sg fe m i st)
    (hlive : IsLiveKey (sg.hashKeys.getD ((fe + i) % m) 0) = true)
    (hmigc : relocArray = true ∧ sg.hashKeys.getD ((fe + i) % m) 0 < sg.arraySize) :
    InPlaceInv relocArray sg fe m (i + 1)
      { st with
        hashKeys := st.hashKeys.set ((fe + i) % m) EMPTY_KEY
        arrayValues := st.arrayValues.set (sg.hashKeys.getD ((fe + i) % m) 0)
          (sg.hashValues.getD ((fe + i) % m) 0)
        arrayCount := st.arrayCount + 1 } := by
  obtain ⟨hsgge, hsgK, hsgV, hsgH, hsgC, hsgF, hsgAC, hsgLen, hsgCnt, hsgLt, hsgE⟩ :=
    sgFacts h0 hsg hAtrue
  have hmpos : 0 < m := hm.pos
  set pos := (fe + i) % m with hposDef
  set K := sg.hashKeys.getD pos 0 with hKdef
  set V := sg.hashValues.getD pos 0 with hVdef
  have hposLt : pos < m := Nat.mod_lt _ hmpos
  have hposS0 : pos < s0.hashSize := by omega
  have hoffpos : offOf fe m pos = i := offOf_posAt hfe hi
  have hposK : pos < st.hashKeys.length := by rw [hst.lenK]; exact hposLt
  have hoffne : ∀ c, c < m → c ≠ pos → offOf fe m c ≠ i := by
    intro c hc hne he
    exact hne (by rw [← posAt_offOf hfe hc, he, hposDef])
  have hstKpos : st.hashKeys.getD pos 0 = K :=
    (hst.unproc pos hposLt (le_of_eq hoffpos.symm)).1
  have hlive0 : IsLiveKey (s0.hashKeys.getD pos 0) = true := by
    rw [← hsgK]; exact hlive
  have hK0ge : s0.arraySize ≤ K := by
    rw [hKdef, hsgK]
    exact h0.liveGe pos hposS0 hlive0
  have hKlt2 : K < 2 ^ 32 := by
    rw [hKdef, hsgK]
    exact h0.keysLt pos hposS0
  have hVne : V ≠ EMPTY_VALUE := by
    rw [hVdef, hsgV]
    exact h0.valsLive pos hposS0 hlive0
  have hKltA : K < sg.arraySize := hmigc.2
  have hKlenA : K < st.arrayValues.length := by rw [hst.lenA]; exact hKltA
  have hnokeyK : ∀ c, c < m → offOf fe m c < i → IsLiveKey (sg.hashKeys.getD c 0) = true →
      sg.hashKeys.getD c 0 ≠ K := by
    intro c hc ho hl he
    have : c = pos := by
      rw [hsgK] at he hl
      exact h0.distinct c (by omega) pos hposS0 hl (by rw [he, hKdef, hsgK])
    rw [this, hoffpos] at ho
    omega
  have harrSlot : st.arrayValues.getD K 0 = EMPTY_VALUE := by
    rw [hst.arrFrame K hKltA hnokeyK]
    exact hsgE K hK0ge hKltA
  have hmigPos : migAt relocArray sg pos = true := by
    unfold migAt
    rw [hmigc.1, hlive]
    have hd : decide (K < sg.arraySize) = true := decide_eq_true hKltA
    rw [hd]
    rfl
  refine ⟨hst.szA, hst.szH, hst.cntH, hst.fill, ?_, ?_, hst.lenV, ?_, ?_,
    ?_, ?_, ?_, ?_, ?_, ?_, ?_, ?_, ?_, ?_, ?_, ?_⟩
  · show (st.arrayValues.set K V).length = sg.arraySize
    rw [List.length_set]
    exact hst.lenA
  · show (st.hashKeys.set pos EMPTY_KEY).length = m
    rw [List.length_set]
    exact hst.lenK
  · -- cntA
    show st.arrayCount + 1 = (st.arrayValues.set K V).countP _
    have hs := countP_set (fun x => x != EMPTY_VALUE) st.arrayValues K hKlenA V
    rw [harrSlot] at hs
    have h1 : (EMPTY_VALUE != EMPTY_VALUE) = false := by simp
    have h2 : (V != EMPTY_VALUE) = true := by simp [hVne]
    rw [h1, h2] at hs
    simp only [if_true, Bool.false_eq_true, if_false] at hs
    rw [hst.cntA]
    omega
  · show sg.arrayCount ≤ st.arrayCount + 1
    have := hst.arrGe
    omega
  · -- unproc
    intro c hc hge
    have hcne : c ≠ pos := by
      intro he
      rw [he, hoffpos] at hge
      omega
    show (st.hashKeys.set pos EMPTY_KEY).getD c 0 = _ ∧ _
    rw [getD_set_ne (fun hx => hcne hx.symm) EMPTY_KEY]
    exact hst.unproc c hc (by omega)
  · -- procNoRem
    intro c hc hlt
    by_cases hce : c = pos
    · subst hce
      show (st.hashKeys.set pos EMPTY_KEY).getD pos 0 = EMPTY_KEY ∨ _
      rw [getD_set_self hposK EMPTY_KEY]
      exact Or.inl rfl
    · show (st.hashKeys.set pos EMPTY_KEY).getD c 0 = EMPTY_KEY ∨ _
      rw [getD_set_ne (fun hx => hce hx.symm) EMPTY_KEY]
      have : offOf fe m c ≠ i := hoffne c hc hce
      exact hst.procNoRem c hc (by omega)
  · -- keysLt
    intro c hc
    by_cases hce : c = pos
    · subst hce
      show (st.hashKeys.set pos EMPTY_KEY).getD pos 0 < 2 ^ 32
      rw [getD_set_self hposK EMPTY_KEY]
      unfold EMPTY_KEY
      omega
    · show (st.hashKeys.set pos EMPTY_KEY).getD c 0 < 2 ^ 32
      rw [getD_set_ne (fun hx => hce hx.symm) EMPTY_KEY]
      exact hst.keysLt c hc
  · -- liveGeP
    intro c hc hlt hl
    by_cases hce : c = pos
    · subst hce
      rw [getD_set_self hposK EMPTY_KEY, IsLiveKey_empty] at hl
      cases hl
    · rw [getD_set_ne (fun hx => hce hx.symm) EMPTY_KEY] at hl ⊢
      have : offOf fe m c ≠ i := hoffne c hc hce
      exact hst.liveGeP c hc (by omega) hl
  · -- valsLiveP
    intro c hc hlt hl
    by_cases hce : c = pos
    · subst hce
      rw [getD_set_self hposK EMPTY_KEY, IsLiveKey_empty] at hl
      cases hl
    · rw [getD_set_ne (fun hx => hce hx.symm) EMPTY_KEY] at hl
      have : offOf fe m c ≠ i := hoffne c hc hce
      exact hst.valsLiveP c hc (by omega) hl
  · -- distinct
    intro c1 h1 c2 h2 hl he
    by_cases hc1 : c1 = pos
    · subst hc1
      rw [getD_set_self hposK EMPTY_KEY, IsLiveKey_empty] at hl
      cases hl
    · rw [getD_set_ne (fun hx => hc1 hx.symm) EMPTY_KEY] at hl he
      by_cases hc2 : c2 = pos
      · subst hc2
        rw [getD_set_self hposK EMPTY_KEY] at he
        rw [he, IsLiveKey_empty] at hl
        cases hl
      · rw [getD_set_ne (fun hx => hc2 hx.symm) EMPTY_KEY] at he
        exact hst.distinct c1 h1 c2 h2 hl he
  · -- pathOK
    intro c hc hlt hl
    by_cases hce : c = pos
    · subst hce
      rw [getD_set_self hposK EMPTY_KEY, IsLiveKey_empty] at hl
      cases hl
    · rw [getD_set_ne (fun hx => hce hx.symm) EMPTY_KEY] at hl ⊢
      have hcoff : offOf fe m c ≠ i := hoffne c hc hce
      obtain ⟨j, hj, hceq, hint⟩ := hst.pathOK c hc (by omega) hl
      refine ⟨j, hj, hceq, ?_⟩
      intro t ht
      obtain ⟨hdo, hdE, hdk⟩ := hint t ht
      have hdne : (hashBase m (st.hashKeys.getD c 0) + t) % m ≠ pos := by
        intro hx
        rw [hx, hoffpos] at hdo
        omega
      rw [getD_set_ne (fun hx => hdne hx.symm) EMPTY_KEY]
      exact ⟨by omega, hdE, hdk⟩
  · -- liveCnt
    show (st.hashKeys.set pos EMPTY_KEY).countP IsLiveKey
        + (visList fe m (i + 1)).countP (migAt relocArray sg)
      = sg.hashKeys.countP IsLiveKey
    have hs := countP_set IsLiveKey st.hashKeys pos hposK EMPTY_KEY
    rw [hstKpos, hlive, IsLiveKey_empty] at hs
    simp only [if_true, Bool.false_eq_true, if_false] at hs
    rw [visList_succ, List.countP_append]
    have hone : List.countP (migAt relocArray sg) [pos] = 1 := by
      rw [List.countP_cons, hmigPos]
      rfl
    rw [hone]
    have := hst.liveCnt
    omega
  · -- arrCnt
    show st.arrayCount + 1 = sg.arrayCount
      + (visList fe m (i + 1)).countP (migAt relocArray sg)
    rw [visList_succ, List.countP_append]
    have hone : List.countP (migAt relocArray sg) [pos] = 1 := by
      rw [List.countP_cons, hmigPos]
      rfl
    rw [hone]
    have := hst.arrCnt
    omega
  · -- fwd
    intro c hc hlt hl
    by_cases hce : c = pos
    · subst hce
      constructor
      · intro _
        show (st.arrayValues.set K V).getD K 0 = V
        exact getD_set_self hKlenA V
      · intro hn
        exact absurd ⟨hmigc.1, hKltA⟩ hn
    · have hcoff : offOf fe m c ≠ i := hoffne c hc hce
      obtain ⟨hfa, hfh⟩ := hst.fwd c hc (by omega) hl
      constructor
      · intro hcond
        show (st.arrayValues.set K V).getD (sg.hashKeys.getD c 0) 0 = _
        rw [getD_set_ne (Ne.symm (hnokeyK c hc (by omega) hl)) V]
        exact hfa hcond
      · intro hn
        obtain ⟨c', hc', ho', hk', hv'⟩ := hfh hn
        have hc'ne : c' ≠ pos := by
          intro hx
          rw [hx, hoffpos] at ho'
          omega
        refine ⟨c', hc', by omega, ?_, hv'⟩
        rw [getD_set_ne (fun hx => hc'ne hx.symm) EMPTY_KEY]
        exact hk'
  · -- bwd
    intro c' hc' hlt hl
    by_cases hce : c' = pos
    · subst hce
      rw [getD_set_self hposK EMPTY_KEY, IsLiveKey_empty] at hl
      cases hl
    · rw [getD_set_ne (fun hx => hce hx.symm) EMPTY_KEY] at hl ⊢
      have : offOf fe m c' ≠ i := hoffne c' hc' hce
      obtain ⟨c, hc, ho, hk, hv⟩ := hst.bwd c' hc' (by omega) hl
      exact ⟨c, hc, by omega, hk, hv⟩
  · -- arrFrame
    intro idx hidx hnone
    have hKne : K ≠ idx := hnone pos hposLt (by omega) hlive
    show (st.arrayValues.set K V).getD idx 0 = _
    rw [getD_set_ne hKne V]
    refine hst.arrFrame idx hidx ?_
    intro c hc ho hl
    exact hnone c hc (by omega) hl

end ArrayWithHash

namespace ArrayWithHash

open AWH

/-- In-place pass, step at a cell whose valid key stays in the hash part:
the re-insertion probe succeeds inside the already-processed region and the
invariant is preserved.  This is the heart of the in-place relocation
argument: because iteration starts at an empty cell, the probe path of the
key cannot wrap into the unvisited region. -/
lemma inPlaceIns_ok {s0 sg st : ArrayWithHash} {relocArray : Bool} {newA m fe i : Nat}
    (h0 : Inv s0)
    (hsg : sg = if relocArray then relocateArrayPart s0 newA else s0)
    (hAtrue : relocArray = true → s0.arraySize ≤ newA)
    (hmeq : m = s0.hashSize)
    (hm : Pow2 m)
    (hfe : fe < m)
    (hfeE : sg.hashKeys.getD fe 0 = EMPTY_KEY)
    (hi : i < m)
    (hst : InPlaceInv relocArray sg fe m i st)
    (hlive : IsLiveKey (sg.hashKeys.getD ((fe + i) % m) 0) = true)
    (hnm : ¬(relocArray = true ∧ sg.hashKeys.getD ((fe + i) % m) 0 < sg.arraySize)) :
    ∃ cell, findCellEmpty (st.hashKeys.set ((fe + i) % m) EMPTY_KEY) m
        (sg.hashKeys.getD ((fe + i) % m) 0) = some cell ∧
      InPlaceInv relocArray sg fe m (i + 1)
        { st with
          hashKeys := (st.hashKeys.set ((fe + i) % m) EMPTY_KEY).set cell
            (sg.hashKeys.getD ((fe + i) % m) 0)
          hashValues := st.hashValues.set cell
            (sg.hashValues.getD ((fe + i) % m) 0) } := by
  obtain ⟨hsgge, hsgK, hsgV, hsgH, hsgC, hsgF, hsgAC, hsgLen, hsgCnt, hsgLt, hsgE⟩ :=
    sgFacts h0 hsg hAtrue
  have hmpos : 0 < m := hm.pos
  set pos := (fe + i) % m with hposDef
  set K := sg.hashKeys.getD pos 0 with hKdef
  set V := sg.hashValues.getD pos 0 with hVdef
  have hposLt : pos < m := Nat.mod_lt _ hmpos
  have hposS0 : pos < s0.hashSize := by omega
  have hoffpos : offOf fe m pos = i := offOf_posAt hfe hi
  have hposK : pos < st.hashKeys.length := by rw [hst.lenK]; exact hposLt
  have hoffne : ∀ c, c < m → c ≠ pos → offOf fe m c ≠ i := by
    intro c hc hne he
    exact hne (by rw [← posAt_offOf hfe hc, he, hposDef])
  have hstKpos : st.hashKeys.getD pos 0 = K :=
    (hst.unproc pos hposLt (le_of_eq hoffpos.symm)).1
  have hlive0 : IsLiveKey (s0.hashKeys.getD pos 0) = true := by
    rw [← hsgK]; exact hlive
  have hK0ge : s0.arraySize ≤ K := by
    rw [hKdef, hsgK]
    exact h0.liveGe pos hposS0 hlive0
  have hKlt2 : K < 2 ^ 32 := by
    rw [hKdef, hsgK]
    exact h0.keysLt pos hposS0
  have hVne : V ≠ EMPTY_VALUE := by
    rw [hVdef, hsgV]
    exact h0.valsLive pos hposS0 hlive0
  have hKneE : K ≠ EMPTY_KEY := (IsLiveKey_iff.mp hlive).1
  have hKge : sg.arraySize ≤ K := by
    cases relocArray with
    | false =>
      have hseq : sg = s0 := by rw [hsg]; rfl
      rw [hseq]
      exact hK0ge
    | true =>
      have h6 : ¬ (K < sg.arraySize) := fun hlt => hnm ⟨rfl, hlt⟩
      omega
  set s1keys := st.hashKeys.set pos EMPTY_KEY with hs1def
  have hs1len : s1keys.length = m := by
    rw [hs1def, List.length_set]
    exact hst.lenK
  have hs1pos : s1keys.getD pos 0 = EMPTY_KEY := getD_set_self hposK EMPTY_KEY
  have hs1ne : ∀ c, c ≠ pos → s1keys.getD c 0 = st.hashKeys.getD c 0 := by
    intro c hc
    exact getD_set_ne (fun hx => hc hx.symm) EMPTY_KEY
  have habs : ∀ c, c < m → s1keys.getD c 0 ≠ K := by
    intro c hc heq
    by_cases hce : c = pos
    · rw [hce, hs1pos] at heq
      exact hKneE heq.symm
    · rw [hs1ne c hce] at heq
      have hlc : IsLiveKey (st.hashKeys.getD c 0) = true := by rw [heq]; exact hlive
      have := hst.distinct c hc pos hposLt hlc (by rw [heq, hstKpos])
      exact hce this
  -- the original probe path of K ends at pos and cannot cross fe
  have hKs0 : K = s0.hashKeys.getD pos 0 := by rw [hKdef, hsgK]
  have hreach : findCellKeyOrEmpty sg.hashKeys m K = some pos := by
    rw [hsgK, hmeq, hKs0]
    exact h0.reach pos hposS0 hlive0
  rw [findCellKeyOrEmpty_eq_some_iff hm] at hreach
  obtain ⟨jp, hjp, hposEq, hstopP, hintP⟩ := hreach
  set b := hashBase m K with hbdef
  have hbLt : b < m := hashBase_lt hmpos K
  set bb := offOf fe m b with hbbdef
  have hbbLt : bb < m := offOf_lt hmpos b
  have hshift : ∀ t, offOf fe m ((b + t) % m) = (bb + t) % m := fun t => offOf_shift b t hfe
  have hbeta : (bb + jp) % m = i := by
    have h1 := hshift jp
    rw [← hposEq, hoffpos] at h1
    exact h1.symm
  have hige : 1 ≤ i := by
    by_contra h
    have hi0 : i = 0 := by omega
    have hpf : pos = fe := by rw [hposDef, hi0, Nat.add_zero, Nat.mod_eq_of_lt hfe]
    have hKE : K = EMPTY_KEY := by rw [hKdef, hpf]; exact hfeE
    exact hKneE hKE
  have hbble : bb ≤ i := by
    by_contra hgt
    push_neg at hgt
    have hsum : bb + jp = i + m := by
      rcases Nat.lt_or_ge (bb + jp) m with hlt | hge2
      · rw [Nat.mod_eq_of_lt hlt] at hbeta
        omega
      · have h2 : (bb + jp) % m = bb + jp - m := by
          rw [Nat.mod_eq_sub_mod hge2, Nat.mod_eq_of_lt (by omega)]
        rw [h2] at hbeta
        omega
    have htfcell : (b + (m - bb)) % m = fe := by
      apply offOf_inj hfe (Nat.mod_lt _ hmpos) hfe
      rw [hshift (m - bb)]
      have h3 : bb + (m - bb) = m := by omega
      rw [h3, Nat.mod_self]
      show 0 = offOf fe m fe
      unfold offOf
      have h4 : fe + m - fe = m := by omega
      rw [h4, Nat.mod_self]
    have htflt : m - bb < jp := by omega
    have h5 := (hintP (m - bb) htflt).1
    rw [htfcell] at h5
    exact h5 hfeE
  have hbbjp : bb + jp = i := by
    rcases Nat.lt_or_ge (bb + jp) m with hlt | hge2
    · rw [Nat.mod_eq_of_lt hlt] at hbeta
      omega
    · exfalso
      have h2 : (bb + jp) % m = bb + jp - m := by
        rw [Nat.mod_eq_sub_mod hge2, Nat.mod_eq_of_lt (by omega)]
      rw [h2] at hbeta
      omega
  -- the re-insertion probe succeeds, at a visited cell
  have hsome : (findCellEmpty s1keys m K).isSome = true :=
    findCellEmpty_isSome hm ⟨pos, hposLt, hs1pos⟩
  obtain ⟨cell, hcell⟩ := Option.isSome_iff_exists.mp hsome
  obtain ⟨j, hj, hcellEq, hcellE0, hintC⟩ := (findCellEmpty_eq_some_iff hm).mp hcell
  simp only [← hbdef] at hcellEq hcellE0 hintC
  have hcellLt : cell < m := by rw [hcellEq]; exact Nat.mod_lt _ hmpos
  have hcellE : s1keys.getD cell 0 = EMPTY_KEY := by rw [hcellEq]; exact hcellE0
  have hjle : j ≤ jp := by
    by_contra hgt
    push_neg at hgt
    have h7 := hintC jp hgt
    rw [← hposEq] at h7
    exact h7 hs1pos
  have hkoff : ∀ t, t < j → offOf fe m ((b + t) % m) < i := by
    intro t ht
    rw [hshift t]
    have h5 : bb + t < m := by omega
    rw [Nat.mod_eq_of_lt h5]
    omega
  have hoffcell : offOf fe m cell ≤ i := by
    rw [hcellEq, hshift j]
    have h5 : bb + j < m := by omega
    rw [Nat.mod_eq_of_lt h5]
    omega
  have hcellK : cell < s1keys.length := by rw [hs1len]; exact hcellLt
  have hcellV : cell < st.hashValues.length := by rw [hst.lenV]; exact hcellLt
  have hK2 : ∀ c, c ≠ cell → (s1keys.set cell K).getD c 0 = s1keys.getD c 0 := by
    intro c hc
    exact getD_set_ne (fun hx => hc hx.symm) K
  have hK2c : (s1keys.set cell K).getD cell 0 = K := getD_set_self hcellK K
  have hV2 : ∀ c, c ≠ cell → (st.hashValues.set cell V).getD c 0 = st.hashValues.getD c 0 := by
    intro c hc
    exact getD_set_ne (fun hx => hc hx.symm) V
  have hV2c : (st.hashValues.set cell V).getD cell 0 = V := getD_set_self hcellV V
  have hKold : ∀ c, c ≠ cell → c ≠ pos →
      (s1keys.set cell K).getD c 0 = st.hashKeys.getD c 0 := by
    intro c hc hp
    rw [hK2 c hc]
    exact hs1ne c hp
  have hcellStE : cell ≠ pos → st.hashKeys.getD cell 0 = EMPTY_KEY := by
    intro hne
    rw [← hs1ne cell hne]
    exact hcellE
  have hmigPos : migAt relocArray sg pos = false := by
    unfold migAt
    cases relocArray with
    | false => rfl
    | true =>
      rw [hlive]
      have hd : decide (K < sg.arraySize) = false := decide_eq_false (by omega)
      rw [hd]
      rfl
  refine ⟨cell, hcell, ?_⟩
  refine ⟨hst.szA, hst.szH, hst.cntH, hst.fill, hst.lenA, ?_, ?_, hst.cntA,
    hst.arrGe, ?_, ?_, ?_, ?_, ?_, ?_, ?_, ?_, ?_, ?_, ?_, ?_⟩
  · show ((s1keys.set cell K)).length = m
    rw [List.length_set]
    exact hs1len
  · show (st.hashValues.set cell V).length = m
    rw [List.length_set]
    exact hst.lenV
  · -- unproc
    intro c hc hge
    have hcp : c ≠ pos := by
      intro he
      rw [he, hoffpos] at hge
      omega
    have hcc : c ≠ cell := by
      intro he
      rw [he] at hge
      omega
    show (s1keys.set cell K).getD c 0 = _ ∧ (st.hashValues.set cell V).getD c 0 = _
    rw [hKold c hcc hcp, hV2 c hcc]
    exact hst.unproc c hc (by omega)
  · -- procNoRem
    intro c hc hlt
    by_cases hcc : c = cell
    · subst hcc
      rw [hK2c]
      exact Or.inr hlive
    · by_cases hcp : c = pos
      · have hpc : pos ≠ cell := hcp ▸ hcc
        rw [hcp, hK2 pos hpc, hs1pos]
        exact Or.inl rfl
      · rw [hKold c hcc hcp]
        have : offOf fe m c ≠ i := hoffne c hc hcp
        exact hst.procNoRem c hc (by omega)
  · -- keysLt
    intro c hc
    by_cases hcc : c = cell
    · subst hcc
      rw [hK2c]
      exact hKlt2
    · by_cases hcp : c = pos
      · have hpc : pos ≠ cell := hcp ▸ hcc
        rw [hcp, hK2 pos hpc, hs1pos]
        unfold EMPTY_KEY
        omega
      · rw [hKold c hcc hcp]
        exact hst.keysLt c hc
  · -- liveGeP
    intro c hc hlt hl
    by_cases hcc : c = cell
    · subst hcc
      rw [hK2c]
      exact hKge
    · by_cases hcp : c = pos
      · have hpc : pos ≠ cell := hcp ▸ hcc
        rw [hcp, hK2 pos hpc, hs1pos, IsLiveKey_empty] at hl
        cases hl
      · rw [hKold c hcc hcp] at hl ⊢
        have : offOf fe m c ≠ i := hoffne c hc hcp
        exact hst.liveGeP c hc (by omega) hl
  · -- valsLiveP
    intro c hc hlt hl
    by_cases hcc : c = cell
    · subst hcc
      rw [hV2c]
      exact hVne
    · by_cases hcp : c = pos
      · have hpc : pos ≠ cell := hcp ▸ hcc
        rw [hcp, hK2 pos hpc, hs1pos, IsLiveKey_empty] at hl
        cases hl
      · rw [hKold c hcc hcp] at hl
        rw [hV2 c hcc]
        have : offOf fe m c ≠ i := hoffne c hc hcp
        exact hst.valsLiveP c hc (by omega) hl
  · -- distinct
    intro c1 h1 c2 h2 hl he
    by_cases hc1 : c1 = cell <;> by_cases hc2 : c2 = cell
    · rw [hc1, hc2]
    · subst hc1
      rw [hK2c] at he
      rw [hK2 c2 hc2] at he
      exact absurd he.symm (habs c2 h2)
    · subst hc2
      rw [hK2c] at he
      rw [hK2 c1 hc1] at he hl
      exact absurd he (habs c1 h1)
    · rw [hK2 c1 hc1] at hl he
      rw [hK2 c2 hc2] at he
      by_cases hp1 : c1 = pos
      · rw [hp1, hs1pos, IsLiveKey_empty] at hl
        cases hl
      · by_cases hp2 : c2 = pos
        · rw [hp2, hs1pos] at he
          rw [he, IsLiveKey_empty] at hl
          cases hl
        · rw [hs1ne c1 hp1] at hl he
          rw [hs1ne c2 hp2] at he
          exact hst.distinct c1 h1 c2 h2 hl he
  · -- pathOK
    intro c hc hco hl
    by_cases hcc : c = cell
    · rw [hcc] at hl ⊢
      rw [hK2c] at hl ⊢
      refine ⟨j, hj, hcellEq, ?_⟩
      intro t ht
      simp only [← hbdef]
      have hto : offOf fe m ((b + t) % m) < i := hkoff t ht
      have htcell : (b + t) % m ≠ cell := by
        intro hx
        have he1 := hshift t
        rw [hx, hcellEq, hshift j] at he1
        rw [Nat.mod_eq_of_lt (show bb + j < m by omega),
          Nat.mod_eq_of_lt (show bb + t < m by omega)] at he1
        omega
      rw [hK2 _ htcell]
      exact ⟨by omega, hintC t ht, habs _ (Nat.mod_lt _ hmpos)⟩
    · by_cases hcp : c = pos
      · have hpc : pos ≠ cell := hcp ▸ hcc
        rw [hcp, hK2 pos hpc, hs1pos, IsLiveKey_empty] at hl
        cases hl
      · rw [hKold c hcc hcp] at hl ⊢
        have hco' : offOf fe m c ≠ i := hoffne c hc hcp
        obtain ⟨j', hj', hceq', hint'⟩ := hst.pathOK c hc (by omega) hl
        refine ⟨j', hj', hceq', ?_⟩
        intro t ht
        obtain ⟨hdo, hdE, hdk⟩ := hint' t ht
        have hdpos : (hashBase m (st.hashKeys.getD c 0) + t) % m ≠ pos := by
          intro hx
          rw [hx, hoffpos] at hdo
          omega
        have hdcell : (hashBase m (st.hashKeys.getD c 0) + t) % m ≠ cell := by
          intro hx
          by_cases hcp2 : cell = pos
          · rw [hcp2] at hx
            exact hdpos hx
          · rw [hx] at hdE
            exact hdE (hcellStE hcp2)
        rw [hKold _ hdcell hdpos]
        exact ⟨by omega, hdE, hdk⟩
  · -- liveCnt
    show (s1keys.set cell K).countP IsLiveKey
        + (visList fe m (i + 1)).countP (migAt relocArray sg)
      = sg.hashKeys.countP IsLiveKey
    have hcnt1 := countP_set IsLiveKey st.hashKeys pos hposK EMPTY_KEY
    rw [hstKpos, hlive, IsLiveKey_empty] at hcnt1
    simp only [if_true, Bool.false_eq_true, if_false] at hcnt1
    rw [← hs1def] at hcnt1
    have hcnt2 := countP_set IsLiveKey s1keys cell hcellK K
    rw [hcellE, IsLiveKey_empty, hlive] at hcnt2
    simp only [if_true, Bool.false_eq_true, if_false] at hcnt2
    rw [visList_succ, List.countP_append]
    have hone : List.countP (migAt relocArray sg) [pos] = 0 := by
      rw [List.countP_cons, hmigPos]
      rfl
    rw [hone]
    have := hst.liveCnt
    omega
  · -- arrCnt
    show st.arrayCount = sg.arrayCount
      + (visList fe m (i + 1)).countP (migAt relocArray sg)
    rw [visList_succ, List.countP_append]
    have hone : List.countP (migAt relocArray sg) [pos] = 0 := by
      rw [List.countP_cons, hmigPos]
      rfl
    rw [hone]
    have := hst.arrCnt
    omega
  · -- fwd
    intro c hc hco hl
    by_cases hcp : c = pos
    · subst hcp
      constructor
      · intro hcond
        exact absurd hcond hnm
      · intro _
        refine ⟨cell, hcellLt, by omega, ?_, ?_⟩
        · rw [hK2c]
        · rw [hV2c]
    · have hco' : offOf fe m c ≠ i := hoffne c hc hcp
      obtain ⟨hfa, hfh⟩ := hst.fwd c hc (by omega) hl
      constructor
      · intro hcond
        exact hfa hcond
      · intro hn
        obtain ⟨c', hc', ho', hk', hv'⟩ := hfh hn
        have hc'pos : c' ≠ pos := by
          intro hx
          rw [hx, hoffpos] at ho'
          omega
        have hglE : sg.hashKeys.getD c 0 ≠ EMPTY_KEY := (IsLiveKey_iff.mp hl).1
        have hc'cell : c' ≠ cell := by
          intro hx
          by_cases hcp2 : cell = pos
          · rw [hcp2] at hx
            exact hc'pos hx
          · rw [hx] at hk'
            rw [hcellStE hcp2] at hk'
            exact hglE hk'.symm
        refine ⟨c', hc', by omega, ?_, ?_⟩
        · rw [hKold c' hc'cell hc'pos]
          exact hk'
        · rw [hV2 c' hc'cell]
          exact hv'
  · -- bwd
    intro c' hc' hco hl
    by_cases hcc : c' = cell
    · subst hcc
      refine ⟨pos, hposLt, by omega, ?_, ?_⟩
      · rw [hK2c]
      · rw [hV2c]
    · by_cases hcp : c' = pos
      · have hpc : pos ≠ cell := hcp ▸ hcc
        rw [hcp, hK2 pos hpc, hs1pos, IsLiveKey_empty] at hl
        cases hl
      · rw [hKold c' hcc hcp] at hl ⊢
        rw [hV2 c' hcc]
        have : offOf fe m c' ≠ i := hoffne c' hc' hcp
        obtain ⟨c, hc, ho, hk, hv⟩ := hst.bwd c' hc' (by omega) hl
        exact ⟨c, hc, by omega, hk, hv⟩
  · -- arrFrame
    intro idx hidx hnone
    exact hst.arrFrame idx hidx (fun c hc ho hl => hnone c hc (by omega) hl)

end ArrayWithHash

namespace ArrayWithHash

open AWH

/-- The in-place loop invariant holds before the first step. -/
lemma inPlaceInv_init {s0 sg : ArrayWithHash} {relocArray : Bool} {newA m fe : Nat}
    (h0 : Inv s0)
    (hsg : sg = if relocArray then relocateArrayPart s0 newA else s0)
    (hAtrue : relocArray = true → s0.arraySize ≤ newA)
    (hmeq : m = s0.hashSize) :
    InPlaceInv relocArray sg fe m 0 sg := by
  obtain ⟨hsgge, hsgK, hsgV, hsgH, hsgC, hsgF, hsgAC, hsgLen, hsgCnt, hsgLt, hsgE⟩ :=
    sgFacts h0 hsg hAtrue
  refine ⟨rfl, by rw [hsgH, hmeq], rfl, rfl, hsgLen, ?_, ?_, hsgCnt, le_refl _,
    fun c _ _ => ⟨rfl, rfl⟩, ?_, ?_, ?_, ?_, ?_, ?_, ?_, ?_, ?_, ?_, fun idx _ _ => rfl⟩
  · rw [hsgK, h0.keysLen, hmeq]
  · rw [hsgV, h0.valsLen, hmeq]
  · intro c _ hlt
    omega
  · intro c hc
    rw [hsgK]
    exact h0.keysLt c (by omega)
  · intro c _ hlt
    omega
  · intro c _ hlt
    omega
  · intro c1 h1 c2 h2 hl he
    rw [hsgK] at hl he
    exact h0.distinct c1 (by omega) c2 (by omega) hl he
  · intro c _ hlt
    omega
  · rw [visList_zero]
    rfl
  · rw [visList_zero]
    rfl
  · intro c _ hlt
    omega
  · intro c' _ hlt
    omega

/-- One step of the in-place pass succeeds and maintains the invariant. -/
lemma inPlaceStep_ok {s0 sg st : ArrayWithHash} {relocArray : Bool} {newA m fe i : Nat}
    (h0 : Inv s0)
    (hsg : sg = if relocArray then relocateArrayPart s0 newA else s0)
    (hAtrue : relocArray = true → s0.arraySize ≤ newA)
    (hmeq : m = s0.hashSize)
    (hm : Pow2 m)
    (hfe : fe < m)
    (hfeE : sg.hashKeys.getD fe 0 = EMPTY_KEY)
    (hi : i < m)
    (hst : InPlaceInv relocArray sg fe m i st) :
    ∃ st', inPlaceStep relocArray st ((fe + i) % m) = some st' ∧
      InPlaceInv relocArray sg fe m (i + 1) st' := by
  have hmpos : 0 < m := hm.pos
  set pos := (fe + i) % m with hposDef
  have hposLt : pos < m := Nat.mod_lt _ hmpos
  have hoffpos : offOf fe m pos = i := offOf_posAt hfe hi
  have hunp := hst.unproc pos hposLt (le_of_eq hoffpos.symm)
  have hstKpos : st.hashKeys.getD pos 0 = sg.hashKeys.getD pos 0 := hunp.1
  have hstVpos : st.hashValues.getD pos 0 = sg.hashValues.getD pos 0 := hunp.2
  have hstep : inPlaceStep relocArray st pos =
      (if IsLiveKey (st.hashKeys.getD pos 0) = true then
        if relocArray = true ∧ st.hashKeys.getD pos 0 < st.arraySize then
          some { st with
            hashKeys := st.hashKeys.set pos EMPTY_KEY
            arrayValues := st.arrayValues.set (st.hashKeys.getD pos 0)
              (st.hashValues.getD pos 0)
            arrayCount := st.arrayCount + 1 }
        else
          (findCellEmpty (st.hashKeys.set pos EMPTY_KEY) st.hashSize
              (st.hashKeys.getD pos 0)).map
            fun cell => { st with
              hashKeys := (st.hashKeys.set pos EMPTY_KEY).set cell
                (st.hashKeys.getD pos 0)
              hashValues := st.hashValues.set cell (st.hashValues.getD pos 0) }
      else some { st with hashKeys := st.hashKeys.set pos EMPTY_KEY }) := rfl
  rw [hstKpos, hstVpos] at hstep
  by_cases hlive : IsLiveKey (sg.hashKeys.getD pos 0) = true
  · by_cases hmigc : relocArray = true ∧ sg.hashKeys.getD pos 0 < sg.arraySize
    · have hmigc' : relocArray = true ∧ sg.hashKeys.getD pos 0 < st.arraySize :=
        ⟨hmigc.1, by rw [hst.szA]; exact hmigc.2⟩
      rw [hstep, if_pos hlive, if_pos hmigc']
      exact ⟨_, rfl, inPlaceMig_ok h0 hsg hAtrue hmeq hm hfe hi hst hlive hmigc⟩
    · have hmigc' : ¬(relocArray = true ∧ sg.hashKeys.getD pos 0 < st.arraySize) :=
        fun hx => hmigc ⟨hx.1, by rw [← hst.szA]; exact hx.2⟩
      rw [hstep, if_pos hlive, if_neg hmigc']
      obtain ⟨cell, hcell, hinv'⟩ :=
        inPlaceIns_ok h0 hsg hAtrue hmeq hm hfe hfeE hi hst hlive hmigc
      have hcell2 : findCellEmpty (st.hashKeys.set pos EMPTY_KEY) st.hashSize
          (sg.hashKeys.getD pos 0) = some cell := by
        rw [hst.szH]
        exact hcell
      rw [hcell2, Option.map_some']
      exact ⟨_, rfl, hinv'⟩
  · rw [hstep, if_neg hlive]
    exact ⟨_, rfl, inPlaceDead_ok h0 hsg hAtrue hm hfe hi hst (eq_false_of_ne_true hlive)⟩

/-- Running the in-place pass over the first `n` visited cells succeeds and
maintains the invariant. -/
lemma inPlaceLoop {s0 sg : ArrayWithHash} {relocArray : Bool} {newA m fe : Nat}
    (h0 : Inv s0)
    (hsg : sg = if relocArray then relocateArrayPart s0 newA else s0)
    (hAtrue : relocArray = true → s0.arraySize ≤ newA)
    (hmeq : m = s0.hashSize)
    (hm : Pow2 m)
    (hfe : fe < m)
    (hfeE : sg.hashKeys.getD fe 0 = EMPTY_KEY) :
    ∀ n, n ≤ m →
      ∃ st, processAll (inPlaceStep relocArray) (visList fe m n) sg = some st ∧
        InPlaceInv relocArray sg fe m n st := by
  intro n
  induction n with
  | zero =>
    intro _
    exact ⟨sg, rfl, inPlaceInv_init h0 hsg hAtrue hmeq⟩
  | succ k ih =>
    intro hk
    obtain ⟨st, hproc, hinv⟩ := ih (by omega)
    obtain ⟨st', hstep, hinv'⟩ :=
      inPlaceStep_ok h0 hsg hAtrue hmeq hm hfe hfeE (by omega) hinv
    refine ⟨st', ?_, hinv'⟩
    rw [visList_succ, processAll_append, hproc, Option.some_bind]
    show (inPlaceStep relocArray st ((fe + k) % m)).bind
      (processAll (inPlaceStep relocArray) []) = some st'
    rw [hstep]
    rfl

end ArrayWithHash

namespace ArrayWithHash

open AWH

/-- No hash element migrates when the array part did not grow. -/
lemma migratedCount_zero {s0 : ArrayWithHash} (h0 : Inv s0) {bound : Nat}
    (hb : bound ≤ s0.arraySize) : migratedCount s0 bound = 0 := by
  unfold migratedCount
  rw [List.countP_eq_zero]
  intro a ha hq
  obtain ⟨i, hi, hgetD⟩ := exists_getD_of_mem ha
  rw [h0.keysLen] at hi
  rw [Bool.and_eq_true] at hq
  have hge := h0.liveGe i hi (by rw [hgetD]; exact hq.1)
  rw [hgetD] at hge
  have hlt := of_decide_eq_true hq.2
  omega

/-- `RelocateHashInPlace` succeeds and satisfies the relocation
postcondition; the hash size is unchanged. -/
lemma inPlace_ok {s0 : ArrayWithHash} {relocArray : Bool} {newA : Nat}
    (h0 : Inv s0)
    (hAtrue : relocArray = true → s0.arraySize ≤ newA)
    (hAfalse : relocArray = false → newA = s0.arraySize)
    (hApow : newA = 0 ∨ (Pow2 newA ∧ ARRAY_MIN_SIZE ≤ newA))
    (hAcap : newA ≤ 2 ^ 31) :
    ∃ s', relocateHashInPlace relocArray newA s0 = some s' ∧
      RelocOut s0 s' newA s0.hashSize := by
  obtain ⟨sg, hsg⟩ : ∃ sg, sg = if relocArray then relocateArrayPart s0 newA else s0 :=
    ⟨_, rfl⟩
  obtain ⟨hsgge, hsgK, hsgV, hsgH, hsgC, hsgF, hsgAC, hsgLen, hsgCnt, hsgLt, hsgE⟩ :=
    sgFacts h0 hsg hAtrue
  have hsgAeq : sg.arraySize = newA := by
    cases relocArray with
    | false =>
      have hseq : sg = s0 := by rw [hsg]; rfl
      rw [hseq]
      exact (hAfalse rfl).symm
    | true =>
      rw [hsg]
      rfl
  have hrun : relocateHashInPlace relocArray newA s0 =
      (if sg.hashSize = 0 then some sg
       else if sg.hashKeys.findIdx (fun x => x == EMPTY_KEY) < sg.hashSize then
         (processAll (inPlaceStep relocArray)
             (cyclicRound (sg.hashKeys.findIdx (fun x => x == EMPTY_KEY)) sg.hashSize)
             sg).map
           (fun s2 => { s2 with
             hashCount := if relocArray then sg.arrayCount + sg.hashCount - s2.arrayCount
               else s2.hashCount
             hashFill := if relocArray then sg.arrayCount + sg.hashCount - s2.arrayCount
               else s2.hashCount })
       else none) := by
    rw [hsg]
    rfl
  rcases h0.hashPow2 with hash0 | ⟨hm, hm8⟩
  · -- the hash part is empty: nothing to relocate
    rw [if_pos (by rw [hsgH, hash0])] at hrun
    have hmig0 : migratedCount s0 newA = 0 := by
      unfold migratedCount
      have hnil : s0.hashKeys = [] :=
        List.eq_nil_of_length_eq_zero (by rw [h0.keysLen, hash0])
      rw [hnil]
      rfl
    have hcnt0 : s0.hashCount = 0 := by
      have h1 := h0.hashCountEq
      have hnil : s0.hashKeys = [] :=
        List.eq_nil_of_length_eq_zero (by rw [h0.keysLen, hash0])
      rw [hnil] at h1
      exact h1
    have hfill0 : s0.hashFill = 0 := by
      have h1 := h0.hashFillEq
      have hnil : s0.hashKeys = [] :=
        List.eq_nil_of_length_eq_zero (by rw [h0.keysLen, hash0])
      rw [hnil] at h1
      exact h1
    have hInvSg : Inv sg := by
      refine ⟨hsgLen, ?_, ?_, ?_, ?_, ?_, hsgCnt, ?_, ?_, ?_, ?_, ?_, ?_, ?_, ?_⟩
      · rw [hsgK, hsgH, h0.keysLen]
      · rw [hsgV, hsgH, h0.valsLen]
      · rw [hsgAeq]
        exact hApow
      · rw [hsgH]
        exact Or.inl hash0
      · rw [hsgAeq]
        exact hAcap
      · rw [hsgC, hsgK]
        exact h0.hashCountEq
      · rw [hsgF, hsgK]
        exact h0.hashFillEq
      · rw [hsgF, hsgH]
        exact h0.fillCap
      · intro c hc
        rw [hsgH, hash0] at hc
        omega
      · intro c hc
        rw [hsgH, hash0] at hc
        omega
      · intro c hc
        rw [hsgH, hash0] at hc
        omega
      · intro c1 h1
        rw [hsgH, hash0] at h1
        omega
      · intro c hc
        rw [hsgH, hash0] at hc
        omega
    refine ⟨sg, hrun, hInvSg, hsgAeq, hsgH, ?_, ?_, ?_, ?_⟩
    · -- modelEq
      intro k hk
      rcases Nat.lt_or_ge k s0.arraySize with hlt | hge
      · have hltS : k < sg.arraySize := by omega
        rw [model_eq_arr hltS, model_eq_arr hlt, hsgLt k hlt]
      · have hms0 : model s0 k = none := by
          apply model_eq_none_of_absent hge
          intro c hc
          rw [hash0] at hc
          omega
        rw [hms0]
        by_cases hmig2 : k < sg.arraySize
        · rw [model_eq_arr hmig2, hsgE k hge hmig2, if_pos rfl]
        · apply model_eq_none_of_absent (by omega)
          intro c hc
          rw [hsgH, hash0] at hc
          omega
    · rw [hmig0, hsgAC]
      omega
    · rw [hmig0, hsgC]
      omega
    · rw [hsgF, hsgC, hfill0, hcnt0]
  · -- the hash part is non-empty: run the cyclic pass
    have hmpos : 0 < s0.hashSize := hm.pos
    have hfill : s0.hashKeys.countP (fun x => x != EMPTY_KEY) < s0.hashSize := by
      have h1 := h0.fillCap
      have h2 := h0.hashFillEq
      omega
    have hex : ∃ x ∈ s0.hashKeys, (x == EMPTY_KEY) = true := by
      by_contra hno
      push_neg at hno
      have hall : s0.hashKeys.countP (fun x => x != EMPTY_KEY) = s0.hashKeys.length := by
        rw [List.countP_eq_length]
        intro a ha
        have hb : (a == EMPTY_KEY) = false := eq_false_of_ne_true (hno a ha)
        show (a != EMPTY_KEY) = true
        rw [bne, hb]
        rfl
      rw [h0.keysLen] at hall
      omega
    obtain ⟨fe, hfedef⟩ : ∃ x, x = s0.hashKeys.findIdx (fun x => x == EMPTY_KEY) := ⟨_, rfl⟩
    have hfeLen : fe < s0.hashKeys.length := by
      rw [hfedef]
      exact List.findIdx_lt_length_of_exists hex
    have hfeLt : fe < s0.hashSize := by rw [← h0.keysLen]; exact hfeLen
    have hfeE0 : s0.hashKeys.getD fe 0 = EMPTY_KEY := by
      have hfeLen2 : s0.hashKeys.findIdx (fun x => x == EMPTY_KEY) < s0.hashKeys.length := by
        rw [← hfedef]
        exact hfeLen
      have hgoal : s0.hashKeys.getD (s0.hashKeys.findIdx (fun x => x == EMPTY_KEY)) 0
          = EMPTY_KEY := by
        rw [List.getD_eq_getElem _ 0 hfeLen2]
        exact beq_iff_eq.mp (@List.findIdx_getElem _ _ _ hfeLen2)
      rw [hfedef]
      exact hgoal
    have hfeESG : sg.hashKeys.getD fe 0 = EMPTY_KEY := by rw [hsgK]; exact hfeE0
    obtain ⟨stF, hproc, hinv⟩ :=
      inPlaceLoop h0 hsg hAtrue rfl hm hfeLt hfeESG s0.hashSize (le_refl _)
    rw [if_neg (by rw [hsgH]; omega)] at hrun
    rw [hsgK, ← hfedef, hsgH] at hrun
    rw [if_pos hfeLt, cyclicRound_eq_visList hm, hproc, Option.map_some'] at hrun
    have hrun2 : relocateHashInPlace relocArray newA s0 = some { stF with
        hashCount := if relocArray then sg.arrayCount + sg.hashCount - stF.arrayCount
          else stF.hashCount
        hashFill := if relocArray then sg.arrayCount + sg.hashCount - stF.arrayCount
          else stF.hashCount } := hrun
    obtain ⟨sFin, hsFin⟩ : ∃ x, x = { stF with
        hashCount := if relocArray then sg.arrayCount + sg.hashCount - stF.arrayCount
          else stF.hashCount
        hashFill := if relocArray then sg.arrayCount + sg.hashCount - stF.arrayCount
          else stF.hashCount } := ⟨_, rfl⟩
    rw [← hsFin] at hrun2
    have hFa : sFin.arraySize = stF.arraySize := by rw [hsFin]
    have hFac : sFin.arrayCount = stF.arrayCount := by rw [hsFin]
    have hFh : sFin.hashSize = stF.hashSize := by rw [hsFin]
    have hFav : sFin.arrayValues = stF.arrayValues := by rw [hsFin]
    have hFk : sFin.hashKeys = stF.hashKeys := by rw [hsFin]
    have hFv : sFin.hashValues = stF.hashValues := by rw [hsFin]
    have hFillC : sFin.hashFill = sFin.hashCount := by rw [hsFin]
    have hallOff : ∀ c, c < s0.hashSize → offOf fe s0.hashSize c < s0.hashSize :=
      fun c _ => offOf_lt hmpos c
    have hvisEq : (visList fe s0.hashSize s0.hashSize).countP (migAt relocArray sg)
        = migratedCount s0 newA := by
      rw [(visList_perm_range hfeLt).countP_eq]
      cases relocArray with
      | false =>
        have hz : (List.range s0.hashSize).countP (migAt false sg) = 0 := by
          rw [List.countP_eq_zero]
          intro a _
          unfold migAt
          simp
        rw [hz, migratedCount_zero h0 (le_of_eq (hAfalse rfl))]
      | true =>
        unfold migratedCount
        rw [countP_eq_countP_range _ s0.hashKeys, h0.keysLen]
        apply List.countP_congr
        intro p _
        unfold migAt
        rw [hsgK, hsgAeq, Bool.true_and]
    have hclA : stF.arrayCount = s0.arrayCount + migratedCount s0 newA := by
      have h1 := hinv.arrCnt
      rw [hvisEq, hsgAC] at h1
      exact h1
    have hliveT : stF.hashKeys.countP IsLiveKey
        = s0.hashCount - migratedCount s0 newA := by
      have h1 := hinv.liveCnt
      rw [hvisEq, hsgK, ← h0.hashCountEq] at h1
      omega
    have hmigLe : migratedCount s0 newA ≤ s0.hashCount := by
      have h1 := hinv.liveCnt
      rw [hvisEq, hsgK, ← h0.hashCountEq] at h1
      omega
    have hnhcEq : sFin.hashCount = s0.hashCount - migratedCount s0 newA := by
      have hc0 : sFin.hashCount = (if relocArray then
          sg.arrayCount + sg.hashCount - stF.arrayCount else stF.hashCount) := by
        rw [hsFin]
      cases relocArray with
      | true =>
        rw [hc0, if_pos rfl, hsgAC, hsgC]
        omega
      | false =>
        rw [hc0, if_neg (by simp), hinv.cntH, hsgC,
          migratedCount_zero h0 (le_of_eq (hAfalse rfl))]
        omega
    have hnoRemAll : ∀ c, c < s0.hashSize → stF.hashKeys.getD c 0 = EMPTY_KEY ∨
        IsLiveKey (stF.hashKeys.getD c 0) = true :=
      fun c hc => hinv.procNoRem c hc (hallOff c hc)
    have hInvS : Inv sFin := by
      refine ⟨?_, ?_, ?_, ?_, ?_, ?_, ?_, ?_, ?_, ?_, ?_, ?_, ?_, ?_, ?_⟩
      · rw [hFav, hFa, hinv.szA]
        exact hinv.lenA
      · rw [hFk, hFh, hinv.szH]
        exact hinv.lenK
      · rw [hFv, hFh, hinv.szH]
        exact hinv.lenV
      · rw [hFa, hinv.szA, hsgAeq]
        exact hApow
      · rw [hFh, hinv.szH]
        exact Or.inr ⟨hm, hm8⟩
      · rw [hFa, hinv.szA, hsgAeq]
        exact hAcap
      · rw [hFac, hFav]
        exact hinv.cntA
      · rw [hnhcEq, hFk, hliveT]
      · rw [hFillC, hnhcEq, hFk, countNE_eq_countLive hinv.lenK hnoRemAll, hliveT]
      · rw [hFillC, hnhcEq, hFh, hinv.szH]
        have h1 := h0.fillCap
        have h2 := h0.hashCount_le_fill
        omega
      · intro c hc
        rw [hFh, hinv.szH] at hc
        rw [hFk]
        exact hinv.keysLt c hc
      · intro c hc hl
        rw [hFh, hinv.szH] at hc
        rw [hFk] at hl ⊢
        rw [hFa, hinv.szA]
        exact hinv.liveGeP c hc (hallOff c hc) hl
      · intro c hc hl
        rw [hFh, hinv.szH] at hc
        rw [hFk] at hl
        rw [hFv]
        exact hinv.valsLiveP c hc (hallOff c hc) hl
      · intro c1 h1 c2 h2 hl he
        rw [hFh, hinv.szH] at h1 h2
        rw [hFk] at hl he
        exact hinv.distinct c1 h1 c2 h2 hl he
      · intro c hc hl
        rw [hFh, hinv.szH] at hc
        rw [hFk] at hl
        rw [hFk, hFh, hinv.szH]
        exact fcke_of_pathTo hm rfl (hinv.pathOK c hc (hallOff c hc) hl)
    refine ⟨sFin, hrun2, hInvS, ?_, ?_, ?_, ?_, ?_, ?_⟩
    · rw [hFa, hinv.szA, hsgAeq]
    · rw [hFh, hinv.szH]
    · -- modelEq
      intro k hk
      rcases Nat.lt_or_ge k s0.arraySize with hlt | hge
      · -- array-tier key of the original state
        have hksg : k < sg.arraySize := by omega
        have hnokey : ∀ c, c < s0.hashSize → offOf fe s0.hashSize c < s0.hashSize →
            IsLiveKey (sg.hashKeys.getD c 0) = true → sg.hashKeys.getD c 0 ≠ k := by
          intro c hc _ hl heq
          rw [hsgK] at hl heq
          have := h0.liveGe c hc hl
          omega
        have hltS : k < sFin.arraySize := by rw [hFa, hinv.szA]; exact hksg
        rw [model_eq_arr hltS, model_eq_arr hlt]
        have hvv : sFin.arrayValues.getD k 0 = s0.arrayValues.getD k 0 := by
          rw [hFav, hinv.arrFrame k hksg hnokey]
          exact hsgLt k hlt
        rw [hvv]
      · by_cases hpres : ∃ c, c < s0.hashSize ∧ s0.hashKeys.getD c 0 = k
        · obtain ⟨c, hc, hck⟩ := hpres
          have hlivek : IsLiveKey (s0.hashKeys.getD c 0) = true := by
            rw [hck]; exact hk.live
          have hlivekSG : IsLiveKey (sg.hashKeys.getD c 0) = true := by
            rw [hsgK]; exact hlivek
          have hms0 : model s0 k = some (s0.hashValues.getD c 0) :=
            model_eq_some_of_cell h0 hk hge hc hck
          have hfwd := hinv.fwd c hc (hallOff c hc) hlivekSG
          rw [hsgK, hck] at hfwd
          by_cases hmig2 : k < sg.arraySize
          · -- the element migrated into the array part
            have hrt : relocArray = true := by
              cases relocArray with
              | false =>
                rw [hsgAeq, hAfalse rfl] at hmig2
                omega
              | true => rfl
            have hva := hfwd.1 ⟨hrt, hmig2⟩
            have hltS : k < sFin.arraySize := by rw [hFa, hinv.szA]; exact hmig2
            rw [model_eq_arr hltS, hms0, hFav]
            rw [hsgV] at hva
            rw [hva]
            rw [if_neg (h0.valsLive c hc hlivek)]
          · -- the element stayed in the hash part
            obtain ⟨c', hc', _, hkc', hvc'⟩ := hfwd.2 (fun hx => hmig2 hx.2)
            rw [hsgV] at hvc'
            have h1 : sFin.arraySize ≤ k := by rw [hFa, hinv.szA]; omega
            have h2 : c' < sFin.hashSize := by rw [hFh, hinv.szH]; exact hc'
            have h3 : sFin.hashKeys.getD c' 0 = k := by rw [hFk]; exact hkc'
            rw [model_eq_some_of_cell hInvS hk h1 h2 h3, hms0, hFv, hvc']
        · -- the key is absent on both sides
          have hms0 : model s0 k = none :=
            model_eq_none_of_absent hge (fun c hc heq => hpres ⟨c, hc, heq⟩)
          have habsF : ∀ c', c' < s0.hashSize → stF.hashKeys.getD c' 0 ≠ k := by
            intro c' hc' heq
            have hl : IsLiveKey (stF.hashKeys.getD c' 0) = true := by
              rw [heq]; exact hk.live
            obtain ⟨c, hc, _, hck, _⟩ := hinv.bwd c' hc' (hallOff c' hc') hl
            rw [hsgK] at hck
            exact hpres ⟨c, hc, by rw [hck, heq]⟩
          by_cases hmig2 : k < sg.arraySize
          · have hltS : k < sFin.arraySize := by rw [hFa, hinv.szA]; exact hmig2
            have hnokey2 : ∀ c, c < s0.hashSize → offOf fe s0.hashSize c < s0.hashSize →
                IsLiveKey (sg.hashKeys.getD c 0) = true → sg.hashKeys.getD c 0 ≠ k := by
              intro c hc _ _ heq
              rw [hsgK] at heq
              exact hpres ⟨c, hc, heq⟩
            rw [model_eq_arr hltS, hms0]
            have hvv : sFin.arrayValues.getD k 0 = EMPTY_VALUE := by
              rw [hFav, hinv.arrFrame k hmig2 hnokey2]
              exact hsgE k hge hmig2
            rw [hvv, if_pos rfl]
          · have h1 : sFin.arraySize ≤ k := by rw [hFa, hinv.szA]; omega
            have habsS : ∀ c, c < sFin.hashSize → sFin.hashKeys.getD c 0 ≠ k := by
              intro c hc
              rw [hFh, hinv.szH] at hc
              rw [hFk]
              exact habsF c hc
            rw [model_eq_none_of_absent h1 habsS, hms0]
    · rw [hFac]
      exact hclA
    · exact hnhcEq
    · exact hFillC

end ArrayWithHash

namespace ArrayWithHash

open AWH

/-- `Reallocate` dispatches to the right relocation routine and satisfies the
common postcondition. -/
lemma Reallocate_ok {s0 : ArrayWithHash} {newA newH : Nat}
    (h0 : Inv s0)
    (hAge : s0.arraySize ≤ newA)
    (hApow : newA = 0 ∨ (Pow2 newA ∧ ARRAY_MIN_SIZE ≤ newA))
    (hAcap : newA ≤ 2 ^ 31)
    (hHfacts : newH ≠ s0.hashSize → Pow2 newH ∧ HASH_MIN_SIZE ≤ newH ∧
      s0.hashCount < newH ∧ 4 * (s0.hashCount - migratedCount s0 newA) ≤ 3 * newH) :
    ∃ s', Reallocate newA newH s0 = some s' ∧ RelocOut s0 s' newA newH := by
  by_cases hHeq : newH = s0.hashSize
  · by_cases hAeq : newA = s0.arraySize
    · obtain ⟨s', hrun, hout⟩ := @inPlace_ok s0 false newA h0
        (fun h => absurd h (by decide)) (fun _ => hAeq) hApow hAcap
      refine ⟨s', ?_, ?_⟩
      · show Reallocate newA newH s0 = some s'
        unfold Reallocate
        rw [if_pos hHeq, if_pos hAeq]
        exact hrun
      · rw [hHeq]
        exact hout
    · obtain ⟨s', hrun, hout⟩ := @inPlace_ok s0 true newA h0
        (fun _ => hAge) (fun h => absurd h (by decide)) hApow hAcap
      refine ⟨s', ?_, ?_⟩
      · show Reallocate newA newH s0 = some s'
        unfold Reallocate
        rw [if_pos hHeq, if_neg hAeq]
        exact hrun
      · rw [hHeq]
        exact hout
  · obtain ⟨hH, hHmin, hCnt, hCap⟩ := hHfacts hHeq
    by_cases hAeq : newA = s0.arraySize
    · obtain ⟨s', hrun, hout⟩ := @toNew_ok s0 false newA newH h0
        (fun h => absurd h (by decide)) (fun _ => hAeq) hApow hAcap hH hHmin hCnt hCap
      refine ⟨s', ?_, hout⟩
      show Reallocate newA newH s0 = some s'
      unfold Reallocate
      rw [if_neg hHeq, if_pos hAeq]
      exact hrun
    · obtain ⟨s', hrun, hout⟩ := @toNew_ok s0 true newA newH h0
        (fun _ => hAge) (fun h => absurd h (by decide)) hApow hAcap hH hHmin hCnt hCap
      refine ⟨s', ?_, hout⟩
      show Reallocate newA newH s0 = some s'
      unfold Reallocate
      rw [if_neg hHeq, if_neg hAeq]
      exact hrun

lemma growHashSizeGo_ge (c : Nat) : ∀ fuel s, s ≤ growHashSizeGo c fuel s := by
  intro fuel
  induction fuel with
  | zero => intro s; exact le_refl s
  | succ f ih =>
    intro s
    show (if 0 < s ∧ 3 * s ≤ 5 * c then growHashSizeGo c f (2 * s) else s) ≥ s
    by_cases h : 0 < s ∧ 3 * s ≤ 5 * c
    · rw [if_pos h]
      have := ih (2 * s)
      omega
    · rw [if_neg h]

lemma growHashSizeGo_pow2 (c : Nat) : ∀ fuel s, Pow2 s → Pow2 (growHashSizeGo c fuel s) := by
  intro fuel
  induction fuel with
  | zero => intro s hs; exact hs
  | succ f ih =>
    intro s hs
    show Pow2 (if 0 < s ∧ 3 * s ≤ 5 * c then growHashSizeGo c f (2 * s) else s)
    by_cases h : 0 < s ∧ 3 * s ≤ 5 * c
    · rw [if_pos h]
      refine ih (2 * s) ?_
      obtain ⟨t, ht⟩ := hs
      exact ⟨t + 1, by rw [ht, pow_succ]; omega⟩
    · rw [if_neg h]
      exact hs

lemma growHashSizeGo_exit (c : Nat) : ∀ fuel s, 0 < s → 5 * c + 3 ≤ 3 * s + 3 * fuel →
    5 * c < 3 * growHashSizeGo c fuel s := by
  intro fuel
  induction fuel with
  | zero =>
    intro s hs hf
    show 5 * c < 3 * s
    omega
  | succ f ih =>
    intro s hs hf
    show 5 * c < 3 * (if 0 < s ∧ 3 * s ≤ 5 * c then growHashSizeGo c f (2 * s) else s)
    by_cases h : 0 < s ∧ 3 * s ≤ 5 * c
    · rw [if_pos h]
      exact ih (2 * s) (by omega) (by omega)
    · rw [if_neg h]
      omega

lemma growHashSize_ge (c s : Nat) : s ≤ growHashSize c s := growHashSizeGo_ge c _ s

lemma growHashSize_pow2 (c s : Nat) (hs : Pow2 s) : Pow2 (growHashSize c s) :=
  growHashSizeGo_pow2 c _ s hs

lemma growHashSize_exit (c s : Nat) (hs : 0 < s) : 5 * c < 3 * growHashSize c s :=
  growHashSizeGo_exit c (5 * c + 1) s hs (by omega)

end ArrayWithHash

namespace ArrayWithHash

open AWH

lemma range'_snoc (s n : Nat) : List.range' s (n + 1) = List.range' s n ++ [s + n] := by
  rw [List.range'_concat, one_mul]

lemma countP_le_of_imp (p q : Nat → Bool) (h : ∀ x, p x = true → q x = true) :
    ∀ l : List Nat, l.countP p ≤ l.countP q := by
  intro l
  induction l with
  | nil => simp
  | cons x t ih =>
    rw [List.countP_cons, List.countP_cons]
    by_cases hpx : p x = true
    · rw [if_pos hpx, if_pos (h x hpx)]
      omega
    · rw [if_neg hpx]
      have h1 : (if q x = true then 1 else 0) ≤ 1 := by
        by_cases hq : q x = true
        · rw [if_pos hq]
        · rw [if_neg hq]
          omega
      omega

lemma countP_split_lt (keys : List Nat) (a : Nat) :
    keys.countP (fun k => IsLiveKey k && decide (log2size k < a))
      + keys.countP (fun k => IsLiveKey k && (log2size k == a))
    = keys.countP (fun k => IsLiveKey k && decide (log2size k < a + 1)) := by
  induction keys with
  | nil => rfl
  | cons x t ih =>
    rw [List.countP_cons, List.countP_cons, List.countP_cons]
    have hsplit : (if (IsLiveKey x && decide (log2size x < a)) = true then 1 else 0)
        + (if (IsLiveKey x && (log2size x == a)) = true then 1 else 0)
        = (if (IsLiveKey x && decide (log2size x < a + 1)) = true then 1 else 0) := by
      cases hl : IsLiveKey x with
      | false => simp
      | true =>
        simp only [Bool.true_and]
        by_cases h1 : log2size x < a
        · have hne : (log2size x == a) = false := by
            rw [beq_eq_false_iff_ne]
            omega
          rw [decide_eq_true h1, hne, decide_eq_true (show log2size x < a + 1 by omega)]
          decide
        · by_cases h2 : log2size x = a
          · rw [decide_eq_false h1, beq_iff_eq.mpr h2,
              decide_eq_true (show log2size x < a + 1 by omega)]
            decide
          · rw [decide_eq_false h1, beq_eq_false_iff_ne.mpr h2,
              decide_eq_false (show ¬(log2size x < a + 1) by omega)]
            decide
    omega

lemma histoH_sum_le (keys : List Nat) (i0 : Nat) :
    ∀ n, (((List.range' i0 n).map
        (fun b => keys.countP (fun k => IsLiveKey k && (log2size k == b)))).sum)
      ≤ keys.countP (fun k => IsLiveKey k && decide (log2size k < i0 + n)) := by
  intro n
  induction n with
  | zero => simp
  | succ nn ih =>
    rw [range'_snoc, List.map_append, List.sum_append]
    have h1 := countP_split_lt keys (i0 + nn)
    simp only [List.map_cons, List.map_nil, List.sum_cons, List.sum_nil]
    simp only [← Nat.add_assoc]
    omega

lemma sum_map_ite_le (v c : Nat) : ∀ l : List Nat, l.Nodup →
    ((l.map (fun b => if b = v then c else 0)).sum) ≤ c := by
  intro l
  induction l with
  | nil => intro _; simp
  | cons x t ih =>
    intro hnd
    rw [List.map_cons, List.sum_cons]
    rcases List.nodup_cons.mp hnd with ⟨hx, ht⟩
    by_cases hxv : x = v
    · rw [if_pos hxv]
      have hz : ((t.map (fun b => if b = v then c else 0)).sum) = 0 := by
        apply List.sum_eq_zero
        intro y hy
        rw [List.mem_map] at hy
        obtain ⟨b, hb, hbe⟩ := hy
        have hbv : b ≠ v := fun he => hx (by rw [hxv, ← he]; exact hb)
        rw [if_neg hbv] at hbe
        exact hbe.symm
      omega
    · rw [if_neg hxv]
      have := ih ht
      omega

lemma sum_map_add (f g : Nat → Nat) : ∀ l : List Nat,
    ((l.map (fun b => f b + g b)).sum) = (l.map f).sum + (l.map g).sum := by
  intro l
  induction l with
  | nil => rfl
  | cons x t ih =>
    simp only [List.map_cons, List.sum_cons]
    omega

/-- Specification of the array-size selection loop: starting from index
`log2up arraySize` with an always-viable prefix up to `max i0 3`, the loop
returns some `2^t` together with the histogram prefix sum through `t`. -/
lemma chooseArrayLoop_spec (histo : Nat → Nat) (lb cap i0 : Nat)
    (hlb : ∀ j, j ≤ max i0 3 → 2 ^ j ≤ lb) (hmx32 : max i0 3 < 32) :
    ∀ fuel i ps best bc,
      i0 ≤ i → 32 ≤ fuel + i →
      ps = ((List.range' i0 (i - i0)).map histo).sum →
      ((best = 0 ∧ bc = 0 ∧ i ≤ max i0 3) ∨
        (∃ t, i0 ≤ t ∧ t < 32 ∧ t < i ∧ (max i0 3 < i → max i0 3 ≤ t) ∧ best = 2 ^ t ∧
          bc = ((List.range' i0 (t + 1 - i0)).map histo).sum)) →
      ∃ t, i0 ≤ t ∧ max i0 3 ≤ t ∧ t < 32 ∧
        (chooseArrayLoop histo lb cap fuel i ps best bc).1 = 2 ^ t ∧
        (chooseArrayLoop histo lb cap fuel i ps best bc).2
          = ((List.range' i0 (t + 1 - i0)).map histo).sum := by
  intro fuel
  induction fuel with
  | zero =>
    intro i ps best bc hi0le hfi hps hinv
    rcases hinv with ⟨_, _, hile⟩ | ⟨t, ht0, ht32, hti, htmx, hbeq, hbceq⟩
    · omega
    · exact ⟨t, ht0, htmx (by omega), ht32, hbeq, hbceq⟩
  | succ f ih =>
    intro i ps best bc hi0le hfi hps hinv
    have hstep : chooseArrayLoop histo lb cap (f + 1) i ps best bc =
        (if i < 32 then
          (if 2 ^ i ≤ lb ∨ 9 * 2 ^ i / 20 ≤ ps + histo i then
            chooseArrayLoop histo lb cap f (i + 1) (ps + histo i) (2 ^ i) (ps + histo i)
          else if cap < 9 * 2 ^ i / 20 then (best, bc)
          else chooseArrayLoop histo lb cap f (i + 1) (ps + histo i) best bc)
        else (best, bc)) := rfl
    by_cases hi32 : i < 32
    · rw [hstep, if_pos hi32]
      have hps2 : ps + histo i = ((List.range' i0 (i + 1 - i0)).map histo).sum := by
        rw [hps]
        have he : i + 1 - i0 = (i - i0) + 1 := by omega
        rw [he, range'_snoc, List.map_append, List.sum_append]
        have he2 : i0 + (i - i0) = i := by omega
        rw [he2]
        simp
      by_cases hvia : 2 ^ i ≤ lb ∨ 9 * 2 ^ i / 20 ≤ ps + histo i
      · rw [if_pos hvia]
        refine ih (i + 1) _ _ _ (by omega) (by omega) hps2 ?_
        right
        exact ⟨i, by omega, hi32, by omega, fun _ => by omega, rfl, hps2⟩
      · rw [if_neg hvia]
        have himx : max i0 3 < i := by
          by_contra hle
          push_neg at hle
          exact hvia (Or.inl (hlb i hle))
        by_cases hcap : cap < 9 * 2 ^ i / 20
        · rw [if_pos hcap]
          rcases hinv with ⟨_, _, hile⟩ | ⟨t, ht0, ht32, hti, htmx, hbeq, hbceq⟩
          · omega
          · exact ⟨t, ht0, htmx himx, ht32, hbeq, hbceq⟩
        · rw [if_neg hcap]
          refine ih (i + 1) _ _ _ (by omega) (by omega) hps2 ?_
          rcases hinv with ⟨_, _, hile⟩ | ⟨t, ht0, ht32, hti, htmx, hbeq, hbceq⟩
          · omega
          · right
            exact ⟨t, ht0, ht32, by omega, fun _ => htmx himx, hbeq, hbceq⟩
    · rw [hstep, if_neg hi32]
      rcases hinv with ⟨_, _, hile⟩ | ⟨t, ht0, ht32, hti, htmx, hbeq, hbceq⟩
      · omega
      · exact ⟨t, ht0, htmx (by omega), ht32, hbeq, hbceq⟩

end ArrayWithHash

namespace ArrayWithHash

open AWH

/-- The array size and prefix count chosen by `AdaptSizes`: never shrinks,
stays a power of two of at least `ARRAY_MIN_SIZE` (or zero), fits in 31 bits,
and its element count is bounded by the elements that can actually move
there. -/
lemma adaptArrayChoice_spec {s0 : ArrayWithHash} (h0 : Inv s0) {newKey : Nat}
    (hk : newKey < 2 ^ 32) :
    s0.arraySize ≤ (adaptArrayChoice s0 newKey).1 ∧
    ((adaptArrayChoice s0 newKey).1 = 0 ∨
      (Pow2 (adaptArrayChoice s0 newKey).1 ∧
        ARRAY_MIN_SIZE ≤ (adaptArrayChoice s0 newKey).1)) ∧
    (adaptArrayChoice s0 newKey).1 ≤ 2 ^ 31 ∧
    (adaptArrayChoice s0 newKey).2 ≤ s0.arrayCount
      + (if newKey < (adaptArrayChoice s0 newKey).1 then 1 else 0)
      + migratedCount s0 (adaptArrayChoice s0 newKey).1 := by
  obtain ⟨raw, hraw⟩ : ∃ r, r = chooseArrayLoop (logHisto s0 newKey)
      (max s0.arraySize ARRAY_MIN_SIZE) (s0.arrayCount + s0.hashCount + 1)
      32 (log2up s0.arraySize) 0 0 0 := ⟨_, rfl⟩
  have hdef : adaptArrayChoice s0 newKey =
      (if s0.arraySize = 0 ∧ raw.2 = 0 then (0, raw.2) else raw) := by
    rw [hraw]
    rfl
  have harr : s0.arraySize = 0 ∨
      (∃ e, e ≤ 31 ∧ s0.arraySize = 2 ^ e ∧ log2up s0.arraySize = e) := by
    rcases h0.arrayPow2 with h | ⟨⟨e, he⟩, hmin⟩
    · exact Or.inl h
    · right
      have hcap := h0.arrayCap
      rw [he] at hcap
      have he31 : e ≤ 31 := by
        by_contra hgt
        push_neg at hgt
        have h1 : (2:Nat) ^ 32 ≤ 2 ^ e := Nat.pow_le_pow_right (by norm_num) (by omega)
        have h2 : (2:Nat) ^ 31 < 2 ^ 32 := by norm_num
        omega
      exact ⟨e, he31, he, by rw [he]; exact log2up_pow2 (by omega)⟩
  have hi0le : log2up s0.arraySize ≤ 31 := by
    rcases harr with h | ⟨e, he31, _, hlog⟩
    · rw [h]
      unfold log2up
      rw [if_pos rfl]
      omega
    · omega
  have hlb : ∀ j, j ≤ max (log2up s0.arraySize) 3 →
      2 ^ j ≤ max s0.arraySize ARRAY_MIN_SIZE := by
    intro j hj
    by_cases hj3 : j ≤ 3
    · have h1 : (2:Nat) ^ j ≤ 2 ^ 3 := Nat.pow_le_pow_right (by norm_num) hj3
      have h2 : (2:Nat) ^ 3 = 8 := by norm_num
      unfold ARRAY_MIN_SIZE
      omega
    · have hji : j ≤ log2up s0.arraySize := by omega
      rcases harr with h | ⟨e, he31, heq, hlog⟩
      · rw [h] at hji
        unfold log2up at hji
        rw [if_pos rfl] at hji
        omega
      · rw [hlog] at hji
        have h1 : (2:Nat) ^ j ≤ 2 ^ e := Nat.pow_le_pow_right (by norm_num) hji
        rw [heq] at *
        omega
  have hmx32 : max (log2up s0.arraySize) 3 < 32 := by omega
  have hspec := chooseArrayLoop_spec (logHisto s0 newKey)
      (max s0.arraySize ARRAY_MIN_SIZE) (s0.arrayCount + s0.hashCount + 1)
      (log2up s0.arraySize) hlb hmx32 32 (log2up s0.arraySize) 0 0 0
      (le_refl _) (by omega) (by rw [Nat.sub_self]; rfl)
      (Or.inl ⟨rfl, rfl, by omega⟩)
  rw [← hraw] at hspec
  obtain ⟨t, ht0, htmx, ht32, hbs, hbc⟩ := hspec
  have hbound : raw.2 ≤ s0.arrayCount + (if newKey < 2 ^ t then 1 else 0)
      + migratedCount s0 (2 ^ t) := by
    rw [hbc]
    obtain ⟨r, hrdef⟩ : ∃ r, r = List.range' (log2up s0.arraySize)
        (t + 1 - log2up s0.arraySize) := ⟨_, rfl⟩
    rw [← hrdef]
    have hmap : r.map (logHisto s0 newKey) = r.map (fun b =>
        ((if b = log2up s0.arraySize then s0.arrayCount else 0)
          + (if b = log2size newKey then 1 else 0))
        + s0.hashKeys.countP (fun k => IsLiveKey k && (log2size k == b))) := by
      apply List.map_congr_left
      intro b _
      rfl
    rw [hmap, sum_map_add, sum_map_add]
    have hnd : r.Nodup := by rw [hrdef]; exact List.nodup_range' _ _ 1
    have hA : ((r.map (fun b => if b = log2up s0.arraySize then s0.arrayCount else 0)).sum)
        ≤ s0.arrayCount := sum_map_ite_le _ _ r hnd
    have hK : ((r.map (fun b => if b = log2size newKey then 1 else 0)).sum)
        ≤ (if newKey < 2 ^ t then 1 else 0) := by
      by_cases hkt : newKey < 2 ^ t
      · rw [if_pos hkt]
        exact sum_map_ite_le _ _ r hnd
      · rw [if_neg hkt]
        have hgt : ¬ (log2size newKey ≤ t) := by
          rw [log2size_le_iff (by omega) hk]
          exact hkt
        apply Nat.le_of_eq
        apply List.sum_eq_zero
        intro y hy
        rw [List.mem_map] at hy
        obtain ⟨b, hb, hbe⟩ := hy
        have hble : b ≤ t := by
          rw [hrdef] at hb
          rw [List.mem_range'_1] at hb
          omega
        have hbne : b ≠ log2size newKey := fun he => hgt (by omega)
        rw [if_neg hbne] at hbe
        exact hbe.symm
    have hH : ((r.map (fun b =>
        s0.hashKeys.countP (fun k => IsLiveKey k && (log2size k == b)))).sum)
        ≤ migratedCount s0 (2 ^ t) := by
      have h1 := histoH_sum_le s0.hashKeys (log2up s0.arraySize)
        (t + 1 - log2up s0.arraySize)
      rw [← hrdef] at h1
      have he : log2up s0.arraySize + (t + 1 - log2up s0.arraySize) = t + 1 := by omega
      simp only [he] at h1
      refine le_trans h1 ?_
      unfold migratedCount
      apply countP_le_of_imp
      intro x hx
      rw [Bool.and_eq_true] at hx ⊢
      refine ⟨hx.1, ?_⟩
      have h2 := of_decide_eq_true hx.2
      rw [log2size_eq] at h2
      have hsz : x.size ≤ t := by omega
      exact decide_eq_true (Nat.size_le.mp hsz)
    omega
  rw [hdef]
  by_cases hz : s0.arraySize = 0 ∧ raw.2 = 0
  · rw [if_pos hz]
    refine ⟨?_, ?_, ?_, ?_⟩
    · show s0.arraySize ≤ 0
      omega
    · exact Or.inl rfl
    · show (0:Nat) ≤ 2 ^ 31
      exact Nat.zero_le _
    · show raw.2 ≤ s0.arrayCount + (if newKey < 0 then 1 else 0) + migratedCount s0 0
      rw [hz.2]
      exact Nat.zero_le _
  · rw [if_neg hz]
    refine ⟨?_, ?_, ?_, ?_⟩
    · rw [hbs]
      rcases harr with h | ⟨e, he31, heq, hlog⟩
      · rw [h]
        exact Nat.zero_le _
      · rw [hlog] at ht0
        have h1 : (2:Nat) ^ e ≤ 2 ^ t := Nat.pow_le_pow_right (by norm_num) ht0
        omega
    · right
      rw [hbs]
      refine ⟨⟨t, rfl⟩, ?_⟩
      have h1 : (2:Nat) ^ 3 ≤ 2 ^ t := Nat.pow_le_pow_right (by norm_num) (by omega)
      unfold ARRAY_MIN_SIZE
      omega
    · rw [hbs]
      exact Nat.pow_le_pow_right (by norm_num) (by omega)
    · rw [hbs]
      exact hbound

end ArrayWithHash

namespace ArrayWithHash

open AWH

/-- The sizes chosen by `AdaptSizes`: the array never shrinks and the hash
never shrinks; when the hash size changes the relocation preconditions hold;
and after reallocation either the new key fits the array part or the hash
part is no longer full. -/
lemma adaptChoice_spec {s0 : ArrayWithHash} (h0 : Inv s0) {newKey : Nat}
    (hk : newKey < 2 ^ 32) :
    s0.arraySize ≤ (adaptChoice s0 newKey).1 ∧
    ((adaptChoice s0 newKey).1 = 0 ∨
      (Pow2 (adaptChoice s0 newKey).1 ∧ ARRAY_MIN_SIZE ≤ (adaptChoice s0 newKey).1)) ∧
    (adaptChoice s0 newKey).1 ≤ 2 ^ 31 ∧
    s0.hashSize ≤ (adaptChoice s0 newKey).2 ∧
    ((adaptChoice s0 newKey).2 ≠ s0.hashSize →
      Pow2 (adaptChoice s0 newKey).2 ∧ HASH_MIN_SIZE ≤ (adaptChoice s0 newKey).2 ∧
      s0.hashCount < (adaptChoice s0 newKey).2 ∧
      4 * (s0.hashCount - migratedCount s0 (adaptChoice s0 newKey).1)
        ≤ 3 * (adaptChoice s0 newKey).2) ∧
    (newKey < (adaptChoice s0 newKey).1 ∨
      IsHashFull (s0.hashCount - migratedCount s0 (adaptChoice s0 newKey).1)
        (adaptChoice s0 newKey).2 = false) := by
  obtain ⟨haGe, haPow, haCap, haCnt⟩ := adaptArrayChoice_spec h0 hk
  obtain ⟨a, hadef⟩ : ∃ x, x = adaptArrayChoice s0 newKey := ⟨_, rfl⟩
  rw [← hadef] at haGe haPow haCap haCnt
  obtain ⟨nhc, hnhcdef⟩ : ∃ x, x = s0.arrayCount + s0.hashCount + 1 - a.2 := ⟨_, rfl⟩
  obtain ⟨hres, hresdef⟩ : ∃ x, x = growHashSize nhc (max s0.hashSize HASH_MIN_SIZE) :=
    ⟨_, rfl⟩
  have hdef : adaptChoice s0 newKey
      = (a.1, if s0.hashSize = 0 ∧ nhc = 0 then 0 else hres) := by
    rw [hresdef, hnhcdef, hadef]
    rfl
  have hmigLe : migratedCount s0 a.1 ≤ s0.hashCount := by
    unfold migratedCount
    rw [h0.hashCountEq]
    exact countP_and_le _ _ _
  have hstart8 : 8 ≤ max s0.hashSize HASH_MIN_SIZE := by
    unfold HASH_MIN_SIZE
    omega
  have hstartP : Pow2 (max s0.hashSize HASH_MIN_SIZE) := by
    rcases h0.hashPow2 with h | ⟨hp, hmin⟩
    · have he : max s0.hashSize HASH_MIN_SIZE = 8 := by
        unfold HASH_MIN_SIZE
        omega
      rw [he]
      exact ⟨3, by norm_num⟩
    · have he : max s0.hashSize HASH_MIN_SIZE = s0.hashSize := by
        unfold HASH_MIN_SIZE at hmin ⊢
        omega
      rw [he]
      exact hp
  have hCmax : s0.hashCount < max s0.hashSize HASH_MIN_SIZE := by
    rcases h0.hashPow2 with h | ⟨hp, hmin⟩
    · have hc0 : s0.hashCount = 0 := by
        have h1 := h0.hashCountEq
        have hnil : s0.hashKeys = [] :=
          List.eq_nil_of_length_eq_zero (by rw [h0.keysLen, h])
        rw [hnil] at h1
        exact h1
      omega
    · have h1 := h0.fillCap
      have h2 := h0.hashCount_le_fill
      unfold HASH_MIN_SIZE at hmin ⊢
      omega
  have hresGe : max s0.hashSize HASH_MIN_SIZE ≤ hres := by
    rw [hresdef]
    exact growHashSize_ge _ _
  have hresP : Pow2 hres := by
    rw [hresdef]
    exact growHashSize_pow2 _ _ hstartP
  have hresExit : 5 * nhc < 3 * hres := by
    rw [hresdef]
    exact growHashSize_exit _ _ (by omega)
  have hcmLe : s0.hashCount - migratedCount s0 a.1 ≤ nhc := by
    rw [hnhcdef]
    by_cases hkA : newKey < a.1
    · rw [if_pos hkA] at haCnt
      omega
    · rw [if_neg hkA] at haCnt
      omega
  have hnotFull : IsHashFull (s0.hashCount - migratedCount s0 a.1) hres = false := by
    unfold IsHashFull
    apply decide_eq_false
    intro hfull
    have hd4 : 4 ∣ hres := pow2_ge8_dvd4 hresP (by omega)
    obtain ⟨q, hq⟩ := hd4
    have hshift : hres >>> 2 = hres / 4 := by
      rw [Nat.shiftRight_eq_div_pow]
    rw [hshift] at hfull
    have hqv : hres / 4 = q := by omega
    rw [hqv] at hfull
    omega
  rw [hdef]
  by_cases hz : s0.hashSize = 0 ∧ nhc = 0
  · rw [if_pos hz]
    have hkA : newKey < a.1 := by
      by_contra hge
      push_neg at hge
      rw [if_neg (by omega)] at haCnt
      omega
    refine ⟨haGe, haPow, haCap, ?_, ?_, ?_⟩
    · show s0.hashSize ≤ 0
      omega
    · intro hne
      have h2 : (0:Nat) ≠ s0.hashSize := hne
      exact absurd hz.1.symm h2
    · left
      show newKey < a.1
      exact hkA
  · rw [if_neg hz]
    refine ⟨haGe, haPow, haCap, ?_, ?_, ?_⟩
    · show s0.hashSize ≤ hres
      omega
    · intro _
      refine ⟨hresP, ?_, ?_, ?_⟩
      · show HASH_MIN_SIZE ≤ hres
        unfold HASH_MIN_SIZE
        omega
      · show s0.hashCount < hres
        omega
      · show 4 * (s0.hashCount - migratedCount s0 a.1) ≤ 3 * hres
        omega
    · right
      show IsHashFull (s0.hashCount - migratedCount s0 a.1) hres = false
      exact hnotFull

/-- `AdaptSizes` succeeds, preserves the denoted map and the invariant, never
shrinks either part, and afterwards the pending insertion cannot trigger a
second growth. -/
lemma AdaptSizes_ok {s0 : ArrayWithHash} {newKey : Nat} (h0 : Inv s0)
    (hk : newKey < 2 ^ 32) :
    ∃ s', AdaptSizes s0 newKey = some s' ∧ Inv s' ∧
      (∀ k, IsUserKey k → model s' k = model s0 k) ∧
      s0.arraySize ≤ s'.arraySize ∧ s0.hashSize ≤ s'.hashSize ∧
      s'.arrayCount + s'.hashCount = s0.arrayCount + s0.hashCount ∧
      (newKey < s'.arraySize ∨ IsHashFull s'.hashFill s'.hashSize = false) := by
  obtain ⟨haGe, haPow, haCap, hhGe, hhFacts, hdisj⟩ := adaptChoice_spec h0 hk
  obtain ⟨s', hrun, hout⟩ := Reallocate_ok h0 haGe haPow haCap
    (fun hne => hhFacts hne)
  have hmigLe : migratedCount s0 (adaptChoice s0 newKey).1 ≤ s0.hashCount := by
    unfold migratedCount
    rw [h0.hashCountEq]
    exact countP_and_le _ _ _
  refine ⟨s', hrun, hout.inv, hout.modelEq, ?_, ?_, ?_, ?_⟩
  · rw [hout.sizeA]
    exact haGe
  · rw [hout.sizeH]
    exact hhGe
  · rw [hout.countA, hout.countH]
    omega
  · rcases hdisj with hkA | hnf
    · left
      rw [hout.sizeA]
      exact hkA
    · right
      rw [hout.fillEq, hout.countH, hout.sizeH]
      exact hnf

end ArrayWithHash

namespace ArrayWithHash

open AWH

/-- A null hash part always reports as full. -/
lemma hashFull_of_zero (cfill : Nat) : IsHashFull cfill 0 = true := by
  unfold IsHashFull
  apply decide_eq_true
  show (0 >>> 2) * 3 ≤ cfill
  have h0 : ((0:Nat) >>> 2) * 3 = 0 := rfl
  omega

/-- The non-growing write path of `HashSet`: probe, then insert or
overwrite. -/
lemma hashSetBody_ok {s : ArrayWithHash} {key value : Nat} (h : Inv s)
    (hk : IsUserKey key) (hge : s.arraySize ≤ key) (hv : value ≠ EMPTY_VALUE)
    (hfull : IsHashFull s.hashFill s.hashSize = false) :
    ∃ cell s', hashSetBody s key value = some (Sum.inr cell, s') ∧ Inv s' ∧
      (∀ k', IsUserKey k' → model s' k' = if k' = key then some value else model s k') ∧
      s'.hashValues.getD cell 0 = value := by
  have hpos : 0 < s.hashSize := by
    rcases Nat.eq_zero_or_pos s.hashSize with h0 | h0
    · rw [h0, hashFull_of_zero] at hfull
      cases hfull
    · exact h0
  have hm : Pow2 s.hashSize := h.hashPow2Pos hpos
  obtain ⟨cell, hc⟩ := h.fckeIsSome hpos key
  obtain ⟨hcell, hstop⟩ := findCellKeyOrEmpty_spec hm hc
  have hcellV : cell < s.hashValues.length := by rw [h.valsLen]; exact hcell
  by_cases hne : s.hashKeys.getD cell 0 = EMPTY_KEY
  · have hb : (s.hashKeys.getD cell 0 == EMPTY_KEY) = true := beq_iff_eq.mpr hne
    refine ⟨cell, { s with
        hashFill := s.hashFill + 1
        hashCount := s.hashCount + 1
        hashKeys := s.hashKeys.set cell key
        hashValues := s.hashValues.set cell value }, ?_, ?_, ?_, ?_⟩
    · unfold hashSetBody
      rw [hc, Option.map_some', hb]
      rfl
    · exact hashInsert_inv h hk hge hv hfull hc hne rfl
    · exact hashInsert_model h hk hge hv hfull hc hne rfl
    · show (s.hashValues.set cell value).getD cell 0 = value
      exact getD_set_self hcellV value
  · have hkey : s.hashKeys.getD cell 0 = key := by
      rcases hstop with h1 | h1
      · exact absurd h1 hne
      · exact h1
    have hb : (s.hashKeys.getD cell 0 == EMPTY_KEY) = false := by
      rw [beq_eq_false_iff_ne]
      exact hne
    refine ⟨cell, { s with
        hashKeys := s.hashKeys.set cell key
        hashValues := s.hashValues.set cell value }, ?_, ?_, ?_, ?_⟩
    · unfold hashSetBody
      rw [hc, Option.map_some', hb]
      rfl
    · exact hashOverwrite_inv h hk hv hc hkey rfl
    · exact hashOverwrite_model h hk hv hc hkey rfl
    · show (s.hashValues.set cell value).getD cell 0 = value
      exact getD_set_self hcellV value

/-- The array-part write path of `Set`. -/
lemma arraySet_ok {s : ArrayWithHash} {key value : Nat} (h : Inv s)
    (hin : InArray s key) (hv : value ≠ EMPTY_VALUE) :
    Inv (arraySet s key value).2 ∧
    ∀ k', IsUserKey k' → model (arraySet s key value).2 k'
      = if k' = key then some value else model s k' := by
  have hlt : key < s.arraySize := hin
  have hb2 : (value != EMPTY_VALUE) = true := by
    show (!(value == EMPTY_VALUE)) = true
    rw [beq_eq_false_iff_ne.mpr hv]
    rfl
  constructor
  · refine arrayUpdate_inv h hlt ?_ rfl
    by_cases he : s.arrayValues.getD key 0 = EMPTY_VALUE
    · have hb1 : (s.arrayValues.getD key 0 != EMPTY_VALUE) = false := by
        show (!(s.arrayValues.getD key 0 == EMPTY_VALUE)) = false
        rw [beq_iff_eq.mpr he]
        rfl
      rw [if_pos he, hb1, hb2]
      rfl
    · have hb1 : (s.arrayValues.getD key 0 != EMPTY_VALUE) = true := by
        show (!(s.arrayValues.getD key 0 == EMPTY_VALUE)) = true
        rw [beq_eq_false_iff_ne.mpr he]
        rfl
      rw [if_neg he, hb1, hb2]
      rfl
  · intro k' hk'
    show model { s with
        arrayCount := s.arrayCount + (if s.arrayValues.getD key 0 = EMPTY_VALUE then 1 else 0)
        arrayValues := s.arrayValues.set key value } k'
      = if k' = key then some value else model s k'
    rw [arrayUpdate_model h hlt rfl k' hk']
    by_cases hkk : k' = key
    · rw [if_pos hkk, if_pos hkk, if_neg hv]
    · rw [if_neg hkk, if_neg hkk]

/-- `Set` succeeds, preserves the invariant, and updates the denoted map at
exactly the written key. -/
lemma Set_ok {s : ArrayWithHash} {key value : Nat} (h : Inv s)
    (hk : IsUserKey key) (hv : value ≠ EMPTY_VALUE) :
    ∃ loc s', Set s key value = some (loc, s') ∧ Inv s' ∧
      ∀ k', IsUserKey k' → model s' k' = if k' = key then some value else model s k' := by
  unfold Set
  by_cases hin : InArray s key
  · rw [if_pos hin]
    obtain ⟨hi2, hm2⟩ := arraySet_ok h hin hv
    exact ⟨_, _, rfl, hi2, hm2⟩
  · rw [if_neg hin]
    unfold HashSet
    by_cases hful : IsHashFull s.hashFill s.hashSize = true
    · rw [if_pos hful]
      obtain ⟨s1, hrun, hinv1, hmodel1, _, _, _, hdisj⟩ := AdaptSizes_ok h hk.1
      rw [hrun, Option.some_bind]
      unfold SetRetry
      by_cases hin1 : InArray s1 key
      · rw [if_pos hin1]
        obtain ⟨hi2, hm2⟩ := arraySet_ok hinv1 hin1 hv
        refine ⟨_, _, rfl, hi2, ?_⟩
        intro k' hk'
        refine (hm2 k' hk').trans ?_
        by_cases hkk : k' = key
        · rw [if_pos hkk, if_pos hkk]
        · rw [if_neg hkk, if_neg hkk]
          exact hmodel1 k' hk'
      · have hful1 : IsHashFull s1.hashFill s1.hashSize = false := by
          rcases hdisj with hlt1 | hnf
          · exact absurd hlt1 hin1
          · exact hnf
        rw [if_neg hin1, if_neg (by rw [hful1]; exact Bool.false_ne_true)]
        obtain ⟨cell, s2, hbody, hi2, hm2, _⟩ := hashSetBody_ok hinv1 hk
          (by unfold InArray at hin1; omega) hv hful1
        rw [hbody]
        refine ⟨_, _, rfl, hi2, ?_⟩
        intro k' hk'
        rw [hm2 k' hk']
        by_cases hkk : k' = key
        · rw [if_pos hkk, if_pos hkk]
        · rw [if_neg hkk, if_neg hkk]
          exact hmodel1 k' hk'
    · have hful' : IsHashFull s.hashFill s.hashSize = false := eq_false_of_ne_true hful
      rw [if_neg hful]
      obtain ⟨cell, s2, hbody, hi2, hm2, _⟩ := hashSetBody_ok h hk
        (by unfold InArray at hin; omega) hv hful'
      rw [hbody]
      exact ⟨_, _, rfl, hi2, hm2⟩

end ArrayWithHash

namespace ArrayWithHash

open AWH

/-- When a hash-tier key is present, the user-facing probe stops at its cell. -/
lemma model_hash_present {s : ArrayWithHash} {key w : Nat} (h : Inv s)
    (hk : IsUserKey key) (hge : s.arraySize ≤ key)
    (hw : model s key = some w) {cell : Nat}
    (hc : findCellKeyOrEmpty s.hashKeys s.hashSize key = some cell) :
    s.hashKeys.getD cell 0 = key ∧ s.hashValues.getD cell 0 = w := by
  have hpos : 0 < s.hashSize := fcke_pos hc
  have hm : Pow2 s.hashSize := h.hashPow2Pos hpos
  obtain ⟨hcell, hstop⟩ := findCellKeyOrEmpty_spec hm hc
  rcases hstop with hE | hkey
  · exfalso
    have habs := h.absent_of_stop_empty hk hc hE
    rw [model_eq_none_of_absent hge habs] at hw
    cases hw
  · refine ⟨hkey, ?_⟩
    have := model_eq_some_of_cell h hk hge hcell hkey
    rw [hw] at this
    injection this with h1
    exact h1.symm

/-- `SetIfNew` succeeds; on a present key it changes nothing and hands back
the stored value's location, on an absent key it inserts. -/
lemma SetIfNew_ok {s : ArrayWithHash} {key value : Nat} (h : Inv s)
    (hk : IsUserKey key) (hv : value ≠ EMPTY_VALUE) :
    (∀ w, model s key = some w →
      ∃ loc s', SetIfNew s key value = some (some loc, s') ∧ Inv s' ∧
        (∀ k', IsUserKey k' → model s' k' = model s k') ∧ locValue s' loc = w) ∧
    (model s key = none →
      ∃ s', SetIfNew s key value = some (none, s') ∧ Inv s' ∧
        (∀ k', IsUserKey k' → model s' k' = if k' = key then some value
          else model s k')) := by
  have harr : ∀ (t : ArrayWithHash), Inv t → InArray t key →
      (∀ w, model t key = some w →
        arraySetIfNew t key value = (some (Sum.inl key), t) ∧
          locValue t (Sum.inl key) = w) ∧
      (model t key = none →
        ∃ t', arraySetIfNew t key value = (none, t') ∧ Inv t' ∧
          (∀ k', IsUserKey k' → model t' k' = if k' = key then some value
            else model t k')) := by
    intro t ht hin
    have hlt : key < t.arraySize := hin
    constructor
    · intro w hw
      rw [model_eq_arr hlt] at hw
      by_cases he : t.arrayValues.getD key 0 = EMPTY_VALUE
      · rw [if_pos he] at hw
        cases hw
      · rw [if_neg he] at hw
        injection hw with h1
        unfold arraySetIfNew
        rw [if_neg he]
        exact ⟨rfl, h1⟩
    · intro hab
      rw [model_eq_arr hlt] at hab
      by_cases he : t.arrayValues.getD key 0 = EMPTY_VALUE
      · have heq : arraySetIfNew t key value = (none, { t with
            arrayValues := t.arrayValues.set key value
            arrayCount := t.arrayCount + 1 }) := by
          unfold arraySetIfNew
          rw [if_pos he]
        refine ⟨_, heq, ?_, ?_⟩
        · refine arrayUpdate_inv ht hlt ?_ rfl
          have hb1 : (t.arrayValues.getD key 0 != EMPTY_VALUE) = false := by
            show (!(t.arrayValues.getD key 0 == EMPTY_VALUE)) = false
            rw [beq_iff_eq.mpr he]
            rfl
          have hb2 : (value != EMPTY_VALUE) = true := by
            show (!(value == EMPTY_VALUE)) = true
            rw [beq_eq_false_iff_ne.mpr hv]
            rfl
          rw [hb1, hb2]
          rfl
        · intro k' hk'
          refine (arrayUpdate_model ht hlt rfl k' hk').trans ?_
          by_cases hkk : k' = key
          · rw [if_pos hkk, if_pos hkk, if_neg hv]
          · rw [if_neg hkk, if_neg hkk]
      · rw [if_neg he] at hab
        cases hab
  have hhash : ∀ (t : ArrayWithHash), Inv t → ¬ InArray t key →
      IsHashFull t.hashFill t.hashSize = false →
      (∀ w, model t key = some w →
        ∃ loc, hashSetIfNewBody t key value = some (some loc, t) ∧
          locValue t loc = w) ∧
      (model t key = none →
        ∃ t', hashSetIfNewBody t key value = some (none, t') ∧ Inv t' ∧
          (∀ k', IsUserKey k' → model t' k' = if k' = key then some value
            else model t k')) := by
    intro t ht hin hfull
    have hge : t.arraySize ≤ key := by unfold InArray at hin; omega
    have hpos : 0 < t.hashSize := by
      rcases Nat.eq_zero_or_pos t.hashSize with h0 | h0
      · rw [h0, hashFull_of_zero] at hfull
        cases hfull
      · exact h0
    have hm : Pow2 t.hashSize := ht.hashPow2Pos hpos
    obtain ⟨cell, hc⟩ := ht.fckeIsSome hpos key
    obtain ⟨hcell, hstop⟩ := findCellKeyOrEmpty_spec hm hc
    constructor
    · intro w hw
      obtain ⟨hkey, hval⟩ := model_hash_present ht hk hge hw hc
      have hb : (t.hashKeys.getD cell 0 != EMPTY_KEY) = true := by
        show (!(t.hashKeys.getD cell 0 == EMPTY_KEY)) = true
        rw [beq_eq_false_iff_ne.mpr (by rw [hkey]; exact hk.2.1)]
        rfl
      refine ⟨Sum.inr cell, ?_, hval⟩
      unfold hashSetIfNewBody
      rw [hc, Option.map_some', hb]
      rfl
    · intro hab
      have hE : t.hashKeys.getD cell 0 = EMPTY_KEY := by
        rcases hstop with hE | hkey
        · exact hE
        · exfalso
          rw [model_eq_some_of_cell ht hk hge hcell hkey] at hab
          cases hab
      have hb : (t.hashKeys.getD cell 0 != EMPTY_KEY) = false := by
        show (!(t.hashKeys.getD cell 0 == EMPTY_KEY)) = false
        rw [beq_iff_eq.mpr hE]
        rfl
      have heq2 : hashSetIfNewBody t key value = some (none, { t with
          hashFill := t.hashFill + 1
          hashCount := t.hashCount + 1
          hashKeys := t.hashKeys.set cell key
          hashValues := t.hashValues.set cell value }) := by
        unfold hashSetIfNewBody
        rw [hc, Option.map_some', hb]
        rfl
      exact ⟨_, heq2, hashInsert_inv ht hk hge hv hfull hc hE rfl,
        hashInsert_model ht hk hge hv hfull hc hE rfl⟩
  unfold SetIfNew
  by_cases hin : InArray s key
  · rw [if_pos hin]
    obtain ⟨hpres, habs⟩ := harr s h hin
    constructor
    · intro w hw
      obtain ⟨heq, hval⟩ := hpres w hw
      rw [heq]
      exact ⟨Sum.inl key, s, rfl, h, fun _ _ => rfl, hval⟩
    · intro hab
      obtain ⟨t', heq, hi', hm'⟩ := habs hab
      rw [heq]
      exact ⟨t', rfl, hi', hm'⟩
  · rw [if_neg hin]
    unfold HashSetIfNew
    by_cases hful : IsHashFull s.hashFill s.hashSize = true
    · rw [if_pos hful]
      obtain ⟨s1, hrun, hinv1, hmodel1, _, _, _, hdisj⟩ := AdaptSizes_ok h hk.1
      rw [hrun, Option.some_bind]
      unfold SetIfNewRetry
      by_cases hin1 : InArray s1 key
      · rw [if_pos hin1]
        obtain ⟨hpres, habs⟩ := harr s1 hinv1 hin1
        constructor
        · intro w hw
          obtain ⟨heq, hval⟩ := hpres w ((hmodel1 key hk).trans hw)
          rw [heq]
          exact ⟨Sum.inl key, s1, rfl, hinv1, hmodel1, hval⟩
        · intro hab
          obtain ⟨t', heq, hi', hm'⟩ := habs ((hmodel1 key hk).trans hab)
          rw [heq]
          refine ⟨t', rfl, hi', ?_⟩
          intro k' hk'
          refine (hm' k' hk').trans ?_
          by_cases hkk : k' = key
          · rw [if_pos hkk, if_pos hkk]
          · rw [if_neg hkk, if_neg hkk]
            exact hmodel1 k' hk'
      · have hful1 : IsHashFull s1.hashFill s1.hashSize = false := by
          rcases hdisj with hlt1 | hnf
          · exact absurd hlt1 hin1
          · exact hnf
        rw [if_neg hin1, if_neg (by rw [hful1]; exact Bool.false_ne_true)]
        obtain ⟨hpres, habs⟩ := hhash s1 hinv1 hin1 hful1
        constructor
        · intro w hw
          obtain ⟨loc, heq, hval⟩ := hpres w ((hmodel1 key hk).trans hw)
          rw [heq]
          exact ⟨loc, s1, rfl, hinv1, hmodel1, hval⟩
        · intro hab
          obtain ⟨t', heq, hi', hm'⟩ := habs ((hmodel1 key hk).trans hab)
          rw [heq]
          refine ⟨t', rfl, hi', ?_⟩
          intro k' hk'
          refine (hm' k' hk').trans ?_
          by_cases hkk : k' = key
          · rw [if_pos hkk, if_pos hkk]
          · rw [if_neg hkk, if_neg hkk]
            exact hmodel1 k' hk'
    · have hful' : IsHashFull s.hashFill s.hashSize = false := eq_false_of_ne_true hful
      rw [if_neg hful]
      obtain ⟨hpres, habs⟩ := hhash s h hin hful'
      constructor
      · intro w hw
        obtain ⟨loc, heq, hval⟩ := hpres w hw
        rw [heq]
        exact ⟨loc, s, rfl, h, fun _ _ => rfl, hval⟩
      · intro hab
        obtain ⟨t', heq, hi', hm'⟩ := habs hab
        rw [heq]
        exact ⟨t', rfl, hi', hm'⟩

end ArrayWithHash

namespace ArrayWithHash

open AWH

/-- `Remove` succeeds, preserves the invariant, and deletes exactly the given
key from the denoted map. -/
lemma Remove_ok {s : ArrayWithHash} {key : Nat} (h : Inv s) (hk : IsUserKey key) :
    ∃ s', Remove s key = some s' ∧ Inv s' ∧
      ∀ k', IsUserKey k' → model s' k' = if k' = key then none else model s k' := by
  unfold Remove
  by_cases hin : InArray s key
  · rw [if_pos hin]
    have hlt : key < s.arraySize := hin
    refine ⟨_, rfl, ?_, ?_⟩
    · refine arrayUpdate_inv h hlt ?_ rfl
      have hbE : (EMPTY_VALUE != EMPTY_VALUE) = false := by
        show (!(EMPTY_VALUE == EMPTY_VALUE)) = false
        rw [beq_iff_eq.mpr rfl]
        rfl
      by_cases he : s.arrayValues.getD key 0 = EMPTY_VALUE
      · have hb1 : (s.arrayValues.getD key 0 != EMPTY_VALUE) = false := by
          show (!(s.arrayValues.getD key 0 == EMPTY_VALUE)) = false
          rw [beq_iff_eq.mpr he]
          rfl
        rw [if_pos he, hb1, hbE]
        rfl
      · have hb1 : (s.arrayValues.getD key 0 != EMPTY_VALUE) = true := by
          show (!(s.arrayValues.getD key 0 == EMPTY_VALUE)) = true
          rw [beq_eq_false_iff_ne.mpr he]
          rfl
        have hpos : 0 < s.arrayCount := by
          rw [h.arrayCountEq]
          rw [List.countP_pos]
          have hlen : key < s.arrayValues.length := by rw [h.arrayLen]; exact hlt
          exact ⟨s.arrayValues.getD key 0, getD_mem hlen, hb1⟩
        rw [if_neg he, hb1, hbE]
        show s.arrayCount - 1 + 1 = s.arrayCount + 0
        omega
    · intro k' hk'
      refine (arrayUpdate_model h hlt rfl k' hk').trans ?_
      by_cases hkk : k' = key
      · rw [if_pos hkk, if_pos hkk, if_pos rfl]
      · rw [if_neg hkk, if_neg hkk]
  · rw [if_neg hin]
    have hge : s.arraySize ≤ key := by unfold InArray at hin; omega
    unfold HashRemove
    by_cases h0 : s.hashSize = 0
    · rw [if_pos h0]
      refine ⟨s, rfl, h, ?_⟩
      intro k' hk'
      by_cases hkk : k' = key
      · rw [if_pos hkk, hkk]
        apply model_eq_none_of_absent hge
        intro c hc
        rw [h0] at hc
        omega
      · rw [if_neg hkk]
    · rw [if_neg h0]
      obtain ⟨cell, hc⟩ := h.fckeIsSome (by omega) key
      have hm : Pow2 s.hashSize := h.hashPow2Pos (by omega)
      obtain ⟨hcell, hstop⟩ := findCellKeyOrEmpty_spec hm hc
      rw [hc, Option.map_some']
      by_cases hE : s.hashKeys.getD cell 0 = EMPTY_KEY
      · rw [if_pos hE]
        refine ⟨s, rfl, h, ?_⟩
        intro k' hk'
        by_cases hkk : k' = key
        · rw [if_pos hkk, hkk]
          exact model_eq_none_of_absent hge (h.absent_of_stop_empty hk hc hE)
        · rw [if_neg hkk]
      · have hkey : s.hashKeys.getD cell 0 = key := by
          rcases hstop with h1 | h1
          · exact absurd h1 hE
          · exact h1
        rw [if_neg hE]
        exact ⟨_, rfl, hashRemove_inv h hk hc hkey rfl,
          hashRemove_model h hk hc hkey rfl⟩

lemma pow2_max {a b : Nat} (ha : Pow2 a) (hb : Pow2 b) : Pow2 (max a b) := by
  rcases max_choice a b with h | h <;> rw [h] <;> assumption

lemma log2up_le_31 {x : Nat} (hx : x ≤ 2 ^ 31) : log2up x ≤ 31 := by
  unfold log2up
  by_cases h0 : x = 0
  · rw [if_pos h0]
    omega
  · rw [if_neg h0]
    rw [log2size_eq]
    have h1 : (x - 1).size ≤ 31 := Nat.size_le.mpr (by omega)
    omega

lemma pow2_max_min {s : ArrayWithHash} (h : Inv s) : Pow2 (max s.arraySize ARRAY_MIN_SIZE) := by
  rcases h.arrayPow2 with h0 | ⟨hp, hmin⟩
  · have he : max s.arraySize ARRAY_MIN_SIZE = 8 := by
      unfold ARRAY_MIN_SIZE
      omega
    rw [he]
    exact ⟨3, by norm_num⟩
  · have he : max s.arraySize ARRAY_MIN_SIZE = s.arraySize := by
      unfold ARRAY_MIN_SIZE at hmin ⊢
      omega
    rw [he]
    exact hp

lemma pow2_hash_min {s : ArrayWithHash} (h : Inv s) : Pow2 (max s.hashSize HASH_MIN_SIZE) := by
  rcases h.hashPow2 with h0 | ⟨hp, hmin⟩
  · have he : max s.hashSize HASH_MIN_SIZE = 8 := by
      unfold HASH_MIN_SIZE
      omega
    rw [he]
    exact ⟨3, by norm_num⟩
  · have he : max s.hashSize HASH_MIN_SIZE = s.hashSize := by
      unfold HASH_MIN_SIZE at hmin ⊢
      omega
    rw [he]
    exact hp

/-- `Reserve` succeeds under the 31-bit bound on the requested array size,
preserves the invariant and the denoted map, and never shrinks the parts. -/
lemma Reserve_ok {s : ArrayWithHash} {aLB hLB : Nat} {clean : Bool} (h : Inv s)
    (hacap : aLB ≤ 2 ^ 31) :
    ∃ s', Reserve s aLB hLB clean = some s' ∧ Inv s' ∧
      (∀ k, IsUserKey k → model s' k = model s k) ∧
      s.arraySize ≤ s'.arraySize ∧ s.hashSize ≤ s'.hashSize := by
  obtain ⟨aLB2, haLB⟩ : ∃ x, x = (if aLB ≠ 0 ∨ s.arraySize ≠ 0 then
      max (2 ^ log2up aLB) (max s.arraySize ARRAY_MIN_SIZE) else aLB) := ⟨_, rfl⟩
  obtain ⟨hLB2, hhLB⟩ : ∃ x, x = (if hLB ≠ 0 ∨ s.hashSize ≠ 0 then
      max (2 ^ log2up hLB) (max s.hashSize HASH_MIN_SIZE) else hLB) := ⟨_, rfl⟩
  have hrun : Reserve s aLB hLB clean =
      (if aLB2 = s.arraySize ∧ hLB2 = s.hashSize ∧ clean = false then some s
       else Reallocate aLB2 hLB2 s) := by
    rw [haLB, hhLB]
    rfl
  have hAge : s.arraySize ≤ aLB2 := by
    rw [haLB]
    by_cases hcond : aLB ≠ 0 ∨ s.arraySize ≠ 0
    · rw [if_pos hcond]
      omega
    · rw [if_neg hcond]
      push_neg at hcond
      omega
  have hApow : aLB2 = 0 ∨ (Pow2 aLB2 ∧ ARRAY_MIN_SIZE ≤ aLB2) := by
    rw [haLB]
    by_cases hcond : aLB ≠ 0 ∨ s.arraySize ≠ 0
    · rw [if_pos hcond]
      right
      refine ⟨pow2_max ⟨log2up aLB, rfl⟩ (pow2_max_min h), ?_⟩
      unfold ARRAY_MIN_SIZE
      omega
    · rw [if_neg hcond]
      push_neg at hcond
      exact Or.inl hcond.1
  have hAcap : aLB2 ≤ 2 ^ 31 := by
    rw [haLB]
    by_cases hcond : aLB ≠ 0 ∨ s.arraySize ≠ 0
    · rw [if_pos hcond]
      have h1 : (2:Nat) ^ log2up aLB ≤ 2 ^ 31 :=
        Nat.pow_le_pow_right (by norm_num) (log2up_le_31 hacap)
      have h2 := h.arrayCap
      have h3 : ARRAY_MIN_SIZE ≤ 2 ^ 31 := by unfold ARRAY_MIN_SIZE; norm_num
      omega
    · rw [if_neg hcond]
      exact hacap
  have hHge : s.hashSize ≤ hLB2 := by
    rw [hhLB]
    by_cases hcond : hLB ≠ 0 ∨ s.hashSize ≠ 0
    · rw [if_pos hcond]
      omega
    · rw [if_neg hcond]
      push_neg at hcond
      omega
  have hCle : s.hashCount ≤ s.hashFill := by
    rw [h.hashCountEq, h.hashFillEq]
    refine countP_le_of_imp _ _ ?_ _
    intro x hx
    unfold IsLiveKey at hx
    rw [Bool.and_eq_true] at hx
    exact hx.1
  have hHfacts : hLB2 ≠ s.hashSize → Pow2 hLB2 ∧ HASH_MIN_SIZE ≤ hLB2 ∧
      s.hashCount < hLB2 ∧ 4 * (s.hashCount - migratedCount s aLB2) ≤ 3 * hLB2 := by
    intro hne
    rw [hhLB] at hne ⊢
    by_cases hcond : hLB ≠ 0 ∨ s.hashSize ≠ 0
    · rw [if_pos hcond] at hne ⊢
      have hfill := h.fillCap
      have hge8 : HASH_MIN_SIZE ≤ max (2 ^ log2up hLB) (max s.hashSize HASH_MIN_SIZE) := by
        unfold HASH_MIN_SIZE
        omega
      have hCltM : s.hashCount < max (2 ^ log2up hLB) (max s.hashSize HASH_MIN_SIZE) := by
        unfold HASH_MIN_SIZE at hge8 ⊢
        omega
      refine ⟨pow2_max ⟨log2up hLB, rfl⟩ (pow2_hash_min h), hge8, hCltM, ?_⟩
      unfold HASH_MIN_SIZE
      omega
    · rw [if_neg hcond] at hne
      push_neg at hcond
      exact absurd (hcond.1.trans hcond.2.symm) hne
  rw [hrun]
  by_cases hskip : aLB2 = s.arraySize ∧ hLB2 = s.hashSize ∧ clean = false
  · rw [if_pos hskip]
    exact ⟨s, rfl, h, fun _ _ => rfl, le_refl _, le_refl _⟩
  · rw [if_neg hskip]
    obtain ⟨s', hr, hout⟩ := Reallocate_ok h hAge hApow hAcap hHfacts
    refine ⟨s', hr, hout.inv, hout.modelEq, ?_, ?_⟩
    · rw [hout.sizeA]
      exact hAge
    · rw [hout.sizeH]
      exact hHge

end ArrayWithHash

/-! ## Reachable states and the element count -/

namespace ArrayWithHash

open AWH

/-- Every reachable state satisfies the master invariant. -/
lemma reachable_inv {s : ArrayWithHash} (h : Reachable s) : Inv s := by
  induction h with
  | init => exact inv_empty
  | set t p key value ha hk hv heq ih =>
    obtain ⟨loc, t2, heq2, hinv, _⟩ := Set_ok ih hk hv
    rw [heq2] at heq
    injection heq with h1
    rw [← h1]
    exact hinv
  | setIfNew t p key value ha hk hv heq ih =>
    obtain ⟨hpres, habs⟩ := SetIfNew_ok ih hk hv
    cases hm : model t key with
    | none =>
      obtain ⟨t2, heq2, hinv, _⟩ := habs hm
      rw [heq2] at heq
      injection heq with h1
      rw [← h1]
      exact hinv
    | some w =>
      obtain ⟨loc, t2, heq2, hinv, _, _⟩ := hpres w hm
      rw [heq2] at heq
      injection heq with h1
      rw [← h1]
      exact hinv
  | remove t t' key ha hk heq ih =>
    obtain ⟨t2, heq2, hinv, _⟩ := Remove_ok ih hk
    rw [heq2] at heq
    injection heq with h1
    rw [← h1]
    exact hinv
  | clear t ha ih => exact clear_inv ih
  | reserve t t' aLB hLB clean ha hcap heq ih =>
    obtain ⟨t2, heq2, hinv, _⟩ := Reserve_ok ih hcap
    rw [heq2] at heq
    injection heq with h1
    rw [← h1]
    exact hinv

/-- The value `model` reports for a user key is never the empty value. -/
lemma model_ne_empty {s : ArrayWithHash} (h : Inv s) {k v : Nat} (hk : IsUserKey k)
    (hm : model s k = some v) : v ≠ EMPTY_VALUE := by
  unfold model at hm
  by_cases ha : k < s.arraySize
  · rw [if_pos ha] at hm
    by_cases he : s.arrayValues.getD k 0 = EMPTY_VALUE
    · rw [if_pos he] at hm
      cases hm
    · rw [if_neg he] at hm
      injection hm with h1
      rw [← h1]
      exact he
  · rw [if_neg ha] at hm
    cases hco : hashCellOf s k with
    | none =>
      rw [hco] at hm
      cases hm
    | some c =>
      rw [hco, Option.map_some'] at hm
      injection hm with h1
      obtain ⟨hclt, hckey⟩ := hashCellOf_spec hco
      have hlive : IsLiveKey (s.hashKeys.getD c 0) = true := by
        rw [hckey]
        exact hk.live
      rw [← h1]
      exact h.valsLive c hclt hlive

/-- Under the invariant, `IsPresent` coincides with membership of the
abstract map. -/
lemma isPresent_eq {s : ArrayWithHash} (h : Inv s) (k : Nat) :
    IsPresent s k = (decide (IsUserKey k) && (model s k).isSome) := by
  unfold IsPresent
  by_cases hu : IsUserKey k
  · rw [decide_eq_true hu, Bool.true_and, Bool.true_and, get_eq_model h hu]
    cases hm : model s k with
    | none => decide
    | some v =>
      have hv := model_ne_empty h hu hm
      show (v != EMPTY_VALUE) = true
      show (!(v == EMPTY_VALUE)) = true
      rw [beq_eq_false_iff_ne.mpr hv]
      rfl
  · rw [decide_eq_false hu, Bool.false_and, Bool.false_and]

/-- `countP` over an initial segment of the naturals as a `Finset` card. -/
lemma countP_range_eq_card (p : Nat → Bool) (n : Nat) :
    (List.range n).countP p = ((Finset.range n).filter (fun k => p k = true)).card := by
  induction n with
  | zero => rfl
  | succ n ih =>
    rw [List.range_succ, List.countP_append, Finset.range_succ, Finset.filter_insert]
    by_cases hp : p n = true
    · rw [if_pos hp, Finset.card_insert_of_not_mem (by simp), ← ih]
      simp [hp]
    · rw [if_neg hp, ← ih]
      simp [hp]

/-- A cell holding the key makes `hashCellOf` succeed. -/
lemma hashCellOf_isSome_of_cell {s : ArrayWithHash} {c k : Nat} (hc : c < s.hashSize)
    (hk : s.hashKeys.getD c 0 = k) : (hashCellOf s k).isSome = true := by
  unfold hashCellOf
  rw [List.find?_isSome]
  exact ⟨c, List.mem_range.mpr hc, beq_iff_eq.mpr hk⟩

end ArrayWithHash

namespace ArrayWithHash

open AWH

/-- Under the invariant, the two counters add up to the number of present
user keys as observed through `Get`. -/
lemma presentCount_eq {s : ArrayWithHash} (h : Inv s) :
    presentCount s = s.arrayCount + s.hashCount := by
  have hA32 : s.arraySize ≤ 2 ^ 32 := le_trans h.arrayCap (by norm_num)
  obtain ⟨pm, hpm⟩ : ∃ pm : Nat → Bool,
      pm = fun k => decide (IsUserKey k) && (model s k).isSome := ⟨_, rfl⟩
  obtain ⟨qb, hqb⟩ : ∃ qb : Nat → Bool, qb = fun k =>
      (decide (IsUserKey k) && decide (s.arraySize ≤ k)) && (hashCellOf s k).isSome :=
    ⟨_, rfl⟩
  have h1 : presentCount s = (List.range (2 ^ 32)).countP pm := by
    unfold presentCount
    refine List.countP_congr ?_
    intro k _
    rw [isPresent_eq h k, hpm]
  have hsplitR : List.range (2 ^ 32)
      = List.range' 0 s.arraySize ++ List.range' s.arraySize (2 ^ 32 - s.arraySize) := by
    have happ := List.range'_append 0 s.arraySize (2 ^ 32 - s.arraySize) 1
    rw [Nat.zero_add, Nat.one_mul] at happ
    rw [show 2 ^ 32 - s.arraySize + s.arraySize = 2 ^ 32 by omega] at happ
    rw [List.range_eq_range', ← happ]
  have h2 : (List.range (2 ^ 32)).countP pm
      = (List.range' 0 s.arraySize).countP pm
        + (List.range' s.arraySize (2 ^ 32 - s.arraySize)).countP pm := by
    rw [hsplitR, List.countP_append]
  have harr : (List.range' 0 s.arraySize).countP pm = s.arrayCount := by
    have hc1 : (List.range' 0 s.arraySize).countP pm
        = (List.range' 0 s.arraySize).countP
          (fun k => s.arrayValues.getD k 0 != EMPTY_VALUE) := by
      refine List.countP_congr ?_
      intro k hkmem
      have hklt : k < s.arraySize := by
        have := List.mem_range'_1.mp hkmem
        omega
      have hu : IsUserKey k := by
        have hcap := h.arrayCap
        refine ⟨by omega, ?_, ?_⟩
        · show k ≠ EMPTY_KEY
          unfold EMPTY_KEY
          omega
        · show k ≠ REMOVED_KEY
          unfold REMOVED_KEY
          omega
      have heq : pm k = (s.arrayValues.getD k 0 != EMPTY_VALUE) := by
        rw [hpm]
        show (decide (IsUserKey k) && (model s k).isSome)
          = (s.arrayValues.getD k 0 != EMPTY_VALUE)
        rw [decide_eq_true hu, Bool.true_and, model_eq_arr hklt]
        by_cases he : s.arrayValues.getD k 0 = EMPTY_VALUE
        · rw [if_pos he, he]
          decide
        · rw [if_neg he]
          show true = (!(s.arrayValues.getD k 0 == EMPTY_VALUE))
          rw [beq_eq_false_iff_ne.mpr he]
          rfl
      rw [heq]
    rw [hc1, show List.range' 0 s.arraySize = List.range s.arraySize from
      (List.range_eq_range' _).symm]
    rw [h.arrayCountEq, countP_eq_countP_range _ s.arrayValues, h.arrayLen]
  have hqb0 : (List.range' 0 s.arraySize).countP qb = 0 := by
    rw [List.countP_eq_zero]
    intro k hkmem
    have hklt : k < s.arraySize := by
      have := List.mem_range'_1.mp hkmem
      omega
    intro hcontra
    rw [hqb] at hcontra
    simp only [Bool.and_eq_true, decide_eq_true_eq] at hcontra
    omega
  have hhash1 : (List.range' s.arraySize (2 ^ 32 - s.arraySize)).countP pm
      = (List.range' s.arraySize (2 ^ 32 - s.arraySize)).countP qb := by
    refine List.countP_congr ?_
    intro k hkmem
    have hge : s.arraySize ≤ k := (List.mem_range'_1.mp hkmem).1
    have heq : pm k = qb k := by
      rw [hpm, hqb]
      show (decide (IsUserKey k) && (model s k).isSome)
          = ((decide (IsUserKey k) && decide (s.arraySize ≤ k)) && (hashCellOf s k).isSome)
      rw [decide_eq_true hge, Bool.and_true]
      have hms : (model s k).isSome = (hashCellOf s k).isSome := by
        unfold model
        rw [if_neg (by omega)]
        cases hashCellOf s k <;> rfl
      rw [hms]
    rw [heq]
  have hcnt : (List.range (2 ^ 32)).countP qb
      = (List.range' s.arraySize (2 ^ 32 - s.arraySize)).countP qb := by
    rw [hsplitR, List.countP_append, hqb0, Nat.zero_add]
  have hTc : (List.range s.hashSize).countP (fun c => IsLiveKey (s.hashKeys.getD c 0))
      = s.hashCount := by
    rw [h.hashCountEq, countP_eq_countP_range _ s.hashKeys, h.keysLen]
  have hSTc : (List.range (2 ^ 32)).countP qb
      = (List.range s.hashSize).countP (fun c => IsLiveKey (s.hashKeys.getD c 0)) := by
    rw [countP_range_eq_card, countP_range_eq_card]
    refine Finset.card_nbij' (fun k => (hashCellOf s k).getD 0)
      (fun c => s.hashKeys.getD c 0) ?_ ?_ ?_ ?_
    · intro k hkS
      obtain ⟨hkr, hq⟩ := Finset.mem_filter.mp hkS
      rw [hqb] at hq
      simp only [Bool.and_eq_true, decide_eq_true_eq] at hq
      obtain ⟨⟨hu, hgeA⟩, hsome⟩ := hq
      obtain ⟨c, hco⟩ := Option.isSome_iff_exists.mp hsome
      obtain ⟨hclt, hckey⟩ := hashCellOf_spec hco
      show (hashCellOf s k).getD 0 ∈ _
      rw [hco]
      refine Finset.mem_filter.mpr ⟨Finset.mem_range.mpr hclt, ?_⟩
      show IsLiveKey (s.hashKeys.getD c 0) = true
      rw [hckey]
      exact hu.live
    · intro c hcT
      obtain ⟨hcr, hlive⟩ := Finset.mem_filter.mp hcT
      have hclt : c < s.hashSize := Finset.mem_range.mp hcr
      have hlive' : IsLiveKey (s.hashKeys.getD c 0) = true := hlive
      have hkey32 := h.keysLt c hclt
      have hAle := h.liveGe c hclt hlive'
      have hu : IsUserKey (s.hashKeys.getD c 0) := by
        obtain ⟨hne, hnr⟩ := IsLiveKey_iff.mp hlive'
        exact ⟨hkey32, hne, hnr⟩
      refine Finset.mem_filter.mpr ⟨Finset.mem_range.mpr hkey32, ?_⟩
      show qb (s.hashKeys.getD c 0) = true
      rw [hqb]
      simp only [Bool.and_eq_true, decide_eq_true_eq]
      exact ⟨⟨hu, hAle⟩, hashCellOf_isSome_of_cell hclt rfl⟩
    · intro k hkS
      obtain ⟨hkr, hq⟩ := Finset.mem_filter.mp hkS
      rw [hqb] at hq
      simp only [Bool.and_eq_true, decide_eq_true_eq] at hq
      obtain ⟨c, hco⟩ := Option.isSome_iff_exists.mp hq.2
      show s.hashKeys.getD ((hashCellOf s k).getD 0) 0 = k
      rw [hco]
      exact (hashCellOf_spec hco).2
    · intro c hcT
      obtain ⟨hcr, hlive⟩ := Finset.mem_filter.mp hcT
      have hclt : c < s.hashSize := Finset.mem_range.mp hcr
      have hlive' : IsLiveKey (s.hashKeys.getD c 0) = true := hlive
      show (hashCellOf s (s.hashKeys.getD c 0)).getD 0 = c
      rw [hashCellOf_eq_some_of_live h hclt hlive']
      rfl
  have hhash : (List.range' s.arraySize (2 ^ 32 - s.arraySize)).countP pm = s.hashCount := by
    rw [hhash1, ← hcnt, hSTc, hTc]
  rw [h1, h2, harr, hhash]

/-- States denoting the same abstract map hold the same number of keys. -/
lemma presentCount_congr {s s' : ArrayWithHash} (hs : Inv s) (hs' : Inv s')
    (hm : ∀ k, IsUserKey k → model s' k = model s k) : presentCount s' = presentCount s := by
  unfold presentCount
  refine List.countP_congr ?_
  intro k _
  rw [isPresent_eq hs' k, isPresent_eq hs k]
  by_cases hu : IsUserKey k
  · rw [hm k hu]
  · rw [decide_eq_false hu, Bool.false_and, Bool.false_and]

end ArrayWithHash

/-! ## The claims -/

namespace ArrayWithHash

open AWH

/-- Claim C2: after every public operation (every reachable state), each live
hash cell holds a key at least `arraySize`: no key that fits the array tier is
stored in the hash tier. -/
theorem hash_keys_outside_array (s : ArrayWithHash) (h : Reachable s) :
    ∀ c, c < s.hashSize → IsLiveKey (s.hashKeys.getD c 0) = true →
      s.arraySize ≤ s.hashKeys.getD c 0 :=
  (reachable_inv h).liveGe

/-- Witness for C2 at the reachable state `wHash` (`Set empty 1000 7`),
whose one live cell is cell 0. -/
theorem hash_keys_outside_array_witness :
    0 < wHash.hashSize ∧ IsLiveKey (wHash.hashKeys.getD 0 0) = true ∧
      wHash.arraySize ≤ wHash.hashKeys.getD 0 0 :=
  ⟨by decide, by decide,
    hash_keys_outside_array wHash
      (Reachable.set empty (Sum.inr 0, wHash) 1000 7 Reachable.init (by decide) (by decide)
        wHash_def) 0 (by decide) (by decide)⟩

/-- Claim C3: after every public operation, `hashFill` (live cells plus
tombstones) never exceeds three quarters of `hashSize`. -/
theorem hash_fill_cap (s : ArrayWithHash) (h : Reachable s) :
    s.hashFill ≤ 3 * s.hashSize / 4 := by
  have hf := (reachable_inv h).fillCap
  omega

/-- Witness for C3 at the reachable state `wHash`. -/
theorem hash_fill_cap_witness : wHash.hashFill ≤ 3 * wHash.hashSize / 4 :=
  hash_fill_cap wHash
    (Reachable.set empty (Sum.inr 0, wHash) 1000 7 Reachable.init (by decide) (by decide)
      wHash_def)

/-- Claim C4: after every sequence of public operations, `GetSize` equals
`arrayCount + hashCount`, and this equals the number of user keys `Get` maps
to a non-empty value. -/
theorem size_spec (s : ArrayWithHash) (h : Reachable s) :
    GetSize s = s.arrayCount + s.hashCount ∧ GetSize s = presentCount s := by
  refine ⟨rfl, ?_⟩
  rw [presentCount_eq (reachable_inv h)]
  rfl

/-- Witness for C4 at the reachable state `wArr` (`Set empty 5 99`). -/
theorem size_spec_witness :
    GetSize wArr = wArr.arrayCount + wArr.hashCount ∧ GetSize wArr = presentCount wArr :=
  size_spec wArr
    (Reachable.set empty (Sum.inl 5, wArr) 5 99 Reachable.init (by decide) (by decide)
      wArr_def)

end ArrayWithHash

namespace ArrayWithHash

open AWH

/-- Claim C5 (corrected): `SetIfNew` on a present key keeps the stored value
and returns a pointer to it; on an absent key it inserts and returns null, and
only then does the composite `SetIfNew k v1; SetIfNew k v2` leave `Get k = v1`
(the claim's composite sentence needs the key to be absent beforehand). -/
theorem setIfNew_spec (s : ArrayWithHash) (key v1 v2 : Nat) (h : Reachable s)
    (hk : IsUserKey key) (h1 : v1 ≠ EMPTY_VALUE) (h2 : v2 ≠ EMPTY_VALUE) :
    (∀ w, model s key = some w →
      ∃ loc s', SetIfNew s key v1 = some (some loc, s') ∧ locValue s' loc = w ∧
        ∀ k', IsUserKey k' → model s' k' = model s k') ∧
    (model s key = none →
      ∃ s1 p2, SetIfNew s key v1 = some (none, s1) ∧ model s1 key = some v1 ∧
        SetIfNew s1 key v2 = some p2 ∧ Get p2.2 key = some v1) := by
  have hi := reachable_inv h
  obtain ⟨hpres, habs⟩ := SetIfNew_ok hi hk h1
  constructor
  · intro w hw
    obtain ⟨loc, s', heq, hinv, hmod, hval⟩ := hpres w hw
    exact ⟨loc, s', heq, hval, hmod⟩
  · intro hn
    obtain ⟨s1, heq1, hinv1, hmod1⟩ := habs hn
    have hm1 : model s1 key = some v1 := by
      rw [hmod1 key hk, if_pos rfl]
    obtain ⟨hpres1, _⟩ := SetIfNew_ok hinv1 hk h2
    obtain ⟨loc2, s2, heq2, hinv2, hmod2, hval2⟩ := hpres1 v1 hm1
    refine ⟨s1, (some loc2, s2), heq1, hm1, heq2, ?_⟩
    show Get s2 key = some v1
    rw [get_eq_model hinv2 hk, hmod2 key hk, hm1]
    rfl

/-- Witness for C5 at the reachable state `wArr`, whose key 5 holds 99:
`SetIfNew` leaves the 99 in place and hands back its location. -/
theorem setIfNew_spec_witness :
    IsUserKey 5 ∧ (99 : Nat) ≠ EMPTY_VALUE ∧ model wArr 5 = some 99 ∧
    ∃ loc s', SetIfNew wArr 5 7 = some (some loc, s') ∧ locValue s' loc = 99 ∧
      ∀ k', IsUserKey k' → model s' k' = model wArr k' :=
  ⟨by decide, by decide, by decide,
    (setIfNew_spec wArr 5 7 8
      (Reachable.set empty (Sum.inl 5, wArr) 5 99 Reachable.init (by decide) (by decide)
        wArr_def) (by decide) (by decide) (by decide)).1 99 (by decide)⟩

/-- Counterexample to C5's composite sentence as stated: at the reachable
state `wArr` the key 5 is already present with value 99, and after
`SetIfNew 5 7; SetIfNew 5 9` the lookup still returns 99, not the first
written value 7. -/
theorem setIfNew_twice_cex :
    Reachable wArr ∧ IsUserKey 5 ∧ (7 : Nat) ≠ EMPTY_VALUE ∧ (9 : Nat) ≠ EMPTY_VALUE ∧
    ∃ p1 p2, SetIfNew wArr 5 7 = some p1 ∧ SetIfNew p1.2 5 9 = some p2 ∧
      Get p2.2 5 = some 99 ∧ some (99 : Nat) ≠ some 7 :=
  ⟨Reachable.set empty (Sum.inl 5, wArr) 5 99 Reachable.init (by decide) (by decide)
      wArr_def,
    by decide, by decide, by decide, ⟨_, _, rfl, rfl, by decide, by decide⟩⟩

/-- Claim C6 (corrected): `Set k v; Remove k` leaves `Get k` reporting the
empty value, and restores `Size` to its pre-`Set` value provided the key was
absent before the `Set` (the claim omits that precondition). -/
theorem set_remove_spec (s : ArrayWithHash) (key value : Nat) (h : Reachable s)
    (hk : IsUserKey key) (hv : value ≠ EMPTY_VALUE) (habs : model s key = none) :
    ∃ p s2, Set s key value = some p ∧ Remove p.2 key = some s2 ∧
      Get s2 key = some EMPTY_VALUE ∧ GetSize s2 = GetSize s := by
  have hi := reachable_inv h
  obtain ⟨loc, s1, heq1, hinv1, hmod1⟩ := Set_ok hi hk hv
  obtain ⟨s2, heq2, hinv2, hmod2⟩ := Remove_ok hinv1 hk
  refine ⟨(loc, s1), s2, heq1, heq2, ?_, ?_⟩
  · rw [get_eq_model hinv2 hk, hmod2 key hk, if_pos rfl]
    rfl
  · have hmq : ∀ k', IsUserKey k' → model s2 k' = model s k' := by
      intro k' hk'
      rw [hmod2 k' hk', hmod1 k' hk']
      by_cases hkk : k' = key
      · rw [if_pos hkk, hkk, habs]
      · rw [if_neg hkk, if_neg hkk]
    have hcong := presentCount_congr hi hinv2 hmq
    have he2 := presentCount_eq hinv2
    have he0 := presentCount_eq hi
    show s2.arrayCount + s2.hashCount = s.arrayCount + s.hashCount
    omega

/-- Witness for C6 from the empty container with key 5 absent. -/
theorem set_remove_spec_witness :
    IsUserKey 5 ∧ (99 : Nat) ≠ EMPTY_VALUE ∧ model empty 5 = none ∧
    ∃ p s2, Set empty 5 99 = some p ∧ Remove p.2 5 = some s2 ∧
      Get s2 5 = some EMPTY_VALUE ∧ GetSize s2 = GetSize empty :=
  ⟨by decide, by decide, by decide,
    set_remove_spec empty 5 99 Reachable.init (by decide) (by decide) (by decide)⟩

/-- Counterexample to C6 as stated: at the reachable state `wArr` the key 5
is already present, `Size` is 1 before `Set 5 7; Remove 5`, and 0 after — the
pre-`Set` size is not restored. -/
theorem set_remove_cex :
    Reachable wArr ∧ IsUserKey 5 ∧ (7 : Nat) ≠ EMPTY_VALUE ∧ GetSize wArr = 1 ∧
    ∃ p s2, Set wArr 5 7 = some p ∧ Remove p.2 5 = some s2 ∧ GetSize s2 = 0 :=
  ⟨Reachable.set empty (Sum.inl 5, wArr) 5 99 Reachable.init (by decide) (by decide)
      wArr_def,
    by decide, by decide, by decide, ⟨_, _, rfl, rfl, by decide⟩⟩

end ArrayWithHash

namespace ArrayWithHash

open AWH

/-- Claim C7: for every state satisfying the invariants and every pending key,
`AdaptSizes` never shrinks either tier: the chosen sizes, and the sizes of the
state it returns, are at least the current ones. -/
theorem adaptSizes_monotone (s : ArrayWithHash) (newKey : Nat) (h : Inv s)
    (hk : newKey < 2 ^ 32) :
    s.arraySize ≤ (adaptChoice s newKey).1 ∧ s.hashSize ≤ (adaptChoice s newKey).2 ∧
    ∃ s', AdaptSizes s newKey = some s' ∧
      s.arraySize ≤ s'.arraySize ∧ s.hashSize ≤ s'.hashSize := by
  obtain ⟨ha, _, _, hh, _, _⟩ := adaptChoice_spec h hk
  obtain ⟨s', hrun, _, _, hA, hH, _, _⟩ := AdaptSizes_ok h hk
  exact ⟨ha, hh, s', hrun, hA, hH⟩

/-- Witness for C7 at the empty container and pending key 5. -/
theorem adaptSizes_monotone_witness :
    empty.arraySize ≤ (adaptChoice empty 5).1 ∧ empty.hashSize ≤ (adaptChoice empty 5).2 ∧
    ∃ s', AdaptSizes empty 5 = some s' ∧
      empty.arraySize ≤ s'.arraySize ∧ empty.hashSize ≤ s'.hashSize :=
  adaptSizes_monotone empty 5 inv_empty (by decide)

/-- Claim C8: `Clear` empties both tiers (every array slot becomes the empty
value, every hash key becomes `EMPTY_KEY`, every user key reads back absent),
zeroes the three counters, and keeps the sizes and buffer lengths. -/
theorem clear_spec (s : ArrayWithHash) (h : Reachable s) :
    (Clear s).arraySize = s.arraySize ∧ (Clear s).hashSize = s.hashSize ∧
    (Clear s).arrayValues.length = s.arrayValues.length ∧
    (Clear s).hashKeys.length = s.hashKeys.length ∧
    (Clear s).hashValues.length = s.hashValues.length ∧
    (Clear s).arrayCount = 0 ∧ (Clear s).hashCount = 0 ∧ (Clear s).hashFill = 0 ∧
    (∀ i, i < s.arraySize → (Clear s).arrayValues.getD i 0 = EMPTY_VALUE) ∧
    (∀ c, c < s.hashSize → (Clear s).hashKeys.getD c 0 = EMPTY_KEY) ∧
    (∀ k, IsUserKey k → Get (Clear s) k = some EMPTY_VALUE) := by
  have hi := reachable_inv h
  have hkeysE : ∀ c, c < s.hashSize → (Clear s).hashKeys.getD c 0 = EMPTY_KEY := by
    intro c hc
    show (if s.hashSize ≠ 0 ∧ s.hashFill ≠ 0 then List.replicate s.hashSize EMPTY_KEY
      else s.hashKeys).getD c 0 = EMPTY_KEY
    by_cases hg : s.hashSize ≠ 0 ∧ s.hashFill ≠ 0
    · rw [if_pos hg]
      exact getD_replicate hc
    · rw [if_neg hg]
      push_neg at hg
      have hfill0 : s.hashFill = 0 := hg (by omega)
      have hcount := hi.hashFillEq
      rw [hfill0] at hcount
      have hall := List.countP_eq_zero.mp hcount.symm
      have hmem : s.hashKeys.getD c 0 ∈ s.hashKeys := by
        refine getD_mem ?_
        rw [hi.keysLen]
        exact hc
      have hx := hall _ hmem
      simpa using hx
  have harrE : ∀ i, i < s.arraySize → (Clear s).arrayValues.getD i 0 = EMPTY_VALUE := by
    intro i hilt
    show (if s.arraySize ≠ 0 ∧ s.arrayCount ≠ 0 then List.replicate s.arraySize EMPTY_VALUE
      else s.arrayValues).getD i 0 = EMPTY_VALUE
    by_cases hg : s.arraySize ≠ 0 ∧ s.arrayCount ≠ 0
    · rw [if_pos hg]
      exact getD_replicate hilt
    · rw [if_neg hg]
      push_neg at hg
      have hcnt0 : s.arrayCount = 0 := hg (by omega)
      have hcount := hi.arrayCountEq
      rw [hcnt0] at hcount
      have hall := List.countP_eq_zero.mp hcount.symm
      have hmem : s.arrayValues.getD i 0 ∈ s.arrayValues := by
        refine getD_mem ?_
        rw [hi.arrayLen]
        exact hilt
      have hx := hall _ hmem
      simpa using hx
  have hlen1 : (Clear s).arrayValues.length = s.arrayValues.length := by
    show (if s.arraySize ≠ 0 ∧ s.arrayCount ≠ 0 then List.replicate s.arraySize EMPTY_VALUE
      else s.arrayValues).length = s.arrayValues.length
    by_cases hg : s.arraySize ≠ 0 ∧ s.arrayCount ≠ 0
    · rw [if_pos hg, List.length_replicate, hi.arrayLen]
    · rw [if_neg hg]
  have hlen2 : (Clear s).hashKeys.length = s.hashKeys.length := by
    show (if s.hashSize ≠ 0 ∧ s.hashFill ≠ 0 then List.replicate s.hashSize EMPTY_KEY
      else s.hashKeys).length = s.hashKeys.length
    by_cases hg : s.hashSize ≠ 0 ∧ s.hashFill ≠ 0
    · rw [if_pos hg, List.length_replicate, hi.keysLen]
    · rw [if_neg hg]
  have habs : ∀ k, IsUserKey k → Get (Clear s) k = some EMPTY_VALUE := by
    intro k hk
    rw [get_eq_model (clear_inv hi) hk, clear_model hi k hk]
    rfl
  exact ⟨rfl, rfl, hlen1, hlen2, rfl, rfl, rfl, rfl, harrE, hkeysE, habs⟩

/-- Witness for C8 at the reachable state `wHash`. -/
theorem clear_spec_witness :
    (Clear wHash).hashSize = wHash.hashSize ∧ (Clear wHash).hashCount = 0 ∧
    0 < wHash.hashSize ∧ (Clear wHash).hashKeys.getD 0 0 = EMPTY_KEY ∧
    IsUserKey 1000 ∧ Get (Clear wHash) 1000 = some EMPTY_VALUE := by
  obtain ⟨hA, hH, hL1, hL2, hL3, hC1, hC2, hC3, harrE, hkeysE, habs⟩ :=
    clear_spec wHash
      (Reachable.set empty (Sum.inr 0, wHash) 1000 7 Reachable.init (by decide) (by decide)
        wHash_def)
  exact ⟨hH, hC2, by decide, hkeysE 0 (by decide), by decide, habs 1000 (by decide)⟩

/-- Claim C10 (corrected): after `AdaptSizes` for a pending key, either the
key now fits the array tier or the fullness test is false; in both cases the
retried `Set` and `SetIfNew` succeed without growing again, so the
grow-and-retry recursion has depth at most one.  The claim's unconditional
IsHashFull-false assertion alone is refuted by `adaptSizes_full_cex`. -/
theorem adaptSizes_retry_spec (s : ArrayWithHash) (key value : Nat) (h : Reachable s)
    (hk : IsUserKey key) (hv : value ≠ EMPTY_VALUE) :
    ∃ s', AdaptSizes s key = some s' ∧
      (key < s'.arraySize ∨ IsHashFull s'.hashFill s'.hashSize = false) ∧
      (SetRetry s' key value).isSome = true ∧
      (SetIfNewRetry s' key value).isSome = true := by
  have hi := reachable_inv h
  obtain ⟨s', hrun, hinv2, hmod, hA, hH, hcnt, hdisj⟩ := AdaptSizes_ok hi hk.1
  have hbody : ¬ InArray s' key →
      ∃ c, findCellKeyOrEmpty s'.hashKeys s'.hashSize key = some c := by
    intro hin
    have hnf : IsHashFull s'.hashFill s'.hashSize = false := by
      rcases hdisj with hlt | hnf
      · exact absurd hlt hin
      · exact hnf
    have hpos : 0 < s'.hashSize := by
      by_contra h0
      have hz : s'.hashSize = 0 := by omega
      rw [hz, hashFull_of_zero] at hnf
      cases hnf
    exact hinv2.fckeIsSome hpos key
  refine ⟨s', hrun, hdisj, ?_, ?_⟩
  · unfold SetRetry
    by_cases hin : InArray s' key
    · rw [if_pos hin]
      rfl
    · rw [if_neg hin]
      have hnf : IsHashFull s'.hashFill s'.hashSize = false := by
        rcases hdisj with hlt | hnf
        · exact absurd hlt hin
        · exact hnf
      rw [hnf]
      show (hashSetBody s' key value).isSome = true
      obtain ⟨c, hc⟩ := hbody hin
      unfold hashSetBody
      rw [hc]
      rfl
  · unfold SetIfNewRetry
    by_cases hin : InArray s' key
    · rw [if_pos hin]
      rfl
    · rw [if_neg hin]
      have hnf : IsHashFull s'.hashFill s'.hashSize = false := by
        rcases hdisj with hlt | hnf
        · exact absurd hlt hin
        · exact hnf
      rw [hnf]
      show (hashSetIfNewBody s' key value).isSome = true
      obtain ⟨c, hc⟩ := hbody hin
      unfold hashSetIfNewBody
      rw [hc]
      rfl

/-- Witness for C10 from the empty container with pending key 5. -/
theorem adaptSizes_retry_spec_witness :
    IsUserKey 5 ∧ (99 : Nat) ≠ EMPTY_VALUE ∧
    ∃ s', AdaptSizes empty 5 = some s' ∧
      (5 < s'.arraySize ∨ IsHashFull s'.hashFill s'.hashSize = false) ∧
      (SetRetry s' 5 99).isSome = true ∧ (SetIfNewRetry s' 5 99).isSome = true :=
  ⟨by decide, by decide,
    adaptSizes_retry_spec empty 5 99 Reachable.init (by decide) (by decide)⟩

/-- Counterexample to C10's unconditional assertion that `IsHashFull` is
false after `AdaptSizes`: growing the empty container for the array-tier key
5 keeps the hash tier at size 0, on which the fullness test reports true. -/
theorem adaptSizes_full_cex :
    Reachable empty ∧ IsUserKey 5 ∧
    ∃ s', AdaptSizes empty 5 = some s' ∧ s'.hashSize = 0 ∧
      IsHashFull s'.hashFill s'.hashSize = true :=
  ⟨Reachable.init, by decide, ⟨_, rfl, by decide, by decide⟩⟩

end ArrayWithHash
